import Mathlib

/-!
RVM and RASM: the assembler and the virtual machine.

A shallow embedding of the RASM assembler (`src/Rasm/rasmLexer.cpp`,
`src/Rasm/rasmTranslator.cpp`) and of the RVM virtual machine
(`src/RVM/rvm.hpp`), followed by the properties proved about them.

Machine integers are natural numbers; every place where the C++ code
truncates (`uint8_t`, `uint64_t`) carries an explicit `% 256` or `% 2 ^ 64`.
-/

namespace Rasm

/-! ## Lexer (`rasmLexer.hpp`, `rasmLexer.cpp`) -/

/-- The enumeration `RasmLexer::TokenType`. -/
inductive TokenType where
  | Size | BinaryOperator | Mov | Push | Pop | Jump | Ret | Test | Call | Int
  | Integer | Label | Register | Comma | Plus | Minus | LeftPar | RightPar
  | Colon | Unknown | None | Eol | Eof
  deriving DecidableEq, Repr

/-- The struct `RasmLexer::token_t`.  `operator>>` sets the type tag and the active
alternative of the `std::variant` payload together, and the translator reads a payload
only after testing the tag, so a token is a row together with a tagged payload: one
constructor for each `TokenType`, carrying the alternative that `operator>>` stores for it
(`uint8_t` opcode / register id / size, the `std::pair` of a jump, the `std::string`
lexeme, the `uint64_t` integer). -/
inductive token_t where
  | Size (row : Nat) (size : Nat)
  | BinaryOperator (row : Nat) (opcode : Nat)
  | Mov (row : Nat) (opcode : Nat)
  | Push (row : Nat) (opcode : Nat)
  | Pop (row : Nat) (opcode : Nat)
  | Jump (row : Nat) (opcode : Nat) (mode : Nat)
  | Ret (row : Nat) (opcode : Nat)
  | Test (row : Nat) (opcode : Nat)
  | Call (row : Nat) (opcode : Nat)
  | Int (row : Nat) (opcode : Nat)
  | Integer (row : Nat) (integer : Nat)
  | Label (row : Nat) (lexeme : String)
  | Register (row : Nat) (registerId : Nat)
  | Comma (row : Nat)
  | Plus (row : Nat)
  | Minus (row : Nat)
  | LeftPar (row : Nat)
  | RightPar (row : Nat)
  | Colon (row : Nat)
  | Unknown (row : Nat) (lexeme : String)
  | None (row : Nat)
  | Eol (row : Nat)
  | Eof (row : Nat)
  deriving DecidableEq, Repr

/-- The field `token_t::type`. -/
def token_t.type : token_t → TokenType
  | .Size _ _ => .Size
  | .BinaryOperator _ _ => .BinaryOperator
  | .Mov _ _ => .Mov
  | .Push _ _ => .Push
  | .Pop _ _ => .Pop
  | .Jump _ _ _ => .Jump
  | .Ret _ _ => .Ret
  | .Test _ _ => .Test
  | .Call _ _ => .Call
  | .Int _ _ => .Int
  | .Integer _ _ => .Integer
  | .Label _ _ => .Label
  | .Register _ _ => .Register
  | .Comma _ => .Comma
  | .Plus _ => .Plus
  | .Minus _ => .Minus
  | .LeftPar _ => .LeftPar
  | .RightPar _ => .RightPar
  | .Colon _ => .Colon
  | .Unknown _ _ => .Unknown
  | .None _ => .None
  | .Eol _ => .Eol
  | .Eof _ => .Eof

/-- The field `token_t::row`. -/
def token_t.row : token_t → Nat
  | .Size r _ | .BinaryOperator r _ | .Mov r _ | .Push r _ | .Pop r _ | .Jump r _ _
  | .Ret r _ | .Test r _ | .Call r _ | .Int r _ | .Integer r _ | .Label r _
  | .Register r _ | .Comma r | .Plus r | .Minus r | .LeftPar r | .RightPar r
  | .Colon r | .Unknown r _ | .None r | .Eol r | .Eof r => r

/-- The assignment `current.row = row_` of `getNextToken`. -/
def token_t.setRow (r : Nat) : token_t → token_t
  | .Size _ a => .Size r a
  | .BinaryOperator _ a => .BinaryOperator r a
  | .Mov _ a => .Mov r a
  | .Push _ a => .Push r a
  | .Pop _ a => .Pop r a
  | .Jump _ a b => .Jump r a b
  | .Ret _ a => .Ret r a
  | .Test _ a => .Test r a
  | .Call _ a => .Call r a
  | .Int _ a => .Int r a
  | .Integer _ a => .Integer r a
  | .Label _ a => .Label r a
  | .Register _ a => .Register r a
  | .Comma _ => .Comma r
  | .Plus _ => .Plus r
  | .Minus _ => .Minus r
  | .LeftPar _ => .LeftPar r
  | .RightPar _ => .RightPar r
  | .Colon _ => .Colon r
  | .Unknown _ a => .Unknown r a
  | .None _ => .None r
  | .Eol _ => .Eol r
  | .Eof _ => .Eof r

/-- The comparison lambda of `CaseInsensitiveString::operator==`: `tolower(l) == tolower(r)`. -/
def ciCharEq (l r : Char) : Bool := l.toLower == r.toLower

/-- The operator `CaseInsensitiveString::operator==`: equal sizes and `std::equal` under
`tolower`. -/
def ciEq : List Char → List Char → Bool
  | [], [] => true
  | l :: ls, r :: rs => ciCharEq l r && ciEq ls rs
  | _, _ => false

/-- The calls `find` / `at` on an `unordered_map<CaseInsensitiveString, V>`: the entry whose
key equals the lexeme under `operator==` (the hash is taken on the lower-cased string,
so equal keys share a bucket). -/
def ciFind {V : Type} (table : List (String × V)) (lex : List Char) : Option V :=
  match table with
  | [] => none
  | (k, v) :: rest => if ciEq k.data lex then some v else ciFind rest lex

/-- The table `RasmLexer::registers_`. -/
def registers_ : List (String × Nat) :=
  [("r0", 0), ("r1", 1), ("r2", 2), ("r3", 3), ("r4", 4), ("r5", 5), ("r6", 6), ("r7", 7),
   ("ir", 8), ("fg", 9), ("ip", 10), ("sp", 11), ("bp", 12)]

/-- The table `RasmLexer::binary_operators_`. -/
def binary_operators_ : List (String × Nat) :=
  [("add", 0), ("sub", 1), ("and", 2), ("or", 3), ("xor", 4), ("not", 5), ("cmp", 13)]

/-- The table `RasmLexer::jumps_`. -/
def jumps_ : List (String × Nat) :=
  [("jmp", 0b000), ("jz", 0b010), ("jnz", 0b110), ("jp", 0b011), ("jnp", 0b111),
   ("jn", 0b001), ("jnn", 0b101), ("je", 0b010), ("jne", 0b110), ("jg", 0b011),
   ("jle", 0b111), ("jl", 0b001), ("jge", 0b101)]

/-- The table `RasmLexer::others_`. -/
def others_ : List (String × (TokenType × Nat)) :=
  [("mov", (.Mov, 6)), ("push", (.Push, 7)), ("pop", (.Pop, 8)), ("call", (.Call, 10)),
   ("ret", (.Ret, 11)), ("int", (.Int, 12)), ("test", (.Test, 14))]

/-- The table `RasmLexer::sizes_`. -/
def sizes_ : List (String × Nat) :=
  [("byte", 0), ("word", 1), ("dword", 2), ("qword", 3)]

/-- The pair `auto [t, c] = others_.at(lex)` stored as `token.type = t; token.data = c`. -/
def otherToken (t : TokenType) (c : Nat) : token_t :=
  match t with
  | .Mov => .Mov 0 c
  | .Push => .Push 0 c
  | .Pop => .Pop 0 c
  | .Call => .Call 0 c
  | .Ret => .Ret 0 c
  | .Int => .Int 0 c
  | .Test => .Test 0 c
  | _ => .None 0

/-- The `isalpha` branch of `operator>>(std::istream&, token_t&)`: the lexeme is looked up in
`registers_`, `binary_operators_`, `jumps_`, `others_`, `sizes_` in that order and is a
`Label` on a miss.  The row (still `0` here) is set by `getNextToken`. -/
def classify (lex : List Char) : token_t :=
  match ciFind registers_ lex with
  | some r => .Register 0 r
  | none =>
    match ciFind binary_operators_ lex with
    | some c => .BinaryOperator 0 c
    | none =>
      match ciFind jumps_ lex with
      | some m => .Jump 0 9 m
      | none =>
        match ciFind others_ lex with
        | some (t, c) => otherToken t c
        | none =>
          match ciFind sizes_ lex with
          | some z => .Size 0 z
          | none => .Label 0 (String.mk lex)

/-- The C function `isblank` in the "C" locale. -/
def isblank (c : Char) : Bool := c == ' ' || c == '\t'

/-- The C function `isspace` in the "C" locale. -/
def isspace (c : Char) : Bool :=
  c == ' ' || c == '\t' || c == '\n' || c.toNat == 11 || c.toNat == 12 || c == '\r'

/-- The C function `isalpha` in the "C" locale. -/
def isalpha (c : Char) : Bool := c.isAlpha

/-- The C function `isdigit`. -/
def isdigit (c : Char) : Bool := c.isDigit

/-- The helper `readWhile(stream, pred)` on the characters still unread: the longest run of
characters satisfying `pred`, and the rest.  `atEof` is the value of `pred` on the
character that `peek()` yields at end of input (`char(EOF)`): when it is `true` the loop
`while (pred(stream.peek()))` never exits, which is the result `none`. -/
def readWhile (pred : Char → Bool) (atEof : Bool) : List Char → Option (List Char × List Char)
  | [] => if atEof then none else some ([], [])
  | c :: cs =>
    if pred c then
      match readWhile pred atEof cs with
      | some (res, rest) => some (c :: res, rest)
      | none => none
    else some ([], c :: cs)

/-- The helper `dropWhile(stream, pred)`: as `readWhile`, keeping only the rest. -/
def dropWhile (pred : Char → Bool) (atEof : Bool) (cs : List Char) : Option (List Char) :=
  (readWhile pred atEof cs).map Prod.snd

/-- The value of a run of decimal digits, most significant first. -/
def digitsValue (ds : List Char) : Nat :=
  ds.foldl (fun acc d => 10 * acc + (d.toNat - '0'.toNat)) 0

/-- The state of a `RasmLexer`: the characters of `fin_` not yet read and `row_`. -/
structure RasmLexer where
  fin_ : List Char
  row_ : Nat := 1
  deriving Repr

/-- The outcome of one call of `getNextToken`. -/
inductive LexResult where
  /-- the call returns this token and leaves the lexer in this state -/
  | token (t : token_t) (lexer : RasmLexer)
  /-- the call never returns: a read loop spins at end of input -/
  | diverges
  /-- the call throws: `std::stoull` reports `std::out_of_range` -/
  | throws
  deriving Repr

/-- The operator `operator>>(std::istream&, token_t&)` on the unread characters; the row of the
token it yields is still `0`. -/
def readToken : List Char → Option (Option (token_t × List Char))
  | [] => some (some (.Eof 0, []))
  | c :: cs =>
    if isalpha c then
      match readWhile (fun c => isalpha c || isdigit c || c == '_') false (c :: cs) with
      | some (lex, rest) => some (some (classify lex, rest))
      | none => none
    else if isdigit c then
      match readWhile isdigit false (c :: cs) with
      | some (num, rest) =>
        if digitsValue num < 2 ^ 64 then some (some (.Integer 0 (digitsValue num), rest))
        else some none
      | none => none
    else if c == '-' then some (some (.Minus 0, cs))
    else if c == '+' then some (some (.Plus 0, cs))
    else if c == ':' then some (some (.Colon 0, cs))
    else if c == '[' then some (some (.LeftPar 0, cs))
    else if c == ']' then some (some (.RightPar 0, cs))
    else if c == '\n' then some (some (.Eol 0, cs))
    else if c == ',' then some (some (.Comma 0, cs))
    else
      match readWhile (fun c => !isspace c) true (c :: cs) with
      | some (lex, rest) => some (some (.Unknown 0 (String.mk lex), rest))
      | none => none

/-- The method `RasmLexer::getNextToken`: blanks are dropped, then a `;` comment up to the
line feed, then one token is read; an `Eol` increments `row_` before the row is stored. -/
def getNextToken (l : RasmLexer) : LexResult :=
  match dropWhile isblank false l.fin_ with
  | none => .diverges
  | some cs =>
    let afterComment :=
      match cs with
      | ';' :: _ => dropWhile (fun c => c != '\n') true cs
      | _ => some cs
    match afterComment with
    | none => .diverges
    | some cs =>
      match readToken cs with
      | none => .diverges
      | some none => .throws
      | some (some (t, rest)) =>
        let row := if t.type = .Eol then l.row_ + 1 else l.row_
        .token (t.setRow row) { fin_ := rest, row_ := row }

/-- The tokens that successive calls of `getNextToken` return before the first `Eof`, and the
row of that `Eof`; `none` when a call throws or does not return, when the lexer yields
a token without reading a character (it then yields it forever), or when `fuel` calls
did not reach the end of input. -/
def tokensFuel : Nat → RasmLexer → Option (List token_t × Nat)
  | 0, _ => none
  | fuel + 1, l =>
    match getNextToken l with
    | .token (.Eof row) _ => some ([], row)
    | .token t l' =>
      if l'.fin_.length < l.fin_.length then
        match tokensFuel fuel l' with
        | some (ts, row) => some (t :: ts, row)
        | none => none
      else none
    | _ => none

/-- The token stream of a source text. -/
def tokens (src : String) : Option (List token_t × Nat) :=
  tokensFuel (src.length + 1) { fin_ := src.data }

/-! ## Translator (`rasmTranslator.hpp`, `rasmTranslator.cpp`) -/

/-- The members of a `RasmTranslator`, with the two streams it works on: `lexer_` holds the
tokens that the following calls of `lexer_->getNextToken()` return before `Eof`
(`eofRow_` is the row of that `Eof`), and `fout` the bytes written to the output so far.
`labels_` (an `unordered_map`) and `unresolved_labels_` (an `unordered_multimap`) are
association lists. -/
structure RasmTranslator where
  byte_code_buffer_ : List Nat := []
  labels_ : List (String × Nat) := []
  unresolved_labels_ : List (String × Nat) := []
  lexer_ : List token_t := []
  eofRow_ : Nat := 1
  errors_ : List String := []
  has_errors_ : Bool := false
  curr_ip_ : Nat := 0
  fout : List Nat := []
  deriving Repr, DecidableEq

/-- The class `RasmTranslator::Status`. -/
structure Status where
  ok_ : Bool
  errors_ : List String
  deriving Repr, DecidableEq

/-- The call `lexer_->getNextToken()`: the next token of the stream, `Eof` once it is used up. -/
def nextToken (s : RasmTranslator) : token_t × RasmTranslator :=
  match s.lexer_ with
  | [] => (.Eof s.eofRow_, s)
  | t :: ts => (t, { s with lexer_ := ts })

/-- The loop of `recover_` on the token stream: tokens are taken up to and including the
first `Eol` or `Eof`. -/
def dropLine : List token_t → List token_t
  | [] => []
  | t :: ts => if t.type = .Eol ∨ t.type = .Eof then ts else dropLine ts

/-- The method `recover_`. -/
def recover_ (s : RasmTranslator) : RasmTranslator :=
  { s with lexer_ := dropLine s.lexer_ }

/-- The method `log_error_`. -/
def log_error_ (s : RasmTranslator) (message : String) : RasmTranslator :=
  recover_ { s with errors_ := s.errors_ ++ [message], has_errors_ := true }

/-- The method `check_end_of_line_`: `true` when the line is empty or starts with `Eol` or
`Eof`. -/
def atEndOfLine : List token_t → Bool
  | [] => true
  | t :: _ => t.type = .Eol ∨ t.type = .Eof

/-- The method `check_end_of_line_`. -/
def check_end_of_line_ (s : RasmTranslator) (line : List token_t) (error : String) :
    Bool × RasmTranslator :=
  if atEndOfLine line then (true, s) else (false, log_error_ s error)

/-- The bytes `x >> (64 - 8 * i) & 0xFF` for `i = 1 .. 8`: the big-endian encoding of a
64-bit value. -/
def be8 (x : Nat) : List Nat :=
  (List.range 8).map (fun j => (x >>> (64 - 8 * (j + 1))) % 256)

/-- The inner loop of `try_resolve_label_`:
`byte_code_buffer_[pos + j] = ip >> (64 - 8 * (j + 1)) & 0xFF` for `j = 0 .. 7`. -/
def patch (buf : List Nat) (pos ip : Nat) : List Nat :=
  (List.range 8).foldl (fun b j => b.set (pos + j) ((ip >>> (64 - 8 * (j + 1))) % 256)) buf

/-- The method `write_`. -/
def write_ (s : RasmTranslator) : RasmTranslator :=
  if s.has_errors_ then { s with byte_code_buffer_ := [] }
  else { s with fout := s.fout ++ s.byte_code_buffer_, byte_code_buffer_ := [] }

/-- The method `try_resolve_label_`: every pending offset of `label` is patched, then the
entries of `label` are erased. -/
def try_resolve_label_ (s : RasmTranslator) (label : String) (ip : Nat) : RasmTranslator :=
  { s with
    byte_code_buffer_ :=
      ((s.unresolved_labels_.filter (fun kv => kv.1 = label)).map Prod.snd).foldl
        (fun b pos => patch b pos ip) s.byte_code_buffer_
    unresolved_labels_ := s.unresolved_labels_.filter (fun kv => kv.1 ≠ label) }

/-- The call `labels_.insert` of `handle_new_labels_`: an existing binding of the key is kept. -/
def insertLabel (labels : List (String × Nat)) (label : String) (ip : Nat) :
    List (String × Nat) :=
  if (labels.lookup label).isSome then labels else labels ++ [(label, ip)]

/-- The text `"at row " + std::to_string(row)`. -/
def atRow (row : Nat) : String := "at row " ++ toString row

/-- The method `handle_new_labels_`; the second component is the line left in the deque. -/
def handle_new_labels_ (s : RasmTranslator) : List token_t → RasmTranslator × List token_t
  | .Label row label :: .Colon _ :: line =>
    let s1 :=
      if (s.labels_.lookup label).isSome then
        log_error_ s (atRow row ++ " label \'" ++ label ++ "\' was redefined")
      else s
    let s2 := { s1 with labels_ := insertLabel s1.labels_ label s1.curr_ip_ }
    handle_new_labels_ (try_resolve_label_ s2 label s2.curr_ip_) line
  | .Label row label :: line =>
    (log_error_ s (atRow row ++ " unexpected token \'" ++ label ++ "\'"), line)
  | line => (s, line)

/-- The calls `byte_code_buffer_.push_back(b)` for the bytes `b` of a list, in order. -/
def push_back (s : RasmTranslator) (bytes : List Nat) : RasmTranslator :=
  { s with byte_code_buffer_ := s.byte_code_buffer_ ++ bytes }

/-- The pushes of some bytes and the statement `curr_ip_ += len` on the `uint64_t` counter. -/
def emit (s : RasmTranslator) (bytes : List Nat) (len : Nat) : RasmTranslator :=
  { push_back s bytes with curr_ip_ := (s.curr_ip_ + len) % 2 ^ 64 }

/-- The method `handle_arithmetic_`. -/
def handle_arithmetic_ (s : RasmTranslator) : List token_t → RasmTranslator × List token_t
  | .BinaryOperator row fstByte :: line =>
    match line with
    | .Register _ dst :: line =>
      match line with
      | .Comma _ :: line =>
        match line with
        | .Register _ src :: line =>
          if atEndOfLine line then
            (emit s [fstByte, (((dst <<< 4) % 256) ||| src) % 256] 2, line)
          else (log_error_ s (atRow row ++ " unexpected token after binary operation"), line)
        | line =>
          (log_error_ s (atRow row ++ " expected two registers after binary operator"), line)
      | line => (log_error_ s (atRow row ++ " expected comma between registers"), line)
    | line => (log_error_ s (atRow row ++ " expected register after binary operator"), line)
  | line => (s, line)

/-- The tail of `handle_jumps_`, from the check for a label on. -/
def handle_jump_target_ (s : RasmTranslator) (row : Nat) :
    List token_t → RasmTranslator × List token_t
  | .Label _ label :: line =>
    if atEndOfLine line then
      match s.labels_.lookup label with
      | none =>
        (push_back
          { s with
            unresolved_labels_ := s.unresolved_labels_ ++ [(label, s.byte_code_buffer_.length)] }
          (List.replicate 8 0), line)
      | some dst => (push_back s (be8 dst), line)
    else (log_error_ s (atRow row ++ " unexpected token after jump statement"), line)
  | line => (log_error_ s (atRow row ++ " expected label after jump"), line)

/-- The method `handle_jumps_`: the opcode (and the header of a jump) is pushed and `curr_ip_`
advanced before the operand is checked. -/
def handle_jumps_ (s : RasmTranslator) : List token_t → RasmTranslator × List token_t
  | .Jump row fstByte sndByte :: line =>
    handle_jump_target_ (emit s [fstByte, (sndByte <<< 5) % 256] 10) row line
  | .Call row opcode :: line =>
    handle_jump_target_ (emit s [opcode] 9) row line
  | line => (s, line)

/-- The method `get_reg_and_offset_` after its first two statements (`row` is taken, the
`LeftPar` is popped); the offset is kept as the 64-bit pattern of the `int64_t` that the
C++ pair holds. -/
def get_reg_and_offset_from_ (s : RasmTranslator) (row : Nat) :
    List token_t → Option (Nat × Nat) × RasmTranslator × List token_t
  | .Register _ reg :: line =>
    match line with
    | .RightPar _ :: line => (some (reg, 0), s, line)
    | .Plus _ :: line =>
      match line with
      | .Integer _ k :: line =>
        match line with
        | .RightPar _ :: line => (some (reg, k), s, line)
        | line =>
          (none, log_error_ s (atRow row ++ " expected closing memory access bracket"), line)
      | line => (none, log_error_ s (atRow row ++ " offset expected"), line)
    | .Minus _ :: line =>
      match line with
      | .Integer _ k :: line =>
        match line with
        | .RightPar _ :: line => (some (reg, k ||| 2 ^ 63), s, line)
        | line =>
          (none, log_error_ s (atRow row ++ " expected closing memory access bracket"), line)
      | line => (none, log_error_ s (atRow row ++ " offset expected"), line)
    | line => (none, log_error_ s (atRow row ++ " unexpected memory access format"), line)
  | line =>
    (none, log_error_ s (atRow row ++ " expected register as base for memory access"), line)

/-- The method `get_reg_and_offset_`, entered with the `LeftPar` at the head of the line. -/
def get_reg_and_offset_ (s : RasmTranslator) :
    List token_t → Option (Nat × Nat) × RasmTranslator × List token_t
  | [] => (none, s, [])
  | lpar :: line => get_reg_and_offset_from_ s lpar.row line

/-- The branch of `handle_mov_` taken when a register follows `mov`: the line starts at the
token after that register. -/
def handle_mov_to_reg_ (s : RasmTranslator) (row opcode dstReg : Nat) :
    List token_t → RasmTranslator × List token_t
  | .Comma _ :: line =>
    match line with
    | .Minus _ :: line =>
      match line with
      | .Integer _ num :: line =>
        if atEndOfLine line then
          (emit s ([opcode, (0b00000000 ||| dstReg) % 256] ++ be8 (num ||| 2 ^ 63)) 10, line)
        else (log_error_ s (atRow row ++ " unexpected token after move statement"), line)
      | line => (log_error_ s (atRow row ++ " expected integer to move"), line)
    | .Integer _ num :: line =>
      if atEndOfLine line then
        (emit s ([opcode, (0b00000000 ||| dstReg) % 256] ++ be8 num) 10, line)
      else (log_error_ s (atRow row ++ " unexpected token after move statement"), line)
    | .Register _ srcReg :: line =>
      if atEndOfLine line then
        (emit s [opcode, (0b01000000 ||| dstReg) % 256, (srcReg <<< 4) % 256] 3, line)
      else (log_error_ s (atRow row ++ " unexpected token after move statement"), line)
    | .Size _ size :: line =>
      match line with
      | .LeftPar _ :: _ =>
        match get_reg_and_offset_ s line with
        | (none, s, line) => (s, line)
        | (some (srcReg, offset), s, line) =>
          if atEndOfLine line then
            (emit s ([opcode, (0b10000000 ||| dstReg ||| (size <<< 4)) % 256,
                      (srcReg <<< 4) % 256] ++ be8 offset) 11, line)
          else (log_error_ s (atRow row ++ " unexpected token after move statement"), line)
      | line => (log_error_ s (atRow row ++ " expected move source address"), line)
    | line => (log_error_ s (atRow row ++ " unexpected opcode and operands combination"), line)
  | line => (log_error_ s (atRow row ++ " expected move source after comma"), line)

/-- The branch of `handle_mov_` taken when a size follows `mov`: the line starts at the token
after that size. -/
def handle_mov_to_mem_ (s : RasmTranslator) (row opcode size : Nat) :
    List token_t → RasmTranslator × List token_t
  | .LeftPar r :: line =>
    match get_reg_and_offset_ s (.LeftPar r :: line) with
    | (none, s, line) => (s, line)
    | (some (dstReg, offset), s, line) =>
      match line with
      | .Comma _ :: line =>
        match line with
        | .Register _ srcReg :: line =>
          if atEndOfLine line then
            (emit s ([opcode, (0b11000000 ||| dstReg ||| (size <<< 4)) % 256,
                      (srcReg <<< 4) % 256] ++ be8 offset) 11, line)
          else (log_error_ s (atRow row ++ " unexpected token after move statement"), line)
        | line => (log_error_ s (atRow row ++ " expected move source register"), line)
      | line => (log_error_ s ("at row" ++ toString row ++ " expected move source after comma"), line)
  | line => (log_error_ s (atRow row ++ " expected destination move address"), line)

/-- The method `handle_mov_`. -/
def handle_mov_ (s : RasmTranslator) : List token_t → RasmTranslator × List token_t
  | .Mov row opcode :: line =>
    match line with
    | .Register _ dstReg :: line => handle_mov_to_reg_ s row opcode dstReg line
    | .Size _ size :: line => handle_mov_to_mem_ s row opcode size line
    | line => (log_error_ s (atRow row ++ " expected move destination"), line)
  | line => (s, line)

/-- The closing call `check_end_of_line_(line, ..)` of `handle_others_`. -/
def handle_others_end_ (s : RasmTranslator) (row : Nat) (line : List token_t) :
    RasmTranslator × List token_t :=
  ((check_end_of_line_ s line (atRow row ++ " unexpected token found")).2, line)

/-- The `Push` / `Pop` case of `handle_others_`, after the opcode is pushed. -/
def handle_push_pop_ (s : RasmTranslator) (row : Nat) :
    List token_t → RasmTranslator × List token_t
  | .Size _ size :: line =>
    match line with
    | .Register _ reg :: line =>
      handle_others_end_ (push_back s [(((size <<< 2) % 256) ||| (reg <<< 4)) % 256]) row line
    | line => (log_error_ s (atRow row ++ " expected register to push/pop"), line)
  | line => (log_error_ s (atRow row ++ " expected size after push/pop"), line)

/-- The method `handle_others_`. -/
def handle_others_ (s : RasmTranslator) : List token_t → RasmTranslator × List token_t
  | .Ret row opcode :: line => handle_others_end_ (emit s [opcode] 1) row line
  | .Int row opcode :: line =>
    match line with
    | .Integer _ id :: line =>
      handle_others_end_ (push_back (emit s [opcode] 2) [id % 256]) row line
    | line => (log_error_ (emit s [opcode] 2) (atRow row ++ " expected interrupt id"), line)
  | .Test row opcode :: line =>
    match line with
    | .Register _ reg :: line =>
      handle_others_end_ (push_back (emit s [opcode] 2) [(reg <<< 4) % 256]) row line
    | line => (log_error_ (emit s [opcode] 2) (atRow row ++ " expected register to test"), line)
  | .Push row opcode :: line => handle_push_pop_ (emit s [opcode] 2) row line
  | .Pop row opcode :: line => handle_push_pop_ (emit s [opcode] 2) row line
  | .Eof row :: line => (s, .Eof row :: line)
  | [] => (s, [])
  | t :: line => (log_error_ s (atRow t.row ++ " unexpected token found"), t :: line)

/-- The inner loop of `translate` that reads one line: tokens are appended up to and including
the first `Eol` or `Eof`; an `Unknown` token is reported (which drops the stream to the
end of its line) and not appended.  Each round takes a token from the stream, so
`fuel` rounds suffice when `fuel` exceeds the number of tokens left. -/
def readLine : Nat → RasmTranslator → List token_t → Option (List token_t × RasmTranslator)
  | 0, _, _ => none
  | fuel + 1, s, line =>
    match nextToken s with
    | (.Unknown row lexeme, s) =>
      readLine fuel (log_error_ s (atRow row ++ " unexpected token \'" ++ lexeme ++ "\'")) line
    | (.Eol row, s) => some (line ++ [.Eol row], s)
    | (.Eof row, s) => some (line ++ [.Eof row], s)
    | (t, s) => readLine fuel s (line ++ [t])

/-- The `switch (line.front().type)` of `translate`. -/
def dispatch (s : RasmTranslator) (line : List token_t) : RasmTranslator × List token_t :=
  match line with
  | .BinaryOperator _ _ :: _ => handle_arithmetic_ s line
  | .Jump _ _ _ :: _ => handle_jumps_ s line
  | .Call _ _ :: _ => handle_jumps_ s line
  | .Mov _ _ :: _ => handle_mov_ s line
  | _ => handle_others_ s line

/-- The test `line.back().type == TokenType::Eof`. -/
def backIsEof (line : List token_t) : Bool :=
  match line.getLast? with
  | some t => t.type = .Eof
  | none => false

/-- The test `line.empty() || line.size() == 1 && line.front().type == TokenType::Eol`. -/
def isBlankLine : List token_t → Bool
  | [] => true
  | [t] => t.type = .Eol
  | _ => false

/-- One round of the `while (true)` loop of `translate`: a line is read, its label definitions
and its statement are handled, and the buffer is written when no label is pending.
The flag tells whether the loop ends here (`line.back().type == TokenType::Eof`);
a blank line ends the round at `continue`. -/
def translateRound (s : RasmTranslator) : Option (RasmTranslator × Bool) :=
  match readLine (s.lexer_.length + 1) s [] with
  | none => none
  | some (line, s) =>
    match handle_new_labels_ s line with
    | (s, line) =>
      if isBlankLine line then some (s, false)
      else
        match dispatch s line with
        | (s, line) =>
          some (if s.unresolved_labels_.isEmpty then write_ s else s, backIsEof line)

/-- The `while (true)` loop of `translate`; `none` when `fuel` rounds did not reach `Eof`. -/
def translateLoop : Nat → RasmTranslator → Option RasmTranslator
  | 0, _ => none
  | fuel + 1, s =>
    match translateRound s with
    | none => none
    | some (s, true) => some s
    | some (s, false) => translateLoop fuel s

/-- The method `translate` on a fresh `RasmTranslator` (as `main` calls it) with both streams
open: the final state of the translator, which holds the bytes written to `fout` and
the diagnostics. -/
def translate (toks : List token_t) (eofRow : Nat) : Option RasmTranslator :=
  translateLoop (toks.length + 1) { lexer_ := toks, eofRow_ := eofRow }

/-- The value `{ !has_errors_, errors_ }` returned by `translate`. -/
def status (s : RasmTranslator) : Status := { ok_ := !s.has_errors_, errors_ := s.errors_ }

/-- The translation of a source text: `translate` behind the lexer. -/
def translateSource (src : String) : Option RasmTranslator :=
  match tokens src with
  | some (toks, eofRow) => translate toks eofRow
  | none => none


end Rasm

namespace RVM

/-! ## Virtual machine (`rvm.hpp`, compiled with `RVM_NOEXCEPT` as in `main.cpp`) -/

/-- The enumerators `Ir`, `Fg`, `Ip`, `Sp`, `Bp`, `RegSize` of `Rvm::Registers`
(`R0 .. R7` are `0 .. 7`). -/
abbrev Ir : Nat := 8
/-- The enumerator `Fg` of `Rvm::Registers`. -/
abbrev Fg : Nat := 9
/-- The enumerator `Ip` of `Rvm::Registers`. -/
abbrev Ip : Nat := 10
/-- The enumerator `Sp` of `Rvm::Registers`. -/
abbrev Sp : Nat := 11
/-- The enumerator `Bp` of `Rvm::Registers`. -/
abbrev Bp : Nat := 12
/-- The enumerator `RegSize` of `Rvm::Registers`. -/
abbrev RegSize : Nat := 13

/-- The enumerators of `Rvm::Flags`. -/
abbrev NegFlag : Nat := 1
/-- The enumerator `ZeroFlag` of `Rvm::Flags`. -/
abbrev ZeroFlag : Nat := 2
/-- The enumerator `PosFlag` of `Rvm::Flags`. -/
abbrev PosFlag : Nat := 4

/-- The enumerator `IntSize` of `Rvm::Interrupt` (`PutC = 0`, `PutS = 1`, `GetC = 2`,
`Halt = 3`). -/
abbrev IntSize : Nat := 4

/-- The members of an `Rvm` and the two host streams it uses.  `registers_` is the
`std::array<uint64_t, RegSize>`: the code indexes it only with the named registers or
with an id checked by `EXPECT_REG_EXISTS`.  `stack_` is the byte vector (its size
is a `uint64_t`), `cin` the bytes not yet read from standard input and `cout` the bytes
written to standard output. -/
structure Rvm where
  registers_ : Nat → Nat
  stack_ : List Nat
  stack_bottom_ : Nat
  halted_ : Bool
  cin : List Nat
  cout : List Nat

/-- The struct `Rvm::status_t`. -/
structure status_t where
  ok : Bool
  message : String
  deriving DecidableEq, Repr

/-- The ways in which the body of the `run` loop stops short of its end. -/
inductive Abort where
  /-- the statement `return { false, message }`, with the state of the machine at that point -/
  | fault (vm : Rvm) (message : String)
  /-- an access to `stack_` outside the vector: undefined behaviour -/
  | undefined

/-- A computation of the machine that may stop with an `Abort`. -/
abbrev Exec (α : Type) : Type := Except Abort α

/-- The constructor `Rvm::Rvm(stackSize)`, with the host input `cin`. -/
def Rvm.new (stackSize : Nat) (cin : List Nat) : Rvm :=
  { registers_ := fun _ => 0, stack_ := List.replicate stackSize 0, stack_bottom_ := 0,
    halted_ := false, cin := cin, cout := [] }

/-- The assignment `registers_[r] = v`. -/
def setReg (vm : Rvm) (r v : Nat) : Rvm :=
  { vm with registers_ := Function.update vm.registers_ r v }

/-- The read `stack_[adr]`. -/
def readMem (vm : Rvm) (adr : Nat) : Exec Nat :=
  match vm.stack_[adr]? with
  | some b => .ok b
  | none => .error .undefined

/-- The write `stack_[adr] = b`. -/
def writeMem (vm : Rvm) (adr b : Nat) : Exec Rvm :=
  if adr < vm.stack_.length then .ok { vm with stack_ := vm.stack_.set adr b }
  else .error .undefined

/-- The macro `EXPECT_REG_EXISTS(reg_n)`. -/
def EXPECT_REG_EXISTS (vm : Rvm) (reg_n : Nat) : Exec Unit :=
  if reg_n ≥ RegSize then
    .error (.fault vm ("invalid register at " ++ toString (vm.registers_ Ip)))
  else .ok ()

/-- The operator `~` on a `uint64_t`. -/
def not64 (x : Nat) : Nat := 2 ^ 64 - 1 - x % 2 ^ 64

/-- The function `logicXor`. -/
def logicXor (a b : Bool) : Bool := (a || b) && !(a && b)

/-- The method `extend_byte_logical_`. -/
def extend_byte_logical_ (x : Nat) : Nat := 0 ||| x

/-- The method `get_num_`; `size` is a `MemSize` (`Byte = 0`, `Word = 1`, `Dword = 2`,
`Qword = 3`) and the cases fall through as in the `switch`. -/
def get_num_ (vm : Rvm) (size adr : Nat) : Exec Nat :=
  if size = 3 then do
    let b0 ← readMem vm adr
    let b1 ← readMem vm (adr + 1)
    let b2 ← readMem vm (adr + 2)
    let b3 ← readMem vm (adr + 3)
    let b4 ← readMem vm (adr + 4)
    let b5 ← readMem vm (adr + 5)
    let b6 ← readMem vm (adr + 6)
    let b7 ← readMem vm (adr + 7)
    pure (extend_byte_logical_ b0 <<< 56 ||| extend_byte_logical_ b1 <<< 48
      ||| extend_byte_logical_ b2 <<< 40 ||| extend_byte_logical_ b3 <<< 32
      ||| extend_byte_logical_ b4 <<< 24 ||| extend_byte_logical_ b5 <<< 16
      ||| extend_byte_logical_ b6 <<< 8 ||| extend_byte_logical_ b7)
  else if size = 2 then do
    let b0 ← readMem vm adr
    let b1 ← readMem vm (adr + 1)
    let b2 ← readMem vm (adr + 2)
    let b3 ← readMem vm (adr + 3)
    pure (extend_byte_logical_ b0 <<< 24 ||| extend_byte_logical_ b1 <<< 16
      ||| extend_byte_logical_ b2 <<< 8 ||| extend_byte_logical_ b3)
  else if size = 1 then do
    let b0 ← readMem vm adr
    let b1 ← readMem vm (adr + 1)
    pure (extend_byte_logical_ b0 <<< 8 ||| extend_byte_logical_ b1)
  else do
    let b0 ← readMem vm adr
    pure (extend_byte_logical_ b0)

/-- The method `load_num_`. -/
def load_num_ (vm : Rvm) (size adr num : Nat) : Exec Rvm :=
  if size = 3 then do
    let vm ← writeMem vm adr ((num >>> 56) &&& 0xFF)
    let vm ← writeMem vm (adr + 1) ((num >>> 48) &&& 0xFF)
    let vm ← writeMem vm (adr + 2) ((num >>> 40) &&& 0xFF)
    let vm ← writeMem vm (adr + 3) ((num >>> 32) &&& 0xFF)
    let vm ← writeMem vm (adr + 4) ((num >>> 24) &&& 0xFF)
    let vm ← writeMem vm (adr + 5) ((num >>> 16) &&& 0xFF)
    let vm ← writeMem vm (adr + 6) ((num >>> 8) &&& 0xFF)
    writeMem vm (adr + 7) (num &&& 0xFF)
  else if size = 2 then do
    let vm ← writeMem vm adr ((num >>> 24) &&& 0xFF)
    let vm ← writeMem vm (adr + 1) ((num >>> 16) &&& 0xFF)
    let vm ← writeMem vm (adr + 2) ((num >>> 8) &&& 0xFF)
    writeMem vm (adr + 3) (num &&& 0xFF)
  else if size = 1 then do
    let vm ← writeMem vm adr ((num >>> 8) &&& 0xFF)
    writeMem vm (adr + 1) (num &&& 0xFF)
  else
    writeMem vm adr (num &&& 0xFF)

/-- The method `update_flags_`. -/
def update_flags_ (vm : Rvm) (x : Nat) : Rvm :=
  if x = 0 then setReg vm Fg ZeroFlag
  else if x >>> 63 ≠ 0 then setReg vm Fg NegFlag
  else setReg vm Fg PosFlag

/-- The method `push_`. -/
def push_ (vm : Rvm) (x size : Nat) : Exec Rvm := do
  let vm ← load_num_ vm size (vm.registers_ Sp) x
  pure (setReg vm Sp ((vm.registers_ Sp + (1 <<< size)) % 2 ^ 64))

/-- The method `pop_`: the machine after `registers_[Sp] -= 1 << size` and the value read. -/
def pop_ (vm : Rvm) (size : Nat) : Exec (Nat × Rvm) := do
  let vm := setReg vm Sp ((vm.registers_ Sp + 2 ^ 64 - (1 <<< size)) % 2 ^ 64)
  let x ← get_num_ vm size (vm.registers_ Sp)
  pure (x, vm)

/-- The loop of `PutS` on the bytes from `stack_[strAdr]` on: the bytes printed; `none` when the
test `stack_[strAdr]` is evaluated past the end of the vector. -/
def putsLoop : List Nat → Option (List Nat)
  | [] => none
  | b :: rest => if b = 0 then some [] else (putsLoop rest).map (fun out => b :: out)

/-- The method `run_interrupt_`; `getchar` yields `EOF = -1` at the end of the input. -/
def run_interrupt_ (vm : Rvm) (interrupt : Nat) : Exec Rvm :=
  if interrupt = 0 then .ok { vm with cout := vm.cout ++ [vm.registers_ Ir % 256] }
  else if interrupt = 1 then
    match putsLoop (vm.stack_.drop (vm.registers_ Ir)) with
    | some out => .ok { vm with cout := vm.cout ++ out }
    | none => .error .undefined
  else if interrupt = 2 then
    match vm.cin with
    | [] => .ok (setReg vm Ir (2 ^ 64 - 1))
    | c :: rest => .ok (setReg { vm with cin := rest } Ir c)
  else .ok { vm with halted_ := true }

/-- The statement `registers_[Ip] += n` on the `uint64_t` register. -/
def addIp (vm : Rvm) (n : Nat) : Rvm := setReg vm Ip ((vm.registers_ Ip + n) % 2 ^ 64)

/-- The cases `Add .. Not` of the `switch` in `run`, entered after the opcode fetch. -/
def execArith (vm : Rvm) (opCode : Nat) : Exec Rvm := do
  let b ← readMem vm (vm.registers_ Ip)
  let dst := (b >>> 4) &&& 0xF
  let src := b &&& 0xF
  EXPECT_REG_EXISTS vm dst
  EXPECT_REG_EXISTS vm src
  let r := vm.registers_
  let v :=
    if opCode = 0 then (r dst + r src) % 2 ^ 64
    else if opCode = 1 then (r dst + (not64 (r src) + 1) % 2 ^ 64) % 2 ^ 64
    else if opCode = 2 then r dst &&& r src
    else if opCode = 3 then r dst ||| r src
    else if opCode = 4 then r dst ^^^ r src
    else not64 (r src)
  let vm := setReg vm dst v
  let vm := update_flags_ vm (vm.registers_ dst)
  pure (addIp vm 1)

/-- The case `Mov`. -/
def execMov (vm : Rvm) : Exec Rvm := do
  let fstByte ← readMem vm (vm.registers_ Ip)
  let vm := addIp vm 1
  let mode := (fstByte >>> 6) &&& 0x3
  let dstReg := fstByte &&& 0xF
  EXPECT_REG_EXISTS vm dstReg
  if mode = 0 then do
    let x ← get_num_ vm 3 (vm.registers_ Ip)
    let vm := setReg vm dstReg x
    let vm := addIp vm (1 <<< 3)
    pure (update_flags_ vm (vm.registers_ dstReg))
  else if mode = 1 then do
    let b ← readMem vm (vm.registers_ Ip)
    let vm := addIp vm 1
    let srcReg := (b >>> 4) &&& 0xF
    EXPECT_REG_EXISTS vm srcReg
    let vm := setReg vm dstReg (vm.registers_ srcReg)
    pure (update_flags_ vm (vm.registers_ dstReg))
  else if mode = 2 then do
    let movSize := (fstByte >>> 4) &&& 0x3
    let b ← readMem vm (vm.registers_ Ip)
    let srcReg := (b >>> 4) &&& 0xF
    EXPECT_REG_EXISTS vm srcReg
    let offset ← get_num_ vm 3 (vm.registers_ Ip)
    let vm := addIp vm (1 <<< 3)
    let adr ← readMem vm ((vm.registers_ srcReg + offset) % 2 ^ 64)
    let x ← get_num_ vm movSize adr
    let vm := setReg vm dstReg x
    pure (update_flags_ vm (vm.registers_ dstReg))
  else do
    let movSize := (fstByte >>> 4) &&& 0x3
    let b ← readMem vm (vm.registers_ Ip)
    let vm := addIp vm 1
    let srcReg := (b >>> 4) &&& 0xF
    EXPECT_REG_EXISTS vm srcReg
    let offset ← get_num_ vm 3 (vm.registers_ Ip)
    let vm := addIp vm (1 <<< 3)
    let vm ← load_num_ vm movSize ((vm.registers_ dstReg + offset) % 2 ^ 64)
      (vm.registers_ srcReg)
    let x ← get_num_ vm movSize ((vm.registers_ dstReg + offset) % 2 ^ 64)
    pure (update_flags_ vm x)

/-- The case `Push`. -/
def execPush (vm : Rvm) : Exec Rvm := do
  let b ← readMem vm (vm.registers_ Ip)
  let srcReg := (b >>> 4) &&& 0xF
  EXPECT_REG_EXISTS vm srcReg
  let vm := addIp vm 1
  let size := (b >>> 2) &&& 0x3
  push_ vm (vm.registers_ srcReg) size

/-- The case `Pop`. -/
def execPop (vm : Rvm) : Exec Rvm := do
  let b ← readMem vm (vm.registers_ Ip)
  let dstReg := (b >>> 4) &&& 0xF
  EXPECT_REG_EXISTS vm dstReg
  let vm := addIp vm 1
  let size := (b >>> 2) &&& 0x3
  let (x, vm) ← pop_ vm size
  let vm := setReg vm dstReg x
  pure (update_flags_ vm (vm.registers_ dstReg))

/-- The negate bit that the case `Jmp` decodes from the header byte:
`bool neg = stack_[registers_[Ip]] >> 7 & 0x1`. -/
def jmpNeg (b : Nat) : Bool := (b >>> 7) &&& 0x1 ≠ 0

/-- The mode that the case `Jmp` decodes from the header byte:
`auto mode = stack_[registers_[Ip]++] >> 5 & 0x3`. -/
def jmpMode (b : Nat) : Nat := (b >>> 5) &&& 0x3

/-- The case `Jmp`. -/
def execJmp (vm : Rvm) : Exec Rvm := do
  let b ← readMem vm (vm.registers_ Ip)
  let neg : Bool := jmpNeg b
  let vm := addIp vm 1
  let mode := jmpMode b
  let dest ← get_num_ vm 3 (vm.registers_ Ip)
  let vm := addIp vm 8
  if mode = 0 then pure (setReg vm Ip dest)
  else if mode = 1 then
    pure (setReg vm Ip
      (if logicXor (vm.registers_ Fg &&& NegFlag ≠ 0) neg then dest else vm.registers_ Ip))
  else if mode = 2 then
    pure (setReg vm Ip
      (if logicXor (vm.registers_ Fg &&& ZeroFlag ≠ 0) neg then dest else vm.registers_ Ip))
  else
    pure (setReg vm Ip
      (if logicXor (vm.registers_ Fg &&& PosFlag ≠ 0) neg then dest else vm.registers_ Ip))

/-- The case `Call`. -/
def execCall (vm : Rvm) : Exec Rvm := do
  let dst ← get_num_ vm 3 (vm.registers_ Ip)
  let vm := addIp vm 8
  let vm ← push_ vm (vm.registers_ Ip) 3
  pure (setReg vm Ip dst)

/-- The case `Ret`. -/
def execRet (vm : Rvm) : Exec Rvm := do
  let (dst, vm) ← pop_ vm 3
  pure (setReg vm Ip dst)

/-- The case `Int`. -/
def execInt (vm : Rvm) : Exec Rvm := do
  let intNum ← readMem vm (vm.registers_ Ip)
  let vm := addIp vm 1
  if intNum ≥ IntSize then
    .error (.fault vm ("invalid interrupt id at " ++ toString (vm.registers_ Ip)))
  else run_interrupt_ vm intNum

/-- The case `Cmp`. -/
def execCmp (vm : Rvm) : Exec Rvm := do
  let b ← readMem vm (vm.registers_ Ip)
  let fstReg := (b >>> 4) &&& 0xF
  EXPECT_REG_EXISTS vm fstReg
  let vm := addIp vm 1
  let sndReg := b &&& 0xF
  EXPECT_REG_EXISTS vm sndReg
  let vm := setReg vm fstReg ((vm.registers_ fstReg + not64 (vm.registers_ sndReg)) % 2 ^ 64)
  pure (update_flags_ vm (vm.registers_ fstReg))

/-- The case `Test`. -/
def execTest (vm : Rvm) : Exec Rvm := do
  let b ← readMem vm (vm.registers_ Ip)
  let vm := addIp vm 1
  let srcReg := (b >>> 4) &&& 0xF
  EXPECT_REG_EXISTS vm srcReg
  pure (update_flags_ vm (vm.registers_ srcReg))

/-- The body of the `while` loop of `run`: the opcode fetch `stack_[registers_[Ip]++]` and the
`switch (opCode)`. -/
def step (vm : Rvm) : Exec Rvm := do
  let opCode ← readMem vm (vm.registers_ Ip)
  let vm := addIp vm 1
  if opCode ≤ 5 then execArith vm opCode
  else if opCode = 6 then execMov vm
  else if opCode = 7 then execPush vm
  else if opCode = 8 then execPop vm
  else if opCode = 9 then execJmp vm
  else if opCode = 10 then execCall vm
  else if opCode = 11 then execRet vm
  else if opCode = 12 then execInt vm
  else if opCode = 13 then execCmp vm
  else if opCode = 14 then execTest vm
  else .error (.fault vm ("invalid opcode at " ++ toString (vm.registers_ Ip)))

/-- The condition of the `while` loop of `run`. -/
def running (vm : Rvm) : Bool := vm.registers_ Ip < vm.stack_bottom_ && !vm.halted_

/-- The statements of `run` before the loop: the program is copied to the start of `stack_` and
`stack_bottom_`, `Sp`, `Bp`, `Ip` are set; `none` when `std::copy` writes past the end
of `stack_` (undefined behaviour). -/
def load (vm : Rvm) (program : List Nat) : Option Rvm :=
  if program.length ≤ vm.stack_.length then
    some (setReg (setReg (setReg
      { vm with stack_ := program ++ vm.stack_.drop program.length,
                stack_bottom_ := program.length }
      Sp program.length) Bp program.length) Ip 0)
  else none

/-- The result of `run`. -/
inductive RunResult where
  /-- the method returned this status, leaving the machine in this state -/
  | returned (status : status_t) (vm : Rvm)
  /-- the execution ran into undefined behaviour -/
  | undefined
  /-- the loop was still running after the given number of rounds -/
  | unfinished (vm : Rvm)

/-- The `while` loop of `run`, for at most `fuel` rounds. -/
def runLoop : Nat → Rvm → RunResult
  | 0, vm => if running vm then .unfinished vm else .returned { ok := true, message := "" } vm
  | fuel + 1, vm =>
    if running vm then
      match step vm with
      | .ok vm => runLoop fuel vm
      | .error (.fault vm message) => .returned { ok := false, message := message } vm
      | .error .undefined => .undefined
    else .returned { ok := true, message := "" } vm

/-- The method `Rvm::run`. -/
def run (fuel : Nat) (vm : Rvm) (program : List Nat) : RunResult :=
  match load vm program with
  | some vm => runLoop fuel vm
  | none => .undefined

end RVM

namespace Rasm

/-! ## Notions used to state the properties of the assembler -/

/-- The table of conditional mnemonics of the spec: mnemonic, mode (bits 6:5 of the header
byte) and negate bit (bit 7). -/
def jumpMnemonics : List (String × Nat × Nat) :=
  [("jmp", 0b00, 0), ("jn", 0b01, 0), ("jl", 0b01, 0), ("jnn", 0b01, 1), ("jge", 0b01, 1),
   ("jz", 0b10, 0), ("je", 0b10, 0), ("jnz", 0b10, 1), ("jne", 0b10, 1),
   ("jp", 0b11, 0), ("jg", 0b11, 0), ("jnp", 0b11, 1), ("jle", 0b11, 1)]

/-- The number that a byte sequence denotes in big-endian order (most significant byte
first). -/
def beValue (bytes : List Nat) : Nat := bytes.foldl (fun acc b => acc * 256 + b) 0

/-- The translator `s'` is the translator `s` after some of its methods other than `write_` ran:
the output is the same, an error flag that was set is still set, the diagnostics of `s`
are the first diagnostics of `s'`, every binding of `labels_` is kept, and the token
stream has not grown. -/
structure Ext (s s' : RasmTranslator) : Prop where
  fout : s'.fout = s.fout
  has_errors : s.has_errors_ = true → s'.has_errors_ = true
  errors : s.errors_ <+: s'.errors_
  labels : ∀ k v, s.labels_.lookup k = some v → s'.labels_.lookup k = some v
  lexer : s'.lexer_.length ≤ s.lexer_.length
  eofRow : s'.eofRow_ = s.eofRow_

/-- The translator `s'` is the translator `s` after further rounds of the loop of `translate`:
as `Ext`, but the output is known to be the same only once the error flag is set. -/
structure Grows (s s' : RasmTranslator) : Prop where
  fout : s.has_errors_ = true → s'.fout = s.fout
  has_errors : s.has_errors_ = true → s'.has_errors_ = true
  errors : s.errors_ <+: s'.errors_
  labels : ∀ k v, s.labels_.lookup k = some v → s'.labels_.lookup k = some v
  lexer : s'.lexer_.length ≤ s.lexer_.length
  eofRow : s'.eofRow_ = s.eofRow_

/-- The line ends with the token `t`, an `Eol` or an `Eof`: the shape of the deque that the read
loop of `translate` fills. -/
def Term (t : token_t) (line : List token_t) : Prop :=
  line.getLast? = some t ∧ (t.type = .Eol ∨ t.type = .Eof)

/-! ### The line grammar of the spec -/

/-- The optional offset of a memory operand: `[reg]`, `[reg + k]`, `[reg - k]`. -/
inductive Offset where
  | none
  | plus (k : Nat)
  | minus (k : Nat)
  deriving DecidableEq, Repr

/-- The alternative `statement` of the line grammar.  `arithmetic` carries the opcode of its
`BINOP` (`add` 0 .. `not` 5, `cmp` 13), `jump` the 3-bit condition of its mnemonic. -/
inductive Statement where
  | arithmetic (opcode dst src : Nat)
  | jump (cond : Nat) (label : String)
  | call (label : String)
  | ret
  | int (id : Nat)
  | test (reg : Nat)
  | push (size reg : Nat)
  | pop (size reg : Nat)
  | movImm (dst : Nat) (neg : Bool) (k : Nat)
  | movReg (dst src : Nat)
  | movLoad (dst size base : Nat) (off : Offset)
  | movStore (size base : Nat) (off : Offset) (src : Nat)
  deriving DecidableEq, Repr

/-- The alternative `line` of the line grammar: label definitions and an optional statement. -/
structure Line where
  labels : List String
  statement : Option Statement
  deriving DecidableEq, Repr

/-- A source that conforms to the line grammar: lines ended by a line feed, and the text
after the last line feed (a line again, possibly empty), ended by the end of the input. -/
structure Program where
  lines : List Line
  last : Line
  deriving DecidableEq, Repr

/-- The tokens of the offset of a memory operand on row `row`. -/
def Offset.tokens (row : Nat) : Offset → List token_t
  | .none => []
  | .plus k => [.Plus row, .Integer row k]
  | .minus k => [.Minus row, .Integer row k]

/-- The tokens that the lexer yields for a statement on row `row` (the opcodes are those of the
tables of the lexer). -/
def Statement.tokens (row : Nat) : Statement → List token_t
  | .arithmetic opcode dst src =>
    [.BinaryOperator row opcode, .Register row dst, .Comma row, .Register row src]
  | .jump cond label => [.Jump row 9 cond, .Label row label]
  | .call label => [.Call row 10, .Label row label]
  | .ret => [.Ret row 11]
  | .int id => [.Int row 12, .Integer row id]
  | .test reg => [.Test row 14, .Register row reg]
  | .push size reg => [.Push row 7, .Size row size, .Register row reg]
  | .pop size reg => [.Pop row 8, .Size row size, .Register row reg]
  | .movImm dst neg k =>
    [.Mov row 6, .Register row dst, .Comma row] ++ (if neg then [.Minus row] else []) ++
      [.Integer row k]
  | .movReg dst src => [.Mov row 6, .Register row dst, .Comma row, .Register row src]
  | .movLoad dst size base off =>
    [.Mov row 6, .Register row dst, .Comma row, .Size row size, .LeftPar row,
      .Register row base] ++ off.tokens row ++ [.RightPar row]
  | .movStore size base off src =>
    [.Mov row 6, .Size row size, .LeftPar row, .Register row base] ++ off.tokens row ++
      [.RightPar row, .Comma row, .Register row src]

/-- The tokens of the label definitions of a line. -/
def labelTokens (row : Nat) : List String → List token_t
  | [] => []
  | name :: names => .Label row name :: .Colon row :: labelTokens row names

/-- The tokens of the optional statement of a line. -/
def statementTokens (row : Nat) : Option Statement → List token_t
  | none => []
  | some st => st.tokens row

/-- The tokens of a line on row `row`, without its end. -/
def Line.tokens (row : Nat) (l : Line) : List token_t :=
  labelTokens row l.labels ++ statementTokens row l.statement

/-- The tokens of consecutive lines from row `row` on, each ended by its `Eol` (which the lexer
stamps with the next row). -/
def linesTokens (row : Nat) : List Line → List token_t
  | [] => []
  | l :: ls => l.tokens row ++ .Eol (row + 1) :: linesTokens (row + 1) ls

/-- The tokens that the lexer yields for a program before `Eof`. -/
def Program.tokens (p : Program) : List token_t :=
  linesTokens 1 p.lines ++ p.last.tokens (p.lines.length + 1)

/-- The row of the `Eof` token of a program. -/
def Program.eofRow (p : Program) : Nat := p.lines.length + 1

/-- The instruction lengths of the spec: arithmetic/logic and `cmp` 2; `mov` 10 (immediate),
3 (register), 11 (load), 11 (store); `push` / `pop` 2; `jmp` 10; `call` 9; `ret` 1; `int` 2;
`test` 2. -/
def Statement.length : Statement → Nat
  | .arithmetic _ _ _ => 2
  | .jump _ _ => 10
  | .call _ => 9
  | .ret => 1
  | .int _ => 2
  | .test _ => 2
  | .push _ _ => 2
  | .pop _ _ => 2
  | .movImm _ _ _ => 10
  | .movReg _ _ => 3
  | .movLoad _ _ _ _ => 11
  | .movStore _ _ _ _ => 11

/-- The sum of the instruction lengths of some statements. -/
def totalLength (stmts : List Statement) : Nat := (stmts.map Statement.length).sum

/-- All lines of a program, the last one included. -/
def Program.allLines (p : Program) : List Line := p.lines ++ [p.last]

/-- The statements of some lines, in order. -/
def statementsOf (lines : List Line) : List Statement :=
  lines.flatMap (fun l => l.statement.toList)

/-- The labels that some lines define, in order. -/
def definedLabels (lines : List Line) : List String := lines.flatMap (fun l => l.labels)

/-- The label that a statement references, if any. -/
def Statement.target : Statement → Option String
  | .jump _ label => some label
  | .call label => some label
  | _ => none

/-- The labels that some statements reference. -/
def referencedLabels (stmts : List Statement) : List String :=
  stmts.flatMap (fun st => st.target.toList)

/-- The byte offset at which each label of some lines is defined, when the first of the lines
starts at offset `start`: the sum of the lengths of the statements before the line of
the definition. -/
def labelOffsets (start : Nat) : List Line → List (String × Nat)
  | [] => []
  | l :: ls =>
    l.labels.map (fun name => (name, start)) ++
      labelOffsets (start + totalLength l.statement.toList) ls

/-- The byte offset of the definition of a label in a program (of its first definition, should
there be several). -/
def Program.labelOffset (p : Program) (label : String) : Option Nat :=
  (labelOffsets 0 p.allLines).lookup label

/-! ### The effect of a line on the translator, and the bytes of a program -/

/-- The 64-bit pattern that `get_reg_and_offset_` returns for the offset of a memory operand. -/
def Offset.value : Offset → Nat
  | .none => 0
  | .plus k => k
  | .minus k => k ||| 2 ^ 63

/-- The eight bytes that `handle_jumps_` pushes for a label under the label table `labels`: the
target when the label is bound, zeros otherwise. -/
def targetBytes (labels : List (String × Nat)) (label : String) : List Nat :=
  match labels.lookup label with
  | some dst => be8 dst
  | none => List.replicate 8 0

/-- The bytes that the handlers push for a statement under the label table `labels`. -/
def Statement.encode (labels : List (String × Nat)) : Statement → List Nat
  | .arithmetic opcode dst src => [opcode, (((dst <<< 4) % 256) ||| src) % 256]
  | .jump cond label => [9, (cond <<< 5) % 256] ++ targetBytes labels label
  | .call label => [10] ++ targetBytes labels label
  | .ret => [11]
  | .int id => [12, id % 256]
  | .test reg => [14, (reg <<< 4) % 256]
  | .push size reg => [7, (((size <<< 2) % 256) ||| (reg <<< 4)) % 256]
  | .pop size reg => [8, (((size <<< 2) % 256) ||| (reg <<< 4)) % 256]
  | .movImm dst neg k =>
    [6, (0b00000000 ||| dst) % 256] ++ be8 (if neg then k ||| 2 ^ 63 else k)
  | .movReg dst src => [6, (0b01000000 ||| dst) % 256, (src <<< 4) % 256]
  | .movLoad dst size base off =>
    [6, (0b10000000 ||| dst ||| (size <<< 4)) % 256, (base <<< 4) % 256] ++ be8 off.value
  | .movStore size base off src =>
    [6, (0b11000000 ||| base ||| (size <<< 4)) % 256, (src <<< 4) % 256] ++ be8 off.value

/-- The bytes of some statements under a label table. -/
def assemble (labels : List (String × Nat)) (stmts : List Statement) : List Nat :=
  stmts.flatMap (Statement.encode labels)

/-- The number of bytes that precede the target of a jump (opcode and header) or of a call
(opcode). -/
def Statement.targetAt : Statement → Nat
  | .jump _ _ => 2
  | .call _ => 1
  | _ => 0

/-- The fixup that a statement at offset `base` of the buffer leaves pending under the label
table `labels`: the label it references, when that label is not bound, with the offset of
its eight target bytes. -/
def pendingOf (labels : List (String × Nat)) (base : Nat) (st : Statement) :
    List (String × Nat) :=
  match st.target with
  | some label =>
    if (labels.lookup label).isSome then [] else [(label, base + st.targetAt)]
  | none => []

/-- The fixups that some statements leave pending, the first of them at offset `base`. -/
def pendingFixups (labels : List (String × Nat)) : Nat → List Statement → List (String × Nat)
  | _, [] => []
  | base, st :: rest =>
    pendingOf labels base st ++ pendingFixups labels (base + st.length) rest

/-- The translator after the handler of a statement ran on the tokens of that statement. -/
def applyStatement (s : RasmTranslator) (st : Statement) : RasmTranslator :=
  { emit s (st.encode s.labels_) st.length with
    unresolved_labels_ :=
      s.unresolved_labels_ ++ pendingOf s.labels_ s.byte_code_buffer_.length st }

/-- The body of the loop of `handle_new_labels_` for the label `name` defined on row `row`. -/
def defineLabel (row : Nat) (s : RasmTranslator) (name : String) : RasmTranslator :=
  let s1 :=
    if (s.labels_.lookup name).isSome then
      log_error_ s (atRow row ++ " label \'" ++ name ++ "\' was redefined")
    else s
  try_resolve_label_ { s1 with labels_ := insertLabel s1.labels_ name s1.curr_ip_ } name
    s1.curr_ip_

/-- The statement `if (unresolved_labels_.empty()) write_(fout)` of `translate`. -/
def flush (s : RasmTranslator) : RasmTranslator :=
  if s.unresolved_labels_.isEmpty then write_ s else s

/-- The translator after the round of the `translate` loop that handles the line `l` of row
`row`, started in `s` with the tokens of the line already taken from the stream.  `last`
tells that the line is ended by the end of the input. -/
def lineEffect (row : Nat) (last : Bool) (s : RasmTranslator) (l : Line) : RasmTranslator :=
  match l.statement with
  | some st => flush (applyStatement (l.labels.foldl (defineLabel row) s) st)
  | none => if last then flush (l.labels.foldl (defineLabel row) s)
            else l.labels.foldl (defineLabel row) s

/-- The token is none of `Unknown`, `Eol`, `Eof`: the read loop of `translate` appends it to
the line and goes on. -/
def token_t.plain (t : token_t) : Bool :=
  t.type ≠ .Unknown ∧ t.type ≠ .Eol ∧ t.type ≠ .Eof

/-- The state of an error-free translation after the statements `flushed ++ pending`: `flushed`
are written, with all their labels bound; `pending` are in the buffer, assembled under
the labels bound so far, with the fixups of their unbound labels in
`unresolved_labels_`; `curr_ip_` is the length of all of them. -/
structure Inv (s : RasmTranslator) (flushed pending : List Statement) : Prop where
  fout_eq : s.fout = assemble s.labels_ flushed
  resolved : ∀ l ∈ referencedLabels flushed, (s.labels_.lookup l).isSome = true
  buffer_eq : s.byte_code_buffer_ = assemble s.labels_ pending
  unresolved_eq : s.unresolved_labels_ = pendingFixups s.labels_ 0 pending
  ip_eq : s.curr_ip_ = totalLength (flushed ++ pending) % 2 ^ 64
  no_errors : s.has_errors_ = false
  errors_nil : s.errors_ = []

/-- The label table that the translator builds from label offsets: the offsets as `uint64_t`. -/
def tableOf (offsets : List (String × Nat)) : List (String × Nat) :=
  offsets.map (fun kv => (kv.1, kv.2 % 2 ^ 64))

/-- The translator in the middle of the source `ret` / `mov`: the first line is translated and
written, the second line is still in the token stream. -/
def midRetMov : RasmTranslator :=
  { lexer_ := [.Mov 2 6, .Eol 3], eofRow_ := 3, fout := [11], curr_ip_ := 1 }

/-- The translator `midRetMov` after the round that reads the line `mov`. -/
def endRetMov : RasmTranslator :=
  { lexer_ := [], eofRow_ := 3, fout := [11], curr_ip_ := 1, has_errors_ := true,
    errors_ := ["at row 2 expected move destination"] }

end Rasm

namespace RVM

/-! ## Notions used to state the properties of the machine -/

/-- A computation satisfies `P` on its result when it completes and `Q` on the machine it
leaves when it returns a fault status; nothing is said of undefined behaviour. -/
def Sat {α : Type} (x : Exec α) (P : α → Prop) (Q : Rvm → Prop) : Prop :=
  match x with
  | .ok a => P a
  | .error (.fault vm _) => Q vm
  | .error .undefined => True

/-- The value is exactly one of the three flag bits `NegFlag`, `ZeroFlag`, `PosFlag`. -/
def isFlag (x : Nat) : Prop := x = NegFlag ∨ x = ZeroFlag ∨ x = PosFlag

/-- The opcodes whose case calls `update_flags_`: `Add .. Not` (0..5), `Mov` (6), `Pop` (8),
`Cmp` (13), `Test` (14). -/
def updatesFlags (opCode : Nat) : Bool :=
  opCode ≤ 6 || opCode == 8 || opCode == 13 || opCode == 14

/-- The machine `b` is the machine `a` after zero or more rounds of the `run` loop, the last of
which may have returned a fault status. -/
inductive Later : Rvm → Rvm → Prop where
  | refl (a : Rvm) : Later a a
  | stepped {a b c : Rvm} : Later a b → running b = true → step b = .ok c → Later a c
  | faulted {a b c : Rvm} {message : String} :
      Later a b → running b = true → step b = .error (.fault c message) → Later a c

/-- What one instruction does to `Fg`: a completed instruction leaves a flag bit in it or
leaves it alone, and leaves a flag bit when `flags` is set; a fault leaves it alone. -/
def FgSpec (vm : Rvm) (flags : Bool) (x : Exec Rvm) : Prop :=
  Sat x (fun vm' => (flags = true → isFlag (vm'.registers_ Fg)) ∧
      (vm'.registers_ Fg = vm.registers_ Fg ∨ isFlag (vm'.registers_ Fg)))
    (fun vm' => vm'.registers_ Fg = vm.registers_ Fg)

/-- The registers `0 .. 12` and the memory of the machine that a computation leaves when it
completes. -/
def dump (x : Exec Rvm) : Option (List Nat × List Nat) :=
  match x with
  | .ok vm => some ((List.range RegSize).map vm.registers_, vm.stack_)
  | .error _ => none

/-- The machine in which `run` enters its loop, for a fresh machine of `stackSize` bytes:
the program at the start of the memory, `Sp = Bp = len(program)`, `Ip = 0`. -/
def loaded (stackSize : Nat) (program : List Nat) : Rvm :=
  setReg (setReg (setReg
    { Rvm.new stackSize [] with
      stack_ := program ++ List.replicate (stackSize - program.length) 0,
      stack_bottom_ := program.length }
    Sp program.length) Bp program.length) Ip 0

/-- The flag that the spec assigns to a 64-bit value: `ZERO` for `0`, `NEG` when bit 63 is
set, `POS` otherwise. -/
def flagOf (x : Nat) : Nat :=
  if x = 0 then ZeroFlag else if x.testBit 63 then NegFlag else PosFlag

/-- The value that the spec gives to the destination of an arithmetic/logic instruction with
destination value `a` and source value `b`: `Add` is `(a + b) mod 2^64`, `Sub` is
`(a - b) mod 2^64`, `And` / `Or` / `Xor` are bitwise, `Not` is the complement `~b` of the
64-bit value `b`. -/
def arithValue (opCode a b : Nat) : Nat :=
  if opCode = 0 then (a + b) % 2 ^ 64
  else if opCode = 1 then (((a : Int) - (b : Int)) % 2 ^ 64).toNat
  else if opCode = 2 then a &&& b
  else if opCode = 3 then a ||| b
  else if opCode = 4 then a ^^^ b
  else 2 ^ 64 - 1 - b

end RVM

namespace Rasm

/-! ### Sample programs -/

/-- The source `jmp end` / `back: int 0` / `end:` / `call back`: a forward and a backward
reference. -/
def forwardBackward : Program :=
  { lines := [⟨[], some (.jump 0 "end")⟩, ⟨["back"], some (.int 0)⟩, ⟨["end"], none⟩],
    last := ⟨[], some (.call "back")⟩ }

/-- The translator that `translate` leaves for `forwardBackward`. -/
def forwardBackwardResult : RasmTranslator :=
  { labels_ := [("back", 10), ("end", 12)], eofRow_ := 4, curr_ip_ := 21,
    fout := [9, 0, 0, 0, 0, 0, 0, 0, 0, 12, 12, 0, 10, 0, 0, 0, 0, 0, 0, 0, 10] }

/-- The source `foo:` / `foo:` / `ret`: the label `foo` is defined twice, nothing is
referenced. -/
def twiceFoo : Program :=
  { lines := [⟨["foo"], none⟩, ⟨["foo"], none⟩], last := ⟨[], some .ret⟩ }

/-- The source `foo: ret` / `foo: ret`: the two definitions of `foo` are at the offsets 0
and 1. -/
def fooRetTwice : Program :=
  { lines := [⟨["foo"], some .ret⟩], last := ⟨["foo"], some .ret⟩ }

end Rasm

namespace RVM

/-! ## Notions used to state the properties of single instructions -/

/-- The number of bytes that `get_num_` reads and `load_num_` writes for a `MemSize`:
`Qword` 8, `Dword` 4, `Word` 2, `Byte` 1. -/
def width (size : Nat) : Nat :=
  if size = 3 then 8 else if size = 2 then 4 else if size = 1 then 2 else 1

/-- The bytes that `load_num_` writes for `num`, in the order of their addresses. -/
def sizeBytes (size num : Nat) : List Nat :=
  if size = 3 then
    [(num >>> 56) &&& 0xFF, (num >>> 48) &&& 0xFF, (num >>> 40) &&& 0xFF, (num >>> 32) &&& 0xFF,
      (num >>> 24) &&& 0xFF, (num >>> 16) &&& 0xFF, (num >>> 8) &&& 0xFF, num &&& 0xFF]
  else if size = 2 then
    [(num >>> 24) &&& 0xFF, (num >>> 16) &&& 0xFF, (num >>> 8) &&& 0xFF, num &&& 0xFF]
  else if size = 1 then [(num >>> 8) &&& 0xFF, num &&& 0xFF]
  else [num &&& 0xFF]

/-- The memory after the bytes `bs` are written from the address `adr` on. -/
def storeBytes (stack : List Nat) (adr : Nat) : List Nat → List Nat
  | [] => stack
  | b :: bs => storeBytes (stack.set adr b) (adr + 1) bs

/-- The machines `vm` and `vm'` differ at most in the register `IP`. -/
structure SameButIp (vm vm' : Rvm) : Prop where
  registers : ∀ q, q ≠ Ip → vm'.registers_ q = vm.registers_ q
  stack : vm'.stack_ = vm.stack_
  stack_bottom : vm'.stack_bottom_ = vm.stack_bottom_
  halted : vm'.halted_ = vm.halted_
  cin : vm'.cin = vm.cin
  cout : vm'.cout = vm.cout

/-- The jump condition of the spec for the negate bit `n`, the mode `mm` and the value `fg` of
`FG`: mode `00` always jumps; mode `01` jumps iff `(FG & NEG) ≠ 0` XOR `n`, mode `10` iff
`(FG & ZERO) ≠ 0` XOR `n`, mode `11` iff `(FG & POS) ≠ 0` XOR `n`. -/
def jumpTaken (n : Bool) (mm fg : Nat) : Bool :=
  mm == 0 || (mm == 1 && Bool.xor (decide (fg &&& NegFlag ≠ 0)) n)
    || (mm == 2 && Bool.xor (decide (fg &&& ZeroFlag ≠ 0)) n)
    || (mm == 3 && Bool.xor (decide (fg &&& PosFlag ≠ 0)) n)

/-- What `run` is seen to do: the status it returned (`none` when the loop was still running
after the given number of rounds), the registers `0 .. 12` and the bytes written to the
host; `none` for undefined behaviour. -/
def RunResult.view : RunResult → Option (Option status_t × List Nat × List Nat)
  | .returned s vm => some (some s, (List.range RegSize).map vm.registers_, vm.cout)
  | .unfinished vm => some (none, (List.range RegSize).map vm.registers_, vm.cout)
  | .undefined => none

/-- The machine that `run` has left (a machine without memory for undefined behaviour). -/
def RunResult.machine : RunResult → Rvm
  | .returned _ vm => vm
  | .unfinished vm => vm
  | .undefined => Rvm.new 0 []

/-- The computation returns no fault status: it completes or runs into undefined behaviour. -/
def NoFault {α : Type} (x : Exec α) : Prop := Sat x (fun _ => True) (fun _ => False)

/-- The byte of the memory at the offset `k` from `IP` (0 outside the memory): the opcode for
`k = 0`, the bytes after it for `k = 1, 2`. -/
def operand (vm : Rvm) (k : Nat) : Nat := vm.stack_.getD ((vm.registers_ Ip + k) % 2 ^ 64) 0

/-- The register id fields that an instruction decodes, by the encoding table of the spec, for
the opcode `opCode` followed by the bytes `b1`, `b2`: `dddd ssss` for arithmetic/logic and
`Cmp`; for `Mov` the low nibble of the mode byte and, in the modes other than `00`, the high
nibble of the next byte; the high nibble for `Push`, `Pop` and `Test`. -/
def regFields (opCode b1 b2 : Nat) : List Nat :=
  if opCode ≤ 5 ∨ opCode = 13 then [(b1 >>> 4) &&& 0xF, b1 &&& 0xF]
  else if opCode = 6 then
    if (b1 >>> 6) &&& 0x3 = 0 then [b1 &&& 0xF] else [b1 &&& 0xF, (b2 >>> 4) &&& 0xF]
  else if opCode = 7 ∨ opCode = 8 ∨ opCode = 14 then [(b1 >>> 4) &&& 0xF]
  else []

/-- The machine `vm'` is in a fault state of an instruction started in `vm`: the computation
`x` has returned the fault status whose message is `text` followed by the decimal value of
`IP`, and nothing but `IP` differs from `vm`. -/
def FaultsWith (vm : Rvm) (text : String) (x : Exec Rvm) : Prop :=
  ∃ vm', x = .error (.fault vm' (text ++ toString (vm'.registers_ Ip))) ∧ SameButIp vm vm'

/-- The text of the fault that the spec gives the instruction at `IP`, if any: an opcode byte of
15 or more is an invalid opcode, an `Int` with an id byte of 4 or more an invalid
interrupt id, a decoded register id field of 13 or more an invalid register. -/
def faultText (vm : Rvm) : Option String :=
  if 15 ≤ operand vm 0 then some "invalid opcode at "
  else if operand vm 0 = 12 then
    if 4 ≤ operand vm 1 then some "invalid interrupt id at " else none
  else if ∃ f ∈ regFields (operand vm 0) (operand vm 1) (operand vm 2), 13 ≤ f then
    some "invalid register at "
  else none

/-- A machine about to execute `int 2` with the byte `a` (97) waiting in the host input. -/
def getcMachine : Rvm := { loaded 16 [12, 2] with cin := [97] }

end RVM

namespace Rasm

/-! ### Further samples and the fixup invariant -/

/-- The source `jmp a` / `jmp nowhere` / `a:`: the label `nowhere` is never defined, and a
resolved forward reference precedes the reference to it. -/
def danglingAfterForward : Program :=
  { lines := [⟨[], some (.jump 0 "a")⟩, ⟨[], some (.jump 0 "nowhere")⟩], last := ⟨["a"], none⟩ }

/-- The source `ret` / `jmp nowhere` / `ret`: the label `nowhere` is never defined. -/
def retDanglingRet : Program :=
  { lines := [⟨[], some .ret⟩, ⟨[], some (.jump 0 "nowhere")⟩], last := ⟨[], some .ret⟩ }

/-- The translator that `translate` leaves for `jmp end` / `int 0` / `end:` / `int 3`. -/
def jmpEndResult : RasmTranslator :=
  { labels_ := [("end", 12)], eofRow_ := 4, curr_ip_ := 14,
    fout := [9, 0, 0, 0, 0, 0, 0, 0, 0, 12, 12, 0, 12, 3] }

/-- The keywords of the assembler: the keys of the five vocabularies of the lexer. -/
def keywords : List String :=
  registers_.map Prod.fst ++ binary_operators_.map Prod.fst ++ jumps_.map Prod.fst ++
    others_.map Prod.fst ++ sizes_.map Prod.fst

/-- The fixups of a translator are in order: every offset recorded in `unresolved_labels_`
has eight bytes of the buffer behind it, these bytes are the zero bytes pushed as the
placeholder of a target, and the ranges of two fixups do not overlap (a later entry
starts at or after the end of an earlier one). -/
structure Fixups (s : RasmTranslator) : Prop where
  inside : ∀ kv ∈ s.unresolved_labels_, kv.2 + 8 ≤ s.byte_code_buffer_.length
  placeholder : ∀ kv ∈ s.unresolved_labels_, ∀ j < 8, s.byte_code_buffer_[kv.2 + j]? = some 0
  apart : s.unresolved_labels_.Pairwise (fun a b => a.2 + 8 ≤ b.2)

/-- The translator `s'` has its fixups in order whenever `s` has. -/
def Carries (s s' : RasmTranslator) : Prop := Fixups s → Fixups s'

/-- The translator after at most `n` rounds of the loop of `translate` that starts in `s`,
with the flag that tells whether the loop has ended; `none` when a round does not
return. -/
def roundsFrom : Nat → RasmTranslator → Option (RasmTranslator × Bool)
  | 0, s => some (s, false)
  | n + 1, s =>
    match translateRound s with
    | some (s', false) => roundsFrom n s'
    | other => other

/-- The calls of `try_resolve_label_` that `handle_new_labels_` makes on a line: the translator
at the call, the label and the offset passed. -/
def resolveCalls (s : RasmTranslator) : List token_t → List (RasmTranslator × String × Nat)
  | .Label row label :: .Colon _ :: line =>
    let s1 :=
      if (s.labels_.lookup label).isSome then
        log_error_ s (atRow row ++ " label \'" ++ label ++ "\' was redefined")
      else s
    let s2 := { s1 with labels_ := insertLabel s1.labels_ label s1.curr_ip_ }
    (s2, label, s2.curr_ip_) :: resolveCalls (try_resolve_label_ s2 label s2.curr_ip_) line
  | _ => []

/-- The tokens of the source `jmp end` / `end:`. -/
def jmpEndTokens : List token_t :=
  [.Jump 1 9 0, .Label 1 "end", .Eol 2, .Label 2 "end", .Colon 2]

/-- The translator after the first round on `jmpEndTokens`: the jump is in the buffer, its
target is pending at offset 2. -/
def jmpEndPending : RasmTranslator :=
  { byte_code_buffer_ := [9, 0, 0, 0, 0, 0, 0, 0, 0, 0], unresolved_labels_ := [("end", 2)],
    lexer_ := [.Label 2 "end", .Colon 2], eofRow_ := 2, curr_ip_ := 10 }

end Rasm

namespace Rasm

/-! ## Properties of the assembler -/

@[simp] theorem push_back_byte_code_buffer (s : RasmTranslator) (bytes : List Nat) :
    (push_back s bytes).byte_code_buffer_ = s.byte_code_buffer_ ++ bytes := rfl

@[simp] theorem push_back_labels (s : RasmTranslator) (bytes : List Nat) :
    (push_back s bytes).labels_ = s.labels_ := rfl

@[simp] theorem push_back_unresolved_labels (s : RasmTranslator) (bytes : List Nat) :
    (push_back s bytes).unresolved_labels_ = s.unresolved_labels_ := rfl

@[simp] theorem push_back_lexer (s : RasmTranslator) (bytes : List Nat) :
    (push_back s bytes).lexer_ = s.lexer_ := rfl

@[simp] theorem push_back_eofRow (s : RasmTranslator) (bytes : List Nat) :
    (push_back s bytes).eofRow_ = s.eofRow_ := rfl

@[simp] theorem push_back_errors (s : RasmTranslator) (bytes : List Nat) :
    (push_back s bytes).errors_ = s.errors_ := rfl

@[simp] theorem push_back_has_errors (s : RasmTranslator) (bytes : List Nat) :
    (push_back s bytes).has_errors_ = s.has_errors_ := rfl

@[simp] theorem push_back_curr_ip (s : RasmTranslator) (bytes : List Nat) :
    (push_back s bytes).curr_ip_ = s.curr_ip_ := rfl

@[simp] theorem push_back_fout (s : RasmTranslator) (bytes : List Nat) :
    (push_back s bytes).fout = s.fout := rfl

@[simp] theorem emit_byte_code_buffer (s : RasmTranslator) (bytes : List Nat) (n : Nat) :
    (emit s bytes n).byte_code_buffer_ = s.byte_code_buffer_ ++ bytes := rfl

@[simp] theorem emit_labels (s : RasmTranslator) (bytes : List Nat) (n : Nat) :
    (emit s bytes n).labels_ = s.labels_ := rfl

@[simp] theorem emit_unresolved_labels (s : RasmTranslator) (bytes : List Nat) (n : Nat) :
    (emit s bytes n).unresolved_labels_ = s.unresolved_labels_ := rfl

@[simp] theorem emit_lexer (s : RasmTranslator) (bytes : List Nat) (n : Nat) :
    (emit s bytes n).lexer_ = s.lexer_ := rfl

@[simp] theorem emit_eofRow (s : RasmTranslator) (bytes : List Nat) (n : Nat) :
    (emit s bytes n).eofRow_ = s.eofRow_ := rfl

@[simp] theorem emit_errors (s : RasmTranslator) (bytes : List Nat) (n : Nat) :
    (emit s bytes n).errors_ = s.errors_ := rfl

@[simp] theorem emit_has_errors (s : RasmTranslator) (bytes : List Nat) (n : Nat) :
    (emit s bytes n).has_errors_ = s.has_errors_ := rfl

@[simp] theorem emit_curr_ip (s : RasmTranslator) (bytes : List Nat) (n : Nat) :
    (emit s bytes n).curr_ip_ = (s.curr_ip_ + n) % 2 ^ 64 := rfl

@[simp] theorem emit_fout (s : RasmTranslator) (bytes : List Nat) (n : Nat) :
    (emit s bytes n).fout = s.fout := rfl

@[simp] theorem log_error_byte_code_buffer (s : RasmTranslator) (m : String) :
    (log_error_ s m).byte_code_buffer_ = s.byte_code_buffer_ := rfl

@[simp] theorem log_error_labels (s : RasmTranslator) (m : String) :
    (log_error_ s m).labels_ = s.labels_ := rfl

@[simp] theorem log_error_unresolved_labels (s : RasmTranslator) (m : String) :
    (log_error_ s m).unresolved_labels_ = s.unresolved_labels_ := rfl

@[simp] theorem log_error_lexer (s : RasmTranslator) (m : String) :
    (log_error_ s m).lexer_ = dropLine s.lexer_ := rfl

@[simp] theorem log_error_eofRow (s : RasmTranslator) (m : String) :
    (log_error_ s m).eofRow_ = s.eofRow_ := rfl

@[simp] theorem log_error_errors (s : RasmTranslator) (m : String) :
    (log_error_ s m).errors_ = s.errors_ ++ [m] := rfl

@[simp] theorem log_error_has_errors (s : RasmTranslator) (m : String) :
    (log_error_ s m).has_errors_ = true := rfl

@[simp] theorem log_error_curr_ip (s : RasmTranslator) (m : String) :
    (log_error_ s m).curr_ip_ = s.curr_ip_ := rfl

@[simp] theorem log_error_fout (s : RasmTranslator) (m : String) :
    (log_error_ s m).fout = s.fout := rfl

@[simp] theorem try_resolve_byte_code_buffer (s : RasmTranslator) (label : String) (ip : Nat) :
    (try_resolve_label_ s label ip).byte_code_buffer_ = ((s.unresolved_labels_.filter (fun kv => kv.1 = label)).map Prod.snd).foldl
        (fun b pos => patch b pos ip) s.byte_code_buffer_ := rfl

@[simp] theorem try_resolve_labels (s : RasmTranslator) (label : String) (ip : Nat) :
    (try_resolve_label_ s label ip).labels_ = s.labels_ := rfl

@[simp] theorem try_resolve_unresolved_labels (s : RasmTranslator) (label : String) (ip : Nat) :
    (try_resolve_label_ s label ip).unresolved_labels_ = s.unresolved_labels_.filter (fun kv => kv.1 ≠ label) := rfl

@[simp] theorem try_resolve_lexer (s : RasmTranslator) (label : String) (ip : Nat) :
    (try_resolve_label_ s label ip).lexer_ = s.lexer_ := rfl

@[simp] theorem try_resolve_eofRow (s : RasmTranslator) (label : String) (ip : Nat) :
    (try_resolve_label_ s label ip).eofRow_ = s.eofRow_ := rfl

@[simp] theorem try_resolve_errors (s : RasmTranslator) (label : String) (ip : Nat) :
    (try_resolve_label_ s label ip).errors_ = s.errors_ := rfl

@[simp] theorem try_resolve_has_errors (s : RasmTranslator) (label : String) (ip : Nat) :
    (try_resolve_label_ s label ip).has_errors_ = s.has_errors_ := rfl

@[simp] theorem try_resolve_curr_ip (s : RasmTranslator) (label : String) (ip : Nat) :
    (try_resolve_label_ s label ip).curr_ip_ = s.curr_ip_ := rfl

@[simp] theorem try_resolve_fout (s : RasmTranslator) (label : String) (ip : Nat) :
    (try_resolve_label_ s label ip).fout = s.fout := rfl

theorem ciEq_congr (k : List Char) : ∀ (a b : List Char),
    a.map Char.toLower = b.map Char.toLower → ciEq k a = ciEq k b := by
  induction k with
  | nil =>
    intro a b h
    cases a <;> cases b <;> simp_all [ciEq]
  | cons c k ih =>
    intro a b h
    cases a with
    | nil => cases b <;> simp_all [ciEq]
    | cons x a =>
      cases b with
      | nil => simp at h
      | cons y b =>
        simp only [List.map_cons, List.cons.injEq] at h
        simp only [ciEq, ciCharEq, h.1, ih a b h.2]

theorem ciFind_congr {V : Type} (table : List (String × V)) (a b : List Char)
    (h : a.map Char.toLower = b.map Char.toLower) : ciFind table a = ciFind table b := by
  induction table with
  | nil => rfl
  | cons kv rest ih =>
    obtain ⟨k, v⟩ := kv
    simp only [ciFind, ciEq_congr k.data a b h, ih]

theorem classify_jump (a b : List Char) (h : a.map Char.toLower = b) (v : Nat)
    (hb : b.map Char.toLower = b)
    (h1 : ciFind registers_ b = none) (h2 : ciFind binary_operators_ b = none)
    (h3 : ciFind jumps_ b = some v) : classify a = .Jump 0 9 v := by
  have h' : a.map Char.toLower = b.map Char.toLower := by rw [hb]; exact h
  unfold classify
  rw [ciFind_congr registers_ a b h', ciFind_congr binary_operators_ a b h',
    ciFind_congr jumps_ a b h', h1, h2, h3]

theorem be8_length (x : Nat) : (be8 x).length = 8 := by simp [be8]

/-- **C5.** For every jump mnemonic of the table, written in any letter case, followed by a
label and the end of the line: the lexer yields a `Jump` token with opcode 9, and
`handle_jumps_` appends the opcode byte 9, a header byte with the negate bit in bit 7,
the mode of the table in bits 6:5 and bits 4:0 zero (`neg * 128 + mode * 32`), and an
8-byte target; the `Jmp` decoder of the machine recovers that negate bit and mode from
the header byte. -/
theorem jump_header_encoding (s : RasmTranslator) (lex : List Char) (m : String)
    (mode neg : Nat) (label : String) (row r1 : Nat) (rest : List token_t)
    (hm : (m, mode, neg) ∈ jumpMnemonics) (hlex : lex.map Char.toLower = m.data)
    (hend : atEndOfLine rest = true) :
    ∃ fstByte sndByte target,
      (classify lex).setRow row = .Jump row fstByte sndByte ∧
      (handle_jumps_ s (.Jump row fstByte sndByte :: .Label r1 label :: rest)).1.byte_code_buffer_
        = s.byte_code_buffer_ ++ [9, neg * 128 + mode * 32] ++ target ∧
      target.length = 8 ∧
      RVM.jmpNeg (neg * 128 + mode * 32) = decide (neg = 1) ∧
      RVM.jmpMode (neg * 128 + mode * 32) = mode := by
  have hcl : ∃ v, classify lex = .Jump 0 9 v ∧
      (v <<< 5) % 256 = neg * 128 + mode * 32 ∧
      RVM.jmpNeg (neg * 128 + mode * 32) = decide (neg = 1) ∧
      RVM.jmpMode (neg * 128 + mode * 32) = mode := by
    simp only [jumpMnemonics, List.mem_cons, Prod.mk.injEq, List.mem_singleton,
      List.not_mem_nil, or_false] at hm
    rcases hm with h | h | h | h | h | h | h | h | h | h | h | h | h <;>
      obtain ⟨rfl, rfl, rfl⟩ := h <;>
      refine ⟨_, classify_jump lex _ hlex _ ?_ ?_ ?_ rfl, ?_, ?_, ?_⟩ <;> decide
  obtain ⟨v, h1, h3, h4, h5⟩ := hcl
  have hbuf : ∃ target, (handle_jumps_ s (.Jump row 9 v :: .Label r1 label :: rest)).1.byte_code_buffer_
        = s.byte_code_buffer_ ++ [9, neg * 128 + mode * 32] ++ target ∧ target.length = 8 := by
    simp only [handle_jumps_, handle_jump_target_, hend, if_true, h3]
    split
    · exact ⟨List.replicate 8 0, by simp, by simp⟩
    · rename_i dst _
      exact ⟨be8 dst, by simp, be8_length _⟩
  obtain ⟨target, h6, h7⟩ := hbuf
  exact ⟨9, v, target, by rw [h1]; rfl, h6, h7, h4, h5⟩

theorem be8_eq (x : Nat) :
    be8 x = [x / 2 ^ 56 % 256, x / 2 ^ 48 % 256, x / 2 ^ 40 % 256, x / 2 ^ 32 % 256,
      x / 2 ^ 24 % 256, x / 2 ^ 16 % 256, x / 2 ^ 8 % 256, x % 256] := by
  simp [be8, List.range, List.range.loop, Nat.shiftRight_eq_div_pow]

theorem beValue_be8 (x : Nat) (hx : x < 2 ^ 64) : beValue (be8 x) = x := by
  rw [be8_eq]
  simp only [beValue, List.foldl]
  norm_num
  omega

theorem or_bit63 (K : Nat) :
    (K ||| 2 ^ 63).testBit 63 = true ∧ ∀ i, i ≠ 63 → (K ||| 2 ^ 63).testBit i = K.testBit i := by
  constructor
  · rw [Nat.testBit_or, Nat.testBit_two_pow_self, Bool.or_true]
  · intro i hi
    rw [Nat.testBit_or, Nat.testBit_two_pow, decide_eq_false (Ne.symm hi), Bool.or_false]

theorem or_bit63_lt (K : Nat) (hK : K < 2 ^ 64) : K ||| 2 ^ 63 < 2 ^ 64 :=
  Nat.or_lt_two_pow hK (by norm_num)

/-- **C6.** For every unsigned 64-bit integer `K`: `mov reg, -K` emits, after the opcode and
the mode byte, the 8-byte big-endian encoding of `K | 2^63` (`K` with bit 63 set), and
`mov reg, K` that of `K`; a memory operand `[reg - K]` (of a load or of a store) emits the
8-byte big-endian encoding of `K | 2^63`, `[reg + K]` that of `K` and `[reg]` that of `0`. -/
theorem signed_immediate_encoding (s : RasmTranslator) (K opcode d b size r : Nat)
    (rest : List token_t) (hK : K < 2 ^ 64) (hend : atEndOfLine rest = true) :
    ((handle_mov_ s (.Mov r opcode :: .Register r d :: .Comma r :: .Minus r :: .Integer r K ::
        rest)).1.byte_code_buffer_
      = s.byte_code_buffer_ ++ [opcode, (0b00000000 ||| d) % 256] ++ be8 (K ||| 2 ^ 63)) ∧
    ((handle_mov_ s (.Mov r opcode :: .Register r d :: .Comma r :: .Integer r K ::
        rest)).1.byte_code_buffer_
      = s.byte_code_buffer_ ++ [opcode, (0b00000000 ||| d) % 256] ++ be8 K) ∧
    ((handle_mov_ s (.Mov r opcode :: .Register r d :: .Comma r :: .Size r size :: .LeftPar r ::
        .Register r b :: .Minus r :: .Integer r K :: .RightPar r :: rest)).1.byte_code_buffer_
      = s.byte_code_buffer_ ++ [opcode, (0b10000000 ||| d ||| (size <<< 4)) % 256,
          (b <<< 4) % 256] ++ be8 (K ||| 2 ^ 63)) ∧
    ((handle_mov_ s (.Mov r opcode :: .Register r d :: .Comma r :: .Size r size :: .LeftPar r ::
        .Register r b :: .Plus r :: .Integer r K :: .RightPar r :: rest)).1.byte_code_buffer_
      = s.byte_code_buffer_ ++ [opcode, (0b10000000 ||| d ||| (size <<< 4)) % 256,
          (b <<< 4) % 256] ++ be8 K) ∧
    ((handle_mov_ s (.Mov r opcode :: .Register r d :: .Comma r :: .Size r size :: .LeftPar r ::
        .Register r b :: .RightPar r :: rest)).1.byte_code_buffer_
      = s.byte_code_buffer_ ++ [opcode, (0b10000000 ||| d ||| (size <<< 4)) % 256,
          (b <<< 4) % 256] ++ be8 0) ∧
    ((handle_mov_ s (.Mov r opcode :: .Size r size :: .LeftPar r :: .Register r b :: .Minus r ::
        .Integer r K :: .RightPar r :: .Comma r :: .Register r d :: rest)).1.byte_code_buffer_
      = s.byte_code_buffer_ ++ [opcode, (0b11000000 ||| b ||| (size <<< 4)) % 256,
          (d <<< 4) % 256] ++ be8 (K ||| 2 ^ 63)) ∧
    ((handle_mov_ s (.Mov r opcode :: .Size r size :: .LeftPar r :: .Register r b :: .Plus r ::
        .Integer r K :: .RightPar r :: .Comma r :: .Register r d :: rest)).1.byte_code_buffer_
      = s.byte_code_buffer_ ++ [opcode, (0b11000000 ||| b ||| (size <<< 4)) % 256,
          (d <<< 4) % 256] ++ be8 K) ∧
    ((handle_mov_ s (.Mov r opcode :: .Size r size :: .LeftPar r :: .Register r b ::
        .RightPar r :: .Comma r :: .Register r d :: rest)).1.byte_code_buffer_
      = s.byte_code_buffer_ ++ [opcode, (0b11000000 ||| b ||| (size <<< 4)) % 256,
          (d <<< 4) % 256] ++ be8 0) ∧
    beValue (be8 (K ||| 2 ^ 63)) = K ||| 2 ^ 63 ∧ beValue (be8 K) = K ∧ beValue (be8 0) = 0 ∧
    (K ||| 2 ^ 63).testBit 63 = true ∧ (∀ i, i ≠ 63 → (K ||| 2 ^ 63).testBit i = K.testBit i) := by
  refine ⟨?_, ?_, ?_, ?_, ?_, ?_, ?_, ?_, beValue_be8 _ (or_bit63_lt K hK), beValue_be8 K hK,
    beValue_be8 0 (by norm_num), (or_bit63 K).1, (or_bit63 K).2⟩ <;>
    simp [handle_mov_, handle_mov_to_reg_, handle_mov_to_mem_, get_reg_and_offset_, get_reg_and_offset_from_, hend]

theorem jump_header_encoding_witness :
    ∃ fstByte sndByte target,
      (classify "JnZ".data).setRow 3 = .Jump 3 fstByte sndByte ∧
      (handle_jumps_ {} (.Jump 3 fstByte sndByte :: .Label 3 "loop" :: [.Eol 4])).1.byte_code_buffer_
        = ({} : RasmTranslator).byte_code_buffer_ ++ [9, 1 * 128 + 0b10 * 32] ++ target ∧
      target.length = 8 ∧
      RVM.jmpNeg (1 * 128 + 0b10 * 32) = decide (1 = 1) ∧
      RVM.jmpMode (1 * 128 + 0b10 * 32) = 0b10 :=
  jump_header_encoding {} "JnZ".data "jnz" 0b10 1 "loop" 3 3 [.Eol 4] (by decide) (by decide)
    (by decide)

theorem signed_immediate_encoding_witness :
    (handle_mov_ {} [.Mov 1 6, .Register 1 0, .Comma 1, .Minus 1, .Integer 1 5,
        .Eol 2]).1.byte_code_buffer_ = [6, 0, 128, 0, 0, 0, 0, 0, 0, 5] ∧
    (handle_mov_ {} [.Mov 1 6, .Register 1 3, .Comma 1, .Size 1 3, .LeftPar 1, .Register 1 12,
        .Minus 1, .Integer 1 5, .RightPar 1, .Eol 2]).1.byte_code_buffer_ =
      [6, 0b10110011, 0xC0, 128, 0, 0, 0, 0, 0, 0, 5] ∧
    beValue [128, 0, 0, 0, 0, 0, 0, 5] = 5 ||| 2 ^ 63 :=
  let h := signed_immediate_encoding {} 5 6 0 12 3 1 [.Eol 2] (by norm_num) (by decide)
  ⟨h.1, by decide, h.2.2.2.2.2.2.2.2.1⟩

end Rasm

namespace Rasm

theorem Ext.refl (s : RasmTranslator) : Ext s s :=
  ⟨rfl, id, List.prefix_refl _, fun _ _ h => h, Nat.le_refl _, rfl⟩

theorem Ext.trans {a b c : RasmTranslator} (h1 : Ext a b) (h2 : Ext b c) : Ext a c :=
  ⟨h2.fout.trans h1.fout, fun h => h2.has_errors (h1.has_errors h),
    h1.errors.trans h2.errors, fun k v h => h2.labels k v (h1.labels k v h),
    Nat.le_trans h2.lexer h1.lexer, h2.eofRow.trans h1.eofRow⟩

theorem dropLine_length_le (l : List token_t) : (dropLine l).length ≤ l.length := by
  induction l with
  | nil => simp [dropLine]
  | cons t ts ih =>
    unfold dropLine
    split_ifs
    · simp
    · simp; omega

theorem ext_log_error (s : RasmTranslator) (m : String) : Ext s (log_error_ s m) :=
  ⟨rfl, fun _ => rfl, List.prefix_append _ _, fun _ _ h => h, dropLine_length_le _, rfl⟩

theorem ext_emit (s : RasmTranslator) (bytes : List Nat) (n : Nat) : Ext s (emit s bytes n) :=
  ⟨rfl, id, List.prefix_refl _, fun _ _ h => h, Nat.le_refl _, rfl⟩

theorem ext_push_back (s : RasmTranslator) (bytes : List Nat) : Ext s (push_back s bytes) :=
  ⟨rfl, id, List.prefix_refl _, fun _ _ h => h, Nat.le_refl _, rfl⟩

theorem ext_via {a b c : RasmTranslator} (h2 : Ext b c) (h1 : Ext a b) : Ext a c := h1.trans h2

theorem ext_of_eq {s s' : RasmTranslator} (h1 : s'.fout = s.fout)
    (h2 : s'.has_errors_ = s.has_errors_) (h3 : s'.errors_ = s.errors_)
    (h4 : s'.labels_ = s.labels_) (h5 : s'.lexer_ = s.lexer_) (h6 : s'.eofRow_ = s.eofRow_) :
    Ext s s' :=
  ⟨h1, fun h => by rw [h2]; exact h, by rw [h3], fun k v h => by rw [h4]; exact h,
    by rw [h5], h6⟩

theorem handle_arithmetic_ext (s : RasmTranslator) (line : List token_t) :
    Ext s (handle_arithmetic_ s line).1 := by
  unfold handle_arithmetic_
  repeat' split
  all_goals first
    | exact Ext.refl _
    | exact ext_log_error _ _
    | exact ext_emit _ _ _

theorem handle_jump_target_ext (s : RasmTranslator) (row : Nat) (line : List token_t) :
    Ext s (handle_jump_target_ s row line).1 := by
  unfold handle_jump_target_
  repeat' split
  all_goals first
    | exact Ext.refl _
    | exact ext_log_error _ _
    | exact ext_push_back _ _
    | exact ext_via (ext_push_back _ _) (ext_of_eq rfl rfl rfl rfl rfl rfl)

theorem handle_jumps_ext (s : RasmTranslator) (line : List token_t) :
    Ext s (handle_jumps_ s line).1 := by
  unfold handle_jumps_
  repeat' split
  all_goals first
    | exact Ext.refl _
    | exact (ext_emit _ _ _).trans (handle_jump_target_ext _ _ _)

theorem get_reg_and_offset_from_ext (s : RasmTranslator) (row : Nat) (line : List token_t) :
    Ext s (get_reg_and_offset_from_ s row line).2.1 := by
  unfold get_reg_and_offset_from_
  repeat' split
  all_goals first
    | exact Ext.refl _
    | exact ext_log_error _ _

theorem get_reg_and_offset_ext (s : RasmTranslator) (line : List token_t) :
    Ext s (get_reg_and_offset_ s line).2.1 := by
  unfold get_reg_and_offset_
  split
  · exact Ext.refl _
  · exact get_reg_and_offset_from_ext _ _ _

theorem get_reg_and_offset_ext_of {s s' : RasmTranslator} {line line' : List token_t}
    {o : Option (Nat × Nat)} (h : get_reg_and_offset_ s line = (o, s', line')) : Ext s s' := by
  have := get_reg_and_offset_ext s line
  rw [h] at this
  exact this

theorem handle_mov_to_reg_ext (s : RasmTranslator) (row opcode dstReg : Nat)
    (line : List token_t) : Ext s (handle_mov_to_reg_ s row opcode dstReg line).1 := by
  unfold handle_mov_to_reg_
  repeat' split
  all_goals first
    | exact Ext.refl _
    | exact ext_log_error _ _
    | exact ext_emit _ _ _
    | exact get_reg_and_offset_ext_of ‹get_reg_and_offset_ s _ = _›
    | exact (get_reg_and_offset_ext_of ‹get_reg_and_offset_ s _ = _›).trans (ext_emit _ _ _)
    | exact (get_reg_and_offset_ext_of ‹get_reg_and_offset_ s _ = _›).trans (ext_log_error _ _)

theorem handle_mov_to_mem_ext (s : RasmTranslator) (row opcode size : Nat)
    (line : List token_t) : Ext s (handle_mov_to_mem_ s row opcode size line).1 := by
  unfold handle_mov_to_mem_
  repeat' split
  all_goals first
    | exact Ext.refl _
    | exact ext_log_error _ _
    | exact ext_emit _ _ _
    | exact get_reg_and_offset_ext_of ‹get_reg_and_offset_ s _ = _›
    | exact (get_reg_and_offset_ext_of ‹get_reg_and_offset_ s _ = _›).trans (ext_emit _ _ _)
    | exact (get_reg_and_offset_ext_of ‹get_reg_and_offset_ s _ = _›).trans (ext_log_error _ _)

theorem handle_mov_ext (s : RasmTranslator) (line : List token_t) :
    Ext s (handle_mov_ s line).1 := by
  unfold handle_mov_
  repeat' split
  all_goals first
    | exact Ext.refl _
    | exact ext_log_error _ _
    | exact handle_mov_to_reg_ext _ _ _ _ _
    | exact handle_mov_to_mem_ext _ _ _ _ _

theorem handle_others_end_ext (s : RasmTranslator) (row : Nat) (line : List token_t) :
    Ext s (handle_others_end_ s row line).1 := by
  unfold handle_others_end_ check_end_of_line_
  split_ifs
  · exact Ext.refl _
  · exact ext_log_error _ _

theorem handle_push_pop_ext (s : RasmTranslator) (row : Nat) (line : List token_t) :
    Ext s (handle_push_pop_ s row line).1 := by
  unfold handle_push_pop_
  repeat' split
  all_goals first
    | exact ext_log_error _ _
    | exact ext_via (handle_others_end_ext _ _ _) (ext_push_back _ _)

theorem handle_others_ext (s : RasmTranslator) (line : List token_t) :
    Ext s (handle_others_ s line).1 := by
  unfold handle_others_
  repeat' split
  all_goals first
    | exact Ext.refl _
    | exact ext_log_error _ _
    | exact (ext_emit _ _ _).trans (handle_others_end_ext _ _ _)
    | exact (ext_emit _ _ _).trans (handle_push_pop_ext _ _ _)
    | exact (ext_emit _ _ _).trans (ext_log_error _ _)
    | exact ext_via (handle_others_end_ext _ _ _) (ext_via (ext_push_back _ _) (ext_emit _ _ _))

theorem dispatch_ext (s : RasmTranslator) (line : List token_t) :
    Ext s (dispatch s line).1 := by
  unfold dispatch
  repeat' split
  all_goals first
    | exact handle_arithmetic_ext _ _
    | exact handle_jumps_ext _ _
    | exact handle_mov_ext _ _
    | exact handle_others_ext _ _

theorem lookup_insertLabel (labels : List (String × Nat)) (label : String) (ip : Nat)
    (k : String) (v : Nat) (h : labels.lookup k = some v) :
    (insertLabel labels label ip).lookup k = some v := by
  unfold insertLabel
  split_ifs
  · exact h
  · rw [List.lookup_append, h]; rfl

theorem ext_try_resolve (s : RasmTranslator) (label : String) (ip : Nat) :
    Ext s (try_resolve_label_ s label ip) :=
  ext_of_eq rfl rfl rfl rfl rfl rfl

theorem ext_insertLabel (s : RasmTranslator) (label : String) (ip : Nat) :
    Ext s { s with labels_ := insertLabel s.labels_ label ip } :=
  ⟨rfl, id, List.prefix_refl _, fun k v h => lookup_insertLabel _ _ _ k v h, Nat.le_refl _, rfl⟩

theorem handle_new_labels_ext (s : RasmTranslator) (line : List token_t) :
    Ext s (handle_new_labels_ s line).1 := by
  refine handle_new_labels_.induct (fun s line => Ext s (handle_new_labels_ s line).1)
    ?_ ?_ ?_ s line
  · intro s row label r line s1 s2 ih
    rw [handle_new_labels_]
    refine ext_via ih ?_
    refine ext_via (ext_try_resolve _ _ _) ?_
    refine ext_via (ext_insertLabel s1 label s1.curr_ip_) ?_
    show Ext s (if _ then _ else _)
    split_ifs
    · exact ext_log_error _ _
    · exact Ext.refl _
  · intro s row label line h
    rw [handle_new_labels_]
    · exact ext_log_error _ _
    · exact h
  · intro s line h1 h2
    rw [handle_new_labels_]
    · exact Ext.refl _
    · exact h1
    · exact h2

end Rasm

namespace Rasm

theorem Term.tail {t x : token_t} {rest : List token_t} (h : Term t (x :: rest))
    (hx : x.type ≠ .Eol ∧ x.type ≠ .Eof) : Term t rest := by
  obtain ⟨h1, h2⟩ := h
  cases rest with
  | nil =>
    simp at h1
    subst h1
    rcases h2 with h2 | h2
    · exact absurd h2 hx.1
    · exact absurd h2 hx.2
  | cons y ys =>
    rw [List.getLast?_cons_cons] at h1
    exact ⟨h1, h2⟩

theorem Term.ne_nil {t : token_t} {line : List token_t} (h : Term t line) : line ≠ [] := by
  intro h'
  subst h'
  simp [Term] at h

theorem term_append (acc : List token_t) (t : token_t) (ht : t.type = .Eol ∨ t.type = .Eof) :
    Term t (acc ++ [t]) :=
  ⟨by simp, ht⟩

theorem readLine_spec (fuel : Nat) : ∀ (s : RasmTranslator) (acc : List token_t),
    s.lexer_.length < fuel →
    ∃ line s' t, readLine fuel s acc = some (line, s') ∧ Ext s s' ∧ Term t line ∧
      (t.type = .Eol → s'.lexer_.length < s.lexer_.length) := by
  induction fuel with
  | zero => intro s acc h; omega
  | succ n ih =>
    intro s acc h
    unfold readLine nextToken
    cases hl : s.lexer_ with
    | nil =>
      exact ⟨_, s, .Eof s.eofRow_, rfl, Ext.refl _, term_append _ _ (Or.inr rfl),
        fun h => by cases h⟩
    | cons t ts =>
      have hts : ts.length < n := by rw [hl] at h; simp at h; omega
      have hs1 : Ext s { s with lexer_ := ts } :=
        ⟨rfl, id, List.prefix_refl _, fun _ _ h => h, by rw [hl]; simp, rfl⟩
      have hlen : s.lexer_.length = ts.length + 1 := by rw [hl]; rfl
      simp only []
      split
      · rename_i row lexeme s2 heq
        simp only [Prod.mk.injEq] at heq
        obtain ⟨h1, h2⟩ := heq
        subst h2
        have hd := dropLine_length_le ts
        obtain ⟨line, s', t', e1, e2, e3, e4⟩ := ih
          (log_error_ { s with lexer_ := ts }
            (atRow row ++ " unexpected token \'" ++ lexeme ++ "\'")) acc
          (by simp only [log_error_lexer]; omega)
        refine ⟨line, s', t', e1, hs1.trans ((ext_log_error _ _).trans e2), e3, fun h' => ?_⟩
        have := e4 h'
        simp only [log_error_lexer] at this
        simp only [List.length_cons]
        omega
      · rename_i row s2 heq
        simp only [Prod.mk.injEq] at heq
        obtain ⟨h1, h2⟩ := heq
        subst h2
        exact ⟨_, _, .Eol row, rfl, hs1, term_append _ _ (Or.inl rfl), fun _ => by
          simp only [List.length_cons]; omega⟩
      · rename_i row s2 heq
        simp only [Prod.mk.injEq] at heq
        obtain ⟨h1, h2⟩ := heq
        subst h2
        exact ⟨_, _, .Eof row, rfl, hs1, term_append _ _ (Or.inr rfl), fun h => by cases h⟩
      · rename_i t2 s2 _ _ _ heq
        simp only [Prod.mk.injEq] at heq
        obtain ⟨h1, h2⟩ := heq
        subst h2
        obtain ⟨line, s', t', e1, e2, e3, e4⟩ := ih { s with lexer_ := ts } (acc ++ [t2]) hts
        refine ⟨line, s', t', e1, hs1.trans e2, e3, fun h' => ?_⟩
        have h4 : s'.lexer_.length < ts.length := e4 h'
        simp only [List.length_cons]
        omega

end Rasm

namespace Rasm

theorem get_reg_and_offset_from_term (s : RasmTranslator) (row : Nat) (line : List token_t)
    (t : token_t) (h : Term t line) : Term t (get_reg_and_offset_from_ s row line).2.2 := by
  unfold get_reg_and_offset_from_
  repeat' split
  all_goals
    repeat (first | exact h | replace h := h.tail (by simp [token_t.type]))

theorem get_reg_and_offset_term {s s' : RasmTranslator} {r : Nat} {rest line' : List token_t}
    {o : Option (Nat × Nat)} {t : token_t}
    (heq : get_reg_and_offset_ s (.LeftPar r :: rest) = (o, s', line'))
    (h : Term t (.LeftPar r :: rest)) : Term t line' := by
  have h2 := get_reg_and_offset_from_term s r rest t (h.tail (by simp [token_t.type]))
  have h3 : get_reg_and_offset_ s (.LeftPar r :: rest) = get_reg_and_offset_from_ s r rest := rfl
  rw [← h3, heq] at h2
  exact h2

theorem handle_arithmetic_term (s : RasmTranslator) (line : List token_t) (t : token_t)
    (h : Term t line) : Term t (handle_arithmetic_ s line).2 := by
  unfold handle_arithmetic_
  repeat' split
  all_goals
    repeat (first | exact h | replace h := h.tail (by simp [token_t.type]))

theorem handle_jump_target_term (s : RasmTranslator) (row : Nat) (line : List token_t)
    (t : token_t) (h : Term t line) : Term t (handle_jump_target_ s row line).2 := by
  unfold handle_jump_target_
  repeat' split
  all_goals
    repeat (first | exact h | replace h := h.tail (by simp [token_t.type]))

theorem handle_jumps_term (s : RasmTranslator) (line : List token_t) (t : token_t)
    (h : Term t line) : Term t (handle_jumps_ s line).2 := by
  unfold handle_jumps_
  repeat' split
  all_goals
    repeat (first
      | exact h
      | exact handle_jump_target_term _ _ _ _ (h.tail (by simp [token_t.type])))

theorem handle_mov_to_reg_term (s : RasmTranslator) (row opcode dstReg : Nat)
    (line : List token_t) (t : token_t) (h : Term t line) :
    Term t (handle_mov_to_reg_ s row opcode dstReg line).2 := by
  unfold handle_mov_to_reg_
  repeat' split
  all_goals
    repeat (first
      | exact h
      | replace h := get_reg_and_offset_term ‹get_reg_and_offset_ _ _ = _› h
      | replace h := h.tail (by simp [token_t.type]))

theorem handle_mov_to_mem_term (s : RasmTranslator) (row opcode size : Nat)
    (line : List token_t) (t : token_t) (h : Term t line) :
    Term t (handle_mov_to_mem_ s row opcode size line).2 := by
  unfold handle_mov_to_mem_
  repeat' split
  all_goals
    repeat (first
      | exact h
      | replace h := get_reg_and_offset_term ‹get_reg_and_offset_ _ _ = _› h
      | replace h := h.tail (by simp [token_t.type]))

theorem handle_mov_term (s : RasmTranslator) (line : List token_t) (t : token_t)
    (h : Term t line) : Term t (handle_mov_ s line).2 := by
  unfold handle_mov_
  repeat' split
  all_goals
    repeat (first
      | exact h
      | exact handle_mov_to_reg_term _ _ _ _ _ _
          ((h.tail (by simp [token_t.type])).tail (by simp [token_t.type]))
      | exact handle_mov_to_mem_term _ _ _ _ _ _
          ((h.tail (by simp [token_t.type])).tail (by simp [token_t.type]))
      | replace h := h.tail (by simp [token_t.type]))

theorem handle_push_pop_term (s : RasmTranslator) (row : Nat) (line : List token_t)
    (t : token_t) (h : Term t line) : Term t (handle_push_pop_ s row line).2 := by
  unfold handle_push_pop_ handle_others_end_
  repeat' split
  all_goals
    repeat (first | exact h | replace h := h.tail (by simp [token_t.type]))

theorem handle_others_term (s : RasmTranslator) (line : List token_t) (t : token_t)
    (h : Term t line) : Term t (handle_others_ s line).2 := by
  unfold handle_others_ handle_others_end_
  repeat' split
  all_goals
    repeat (first
      | exact h
      | exact handle_push_pop_term _ _ _ _ (h.tail (by simp [token_t.type]))
      | replace h := h.tail (by simp [token_t.type]))

theorem dispatch_term (s : RasmTranslator) (line : List token_t) (t : token_t)
    (h : Term t line) : Term t (dispatch s line).2 := by
  unfold dispatch
  repeat' split
  all_goals first
    | exact handle_arithmetic_term _ _ _ h
    | exact handle_jumps_term _ _ _ h
    | exact handle_mov_term _ _ _ h
    | exact handle_others_term _ _ _ h

theorem handle_new_labels_term (s : RasmTranslator) (line : List token_t) (t : token_t)
    (h : Term t line) : Term t (handle_new_labels_ s line).2 := by
  revert h
  refine handle_new_labels_.induct (fun s line => Term t line → Term t (handle_new_labels_ s line).2)
    ?_ ?_ ?_ s line
  · intro s row label r line s1 s2 ih h
    rw [handle_new_labels_]
    exact ih ((h.tail (by simp [token_t.type])).tail (by simp [token_t.type]))
  · intro s row label line hne h
    rw [handle_new_labels_]
    · exact h.tail (by simp [token_t.type])
    · exact hne
  · intro s line h1 h2 h
    rw [handle_new_labels_]
    · exact h
    · exact h1
    · exact h2

end Rasm

namespace Rasm

theorem Ext.grows {s s' : RasmTranslator} (h : Ext s s') : Grows s s' :=
  ⟨fun _ => h.fout, h.has_errors, h.errors, h.labels, h.lexer, h.eofRow⟩

theorem Grows.comp {a b c : RasmTranslator} (h1 : Grows a b) (h2 : Grows b c) : Grows a c :=
  ⟨fun h => (h2.fout (h1.has_errors h)).trans (h1.fout h), fun h => h2.has_errors (h1.has_errors h),
    h1.errors.trans h2.errors, fun k v h => h2.labels k v (h1.labels k v h),
    Nat.le_trans h2.lexer h1.lexer, h2.eofRow.trans h1.eofRow⟩

theorem grows_write (s : RasmTranslator) : Grows s (write_ s) := by
  unfold write_
  split_ifs with h
  · exact ⟨fun _ => rfl, fun h => h, List.prefix_refl _, fun _ _ h => h, Nat.le_refl _, rfl⟩
  · exact ⟨fun h' => absurd h' h, fun h => h, List.prefix_refl _, fun _ _ h => h,
      Nat.le_refl _, rfl⟩

theorem grows_flush (s : RasmTranslator) :
    Grows s (if s.unresolved_labels_.isEmpty then write_ s else s) := by
  split_ifs
  · exact grows_write s
  · exact (Ext.refl s).grows

theorem term_blank {t : token_t} {line : List token_t} (h : Term t line)
    (hb : isBlankLine line = true) : t.type = .Eol := by
  obtain ⟨h1, _⟩ := h
  match line, hb, h1 with
  | [x], hb, h1 =>
    simp at h1
    subst h1
    simpa [isBlankLine] using hb

theorem term_not_eof {t : token_t} {line : List token_t} (h : Term t line)
    (hb : backIsEof line = false) : t.type = .Eol := by
  obtain ⟨h1, h2⟩ := h
  unfold backIsEof at hb
  rw [h1] at hb
  rcases h2 with h2 | h2
  · exact h2
  · simp [h2] at hb

/-- A round of the loop of `translate` returns; the translator it leaves extends the one it
started from, has read at least one token unless the loop ends with it, and has the
output of the start when it has the error flag set. -/
theorem translateRound_spec (s : RasmTranslator) :
    ∃ s' done, translateRound s = some (s', done) ∧ Grows s s' ∧
      (done = false → s'.lexer_.length < s.lexer_.length) ∧
      (s'.has_errors_ = true → s'.fout = s.fout) := by
  obtain ⟨line, s1, t, e1, x1, t1, d1⟩ := readLine_spec (s.lexer_.length + 1) s [] (by omega)
  unfold translateRound
  rw [e1]
  simp only []
  have x2 := handle_new_labels_ext s1 line
  have t2 := handle_new_labels_term s1 line t t1
  rcases h2 : handle_new_labels_ s1 line with ⟨s2, line2⟩
  rw [h2] at x2 t2
  simp only [] at x2 t2 ⊢
  by_cases hb : isBlankLine line2 = true
  · rw [if_pos hb]
    have hd := d1 (term_blank t2 hb)
    have hl := x2.lexer
    exact ⟨s2, false, rfl, (x1.trans x2).grows, fun _ => by omega, fun _ => (x1.trans x2).fout⟩
  · rw [if_neg hb]
    have x3 := dispatch_ext s2 line2
    have t3 := dispatch_term s2 line2 t t2
    rcases h3 : dispatch s2 line2 with ⟨s3, line3⟩
    rw [h3] at x3 t3
    simp only [] at x3 t3 ⊢
    have g4 := grows_flush s3
    have x13 := (x1.trans x2).trans x3
    refine ⟨_, _, rfl, x13.grows.comp g4, fun he => ?_, fun he => ?_⟩
    · have hd := d1 (term_not_eof t3 he)
      have hl4 := g4.lexer
      have hl3 := (x2.trans x3).lexer
      omega
    · have h3e : s3.has_errors_ = true := by
        by_cases hu : s3.unresolved_labels_.isEmpty = true
        · rw [if_pos hu] at he
          unfold write_ at he
          split_ifs at he with h'
          · exact h'
          · exact he
        · rw [if_neg hu] at he
          exact he
      rw [g4.fout h3e]
      exact x13.fout

/-- The loop of `translate` ends: `fuel` rounds suffice when `fuel` exceeds the number of tokens
left, and the translator it returns extends the one it started from. -/
theorem translateLoop_grows (fuel : Nat) : ∀ (s : RasmTranslator), s.lexer_.length < fuel →
    ∃ r, translateLoop fuel s = some r ∧ Grows s r := by
  induction fuel with
  | zero => intro s h; omega
  | succ n ih =>
    intro s h
    obtain ⟨s', done, e, g, d, _⟩ := translateRound_spec s
    unfold translateLoop
    rw [e]
    cases done with
    | true => exact ⟨s', rfl, g⟩
    | false =>
      have := d rfl
      obtain ⟨r, hr, gr⟩ := ih s' (by omega)
      exact ⟨r, hr, g.comp gr⟩

/-- The method `translate` returns for every token stream. -/
theorem translate_returns (toks : List token_t) (eofRow : Nat) :
    ∃ r, translate toks eofRow = some r :=
  let ⟨r, h, _⟩ := translateLoop_grows (toks.length + 1) { lexer_ := toks, eofRow_ := eofRow }
    (Nat.lt_succ_self _)
  ⟨r, h⟩

theorem translateLoop_keeps_output (fuel : Nat) : ∀ (s r : RasmTranslator),
    translateLoop fuel s = some r → s.has_errors_ = true →
    r.fout = s.fout ∧ r.has_errors_ = true := by
  induction fuel with
  | zero => intro s r h; simp [translateLoop] at h
  | succ n ih =>
    intro s r h herr
    obtain ⟨s', done, e, g, _, _⟩ := translateRound_spec s
    unfold translateLoop at h
    rw [e] at h
    cases done with
    | true =>
      simp only [Option.some.injEq] at h
      subst h
      exact ⟨g.fout herr, g.has_errors herr⟩
    | false =>
      simp only at h
      obtain ⟨h1, h2⟩ := ih s' r h (g.has_errors herr)
      exact ⟨h1.trans (g.fout herr), h2⟩

/-- **C3 (as stated) fails.** The source `ret` / `mov`: the first line is translated and its byte
`0B` written; the second line logs a diagnostic, so `translate` returns a not-ok status,
and the byte of the first line stays written. -/
theorem write_before_error_counterexample :
    (translateSource "ret\nmov\n").map (fun r => (status r, r.fout)) =
      some ({ ok_ := false, errors_ := ["at row 2 expected move destination"] }, [11]) := by
  decide

/-- **C3 (amended).** For every state of the translator: a round of the `translate` loop (one
line) that ends with the error flag set has written no byte, and from a state with the
error flag set the rest of the translation writes no byte and returns a not-ok status.
So when `translate` logs a diagnostic, nothing is written from the round that logs the
first diagnostic on; what earlier rounds wrote stays in the output. -/
theorem no_write_once_error_logged (s s' : RasmTranslator) (done : Bool)
    (hround : translateRound s = some (s', done)) :
    (s'.has_errors_ = true → s'.fout = s.fout) ∧
    (s.has_errors_ = true → s'.has_errors_ = true) ∧
    (∀ fuel r, translateLoop fuel s' = some r → s'.has_errors_ = true →
      r.fout = s'.fout ∧ (status r).ok_ = false) := by
  obtain ⟨s2, d2, e, g, _, hf⟩ := translateRound_spec s
  rw [hround] at e
  simp only [Option.some.injEq, Prod.mk.injEq] at e
  obtain ⟨rfl, rfl⟩ := e
  refine ⟨hf, g.has_errors, fun fuel r h herr => ?_⟩
  obtain ⟨h1, h2⟩ := translateLoop_keeps_output fuel s' r h herr
  exact ⟨h1, by simp [status, h2]⟩

theorem no_write_once_error_logged_witness :
    translateRound midRetMov = some (endRetMov, false) ∧
    ((endRetMov.has_errors_ = true → endRetMov.fout = midRetMov.fout) ∧
      (midRetMov.has_errors_ = true → endRetMov.has_errors_ = true) ∧
      ∀ fuel r, translateLoop fuel endRetMov = some r → endRetMov.has_errors_ = true →
        r.fout = endRetMov.fout ∧ (status r).ok_ = false) :=
  ⟨by decide, no_write_once_error_logged midRetMov endRetMov false (by decide)⟩

end Rasm

namespace Rasm

theorem dispatch_statement (s : RasmTranslator) (st : Statement) (row : Nat) (t : token_t)
    (ht : t.type = .Eol ∨ t.type = .Eof) :
    dispatch s (st.tokens row ++ [t]) = (applyStatement s st, [t]) := by
  have hend : atEndOfLine [t] = true := by
    simp only [atEndOfLine]
    rcases ht with h | h <;> simp [h]
  cases st with
  | arithmetic opcode dst src =>
    simp [Statement.tokens, dispatch, handle_arithmetic_, hend, applyStatement,
      Statement.encode, Statement.length, pendingOf, Statement.target, emit, push_back]
  | jump cond label =>
    simp only [Statement.tokens, dispatch, handle_jumps_, handle_jump_target_, hend,
      List.cons_append, List.nil_append, if_true, emit_labels]
    cases hl : s.labels_.lookup label <;>
      simp [applyStatement, Statement.encode, Statement.length, pendingOf, Statement.target,
        Statement.targetAt, targetBytes, hl, emit, push_back]
  | call label =>
    simp only [Statement.tokens, dispatch, handle_jumps_, handle_jump_target_, hend,
      List.cons_append, List.nil_append, if_true, emit_labels]
    cases hl : s.labels_.lookup label <;>
      simp [applyStatement, Statement.encode, Statement.length, pendingOf, Statement.target,
        Statement.targetAt, targetBytes, hl, emit, push_back]
  | ret =>
    simp [Statement.tokens, dispatch, handle_others_, handle_others_end_, check_end_of_line_,
      hend, applyStatement, Statement.encode, Statement.length, pendingOf, Statement.target,
      emit, push_back]
  | int id =>
    simp [Statement.tokens, dispatch, handle_others_, handle_others_end_, check_end_of_line_,
      hend, applyStatement, Statement.encode, Statement.length, pendingOf, Statement.target,
      emit, push_back]
  | test reg =>
    simp [Statement.tokens, dispatch, handle_others_, handle_others_end_, check_end_of_line_,
      hend, applyStatement, Statement.encode, Statement.length, pendingOf, Statement.target,
      emit, push_back]
  | push size reg =>
    simp [Statement.tokens, dispatch, handle_others_, handle_push_pop_, handle_others_end_,
      check_end_of_line_, hend, applyStatement, Statement.encode, Statement.length, pendingOf,
      Statement.target, emit, push_back]
  | pop size reg =>
    simp [Statement.tokens, dispatch, handle_others_, handle_push_pop_, handle_others_end_,
      check_end_of_line_, hend, applyStatement, Statement.encode, Statement.length, pendingOf,
      Statement.target, emit, push_back]
  | movImm dst neg k =>
    cases neg <;>
      simp [Statement.tokens, dispatch, handle_mov_, handle_mov_to_reg_, hend, applyStatement,
        Statement.encode, Statement.length, pendingOf, Statement.target, emit, push_back]
  | movReg dst src =>
    simp [Statement.tokens, dispatch, handle_mov_, handle_mov_to_reg_, hend, applyStatement,
      Statement.encode, Statement.length, pendingOf, Statement.target, emit, push_back]
  | movLoad dst size base off =>
    cases off <;>
      simp [Statement.tokens, Offset.tokens, Offset.value, dispatch, handle_mov_,
        handle_mov_to_reg_, get_reg_and_offset_, get_reg_and_offset_from_, hend, applyStatement,
        Statement.encode, Statement.length, pendingOf, Statement.target, emit, push_back]
  | movStore size base off src =>
    cases off <;>
      simp [Statement.tokens, Offset.tokens, Offset.value, dispatch, handle_mov_,
        handle_mov_to_mem_, get_reg_and_offset_, get_reg_and_offset_from_, hend, applyStatement,
        Statement.encode, Statement.length, pendingOf, Statement.target, emit, push_back]

end Rasm

namespace Rasm

theorem handle_new_labels_labels (row : Nat) (names : List String) :
    ∀ (s : RasmTranslator) (rest : List token_t),
      handle_new_labels_ s (labelTokens row names ++ rest) =
        handle_new_labels_ (names.foldl (defineLabel row) s) rest := by
  induction names with
  | nil => intro s rest; rfl
  | cons name names ih =>
    intro s rest
    simp only [labelTokens, List.cons_append, List.foldl_cons]
    rw [handle_new_labels_]
    exact ih _ rest

theorem handle_new_labels_statement (s : RasmTranslator) (st : Statement) (row : Nat)
    (rest : List token_t) :
    handle_new_labels_ s (st.tokens row ++ rest) = (s, st.tokens row ++ rest) := by
  cases st with
  | movImm dst neg k => cases neg <;> simp [Statement.tokens, handle_new_labels_]
  | _ => simp [Statement.tokens, handle_new_labels_]

theorem handle_new_labels_term_only (s : RasmTranslator) (t : token_t)
    (ht : t.type = .Eol ∨ t.type = .Eof) : handle_new_labels_ s [t] = (s, [t]) := by
  cases t <;> simp [token_t.type] at ht <;> simp [handle_new_labels_]

theorem statement_tokens_plain (st : Statement) (row : Nat) :
    ∀ t ∈ st.tokens row, t.plain = true := by
  cases st with
  | movImm dst neg k =>
    cases neg <;> simp [Statement.tokens, token_t.plain, token_t.type]
  | movLoad dst size base off =>
    cases off <;> simp [Statement.tokens, Offset.tokens, token_t.plain, token_t.type]
  | movStore size base off src =>
    cases off <;> simp [Statement.tokens, Offset.tokens, token_t.plain, token_t.type]
  | _ => simp [Statement.tokens, token_t.plain, token_t.type]

theorem labelTokens_plain (row : Nat) (names : List String) :
    ∀ t ∈ labelTokens row names, t.plain = true := by
  induction names with
  | nil => simp [labelTokens]
  | cons name names ih =>
    intro t ht
    simp only [labelTokens, List.mem_cons] at ht
    rcases ht with h | h | h
    · subst h; simp [token_t.plain, token_t.type]
    · subst h; simp [token_t.plain, token_t.type]
    · exact ih t h

theorem line_tokens_plain (l : Line) (row : Nat) : ∀ t ∈ l.tokens row, t.plain = true := by
  intro t ht
  simp only [Line.tokens, List.mem_append] at ht
  rcases ht with h | h
  · exact labelTokens_plain row _ t h
  · cases hs : l.statement with
    | none => rw [hs] at h; simp [statementTokens] at h
    | some st => rw [hs] at h; exact statement_tokens_plain st row t h

theorem statement_tokens_ne_nil (st : Statement) (row : Nat) : st.tokens row ≠ [] := by
  cases st <;> simp [Statement.tokens]

theorem readLine_plain (toks : List token_t) : ∀ (fuel : Nat) (s : RasmTranslator)
    (acc rest : List token_t) (row : Nat),
    (∀ t ∈ toks, t.plain = true) → s.lexer_ = toks ++ .Eol row :: rest → toks.length < fuel →
    readLine fuel s acc = some (acc ++ toks ++ [.Eol row], { s with lexer_ := rest }) := by
  induction toks with
  | nil =>
    intro fuel s acc rest row _ hl hf
    cases fuel with
    | zero => simp at hf
    | succ n =>
      simp only [List.nil_append] at hl
      simp [readLine, nextToken, hl]
  | cons t ts ih =>
    intro fuel s acc rest row hp hl hf
    cases fuel with
    | zero => simp at hf
    | succ n =>
      have ht : t.plain = true := hp t (List.mem_cons_self _ _)
      have hrec := ih n { s with lexer_ := ts ++ .Eol row :: rest } (acc ++ [t]) rest row
        (fun x hx => hp x (List.mem_cons_of_mem _ hx)) rfl (by simp at hf; omega)
      simp only [List.cons_append] at hl
      unfold readLine nextToken
      rw [hl]
      cases t <;> simp [token_t.plain, token_t.type] at ht <;>
        simpa [List.append_assoc] using hrec

theorem readLine_plain_last (toks : List token_t) : ∀ (fuel : Nat) (s : RasmTranslator)
    (acc : List token_t),
    (∀ t ∈ toks, t.plain = true) → s.lexer_ = toks → toks.length < fuel →
    readLine fuel s acc = some (acc ++ toks ++ [.Eof s.eofRow_], { s with lexer_ := [] }) := by
  induction toks with
  | nil =>
    intro fuel s acc _ hl hf
    cases fuel with
    | zero => simp at hf
    | succ n =>
      have hs : s = { s with lexer_ := [] } := by rw [← hl]
      simp only [readLine, nextToken, hl, List.append_nil]
      rw [← hs]
  | cons t ts ih =>
    intro fuel s acc hp hl hf
    cases fuel with
    | zero => simp at hf
    | succ n =>
      have ht : t.plain = true := hp t (List.mem_cons_self _ _)
      have hrec := ih n { s with lexer_ := ts } (acc ++ [t])
        (fun x hx => hp x (List.mem_cons_of_mem _ hx)) rfl (by simp at hf; omega)
      unfold readLine nextToken
      rw [hl]
      cases t <;> simp [token_t.plain, token_t.type] at ht <;>
        simpa [List.append_assoc] using hrec

end Rasm

namespace Rasm

theorem isBlankLine_statement (st : Statement) (row : Nat) (t : token_t) :
    isBlankLine (st.tokens row ++ [t]) = false := by
  cases st with
  | movImm dst neg k => cases neg <;> simp [Statement.tokens, isBlankLine]
  | _ => simp [Statement.tokens, isBlankLine]

theorem translateRound_line (s : RasmTranslator) (l : Line) (row r : Nat) (rest : List token_t)
    (hl : s.lexer_ = l.tokens row ++ .Eol r :: rest) :
    translateRound s = some (lineEffect row false { s with lexer_ := rest } l, false) := by
  have hread := readLine_plain (l.tokens row) (s.lexer_.length + 1) s [] rest r
    (line_tokens_plain l row) hl (by rw [hl]; simp; omega)
  unfold translateRound
  rw [hread]
  simp only [List.nil_append, Line.tokens, List.append_assoc]
  rw [handle_new_labels_labels]
  unfold lineEffect
  cases hs : l.statement with
  | none =>
    simp only [statementTokens, List.nil_append]
    rw [handle_new_labels_term_only _ (.Eol r) (Or.inl rfl)]
    simp [isBlankLine, token_t.type]
  | some st =>
    simp only [statementTokens]
    rw [handle_new_labels_statement]
    simp only [isBlankLine_statement, Bool.false_eq_true, if_false]
    rw [dispatch_statement _ _ _ (.Eol r) (Or.inl rfl)]
    simp [flush, backIsEof, token_t.type]

theorem translateRound_last (s : RasmTranslator) (l : Line) (row : Nat)
    (hl : s.lexer_ = l.tokens row) :
    translateRound s = some (lineEffect row true { s with lexer_ := [] } l, true) := by
  have hread := readLine_plain_last (l.tokens row) (s.lexer_.length + 1) s []
    (line_tokens_plain l row) hl (by rw [hl]; omega)
  unfold translateRound
  rw [hread]
  simp only [List.nil_append, Line.tokens, List.append_assoc]
  rw [handle_new_labels_labels]
  unfold lineEffect
  cases hs : l.statement with
  | none =>
    simp only [statementTokens, List.nil_append]
    rw [handle_new_labels_term_only _ (.Eof s.eofRow_) (Or.inr rfl)]
    simp [isBlankLine, token_t.type, dispatch, handle_others_, flush, backIsEof]
  | some st =>
    simp only [statementTokens]
    rw [handle_new_labels_statement]
    simp only [isBlankLine_statement, Bool.false_eq_true, if_false]
    rw [dispatch_statement _ _ _ (.Eof s.eofRow_) (Or.inr rfl)]
    simp [flush, backIsEof, token_t.type]

end Rasm

namespace Rasm

theorem targetBytes_length (labels : List (String × Nat)) (label : String) :
    (targetBytes labels label).length = 8 := by
  unfold targetBytes
  split
  · exact be8_length _
  · simp

theorem encode_length (labels : List (String × Nat)) (st : Statement) :
    (st.encode labels).length = st.length := by
  cases st <;> simp [Statement.encode, Statement.length, targetBytes_length, be8_length]

theorem assemble_nil (labels : List (String × Nat)) : assemble labels [] = [] := rfl

theorem assemble_cons (labels : List (String × Nat)) (st : Statement) (rest : List Statement) :
    assemble labels (st :: rest) = st.encode labels ++ assemble labels rest := by
  simp [assemble]

theorem assemble_append (labels : List (String × Nat)) (a b : List Statement) :
    assemble labels (a ++ b) = assemble labels a ++ assemble labels b := by
  simp [assemble]

theorem totalLength_cons (st : Statement) (rest : List Statement) :
    totalLength (st :: rest) = st.length + totalLength rest := by
  simp [totalLength]

theorem totalLength_append (a b : List Statement) :
    totalLength (a ++ b) = totalLength a + totalLength b := by
  simp [totalLength]

theorem assemble_length (labels : List (String × Nat)) (stmts : List Statement) :
    (assemble labels stmts).length = totalLength stmts := by
  induction stmts with
  | nil => rfl
  | cons st rest ih =>
    rw [assemble_cons, List.length_append, encode_length, ih, totalLength_cons]

theorem pendingFixups_append (labels : List (String × Nat)) (a b : List Statement) :
    ∀ base, pendingFixups labels base (a ++ b) =
      pendingFixups labels base a ++ pendingFixups labels (base + totalLength a) b := by
  induction a with
  | nil => intro base; simp [pendingFixups, totalLength]
  | cons st rest ih =>
    intro base
    show pendingOf labels base st ++ pendingFixups labels (base + st.length) (rest ++ b) = _
    rw [ih, totalLength_cons]
    simp only [pendingFixups, List.append_assoc, Nat.add_assoc]

theorem set_at_length {α : Type} (A : List α) (x v : α) (C : List α) :
    (A ++ x :: C).set A.length v = A ++ v :: C := by
  induction A with
  | nil => rfl
  | cons a A ih => simp [ih]

theorem foldl_set_range {α : Type} (f : Nat → α) (n : Nat) :
    ∀ (A Z B : List α), Z.length = n →
      (List.range n).foldl (fun b j => b.set (A.length + j) (f j)) (A ++ Z ++ B) =
        A ++ (List.range n).map f ++ B := by
  induction n with
  | zero =>
    intro A Z B hZ
    have : Z = [] := List.length_eq_zero.mp hZ
    subst this
    simp
  | succ n ih =>
    intro A Z B hZ
    obtain ⟨Z', z, rfl⟩ : ∃ Z' z, Z = Z' ++ [z] := by
      cases h : Z.reverse with
      | nil =>
        have : Z = [] := by simpa using h
        subst this
        simp at hZ
      | cons z zs =>
        refine ⟨zs.reverse, z, ?_⟩
        have := congrArg List.reverse h
        simpa using this
    have hZ' : Z'.length = n := by simpa using hZ
    rw [List.range_succ, List.foldl_append, List.map_append]
    have h1 : A ++ (Z' ++ [z]) ++ B = A ++ Z' ++ (z :: B) := by simp
    rw [h1, ih A Z' (z :: B) hZ']
    simp only [List.foldl_cons, List.foldl_nil, List.map_cons, List.map_nil]
    have h2 : A.length + n = (A ++ List.map f (List.range n)).length := by simp
    rw [h2, set_at_length]
    simp

theorem patch_at (A Z B : List Nat) (ip : Nat) (hZ : Z.length = 8) :
    patch (A ++ Z ++ B) A.length ip = A ++ be8 ip ++ B := by
  unfold patch be8
  exact foldl_set_range (fun j => (ip >>> (64 - 8 * (j + 1))) % 256) 8 A Z B hZ

end Rasm

namespace Rasm

theorem lookup_snoc (labels : List (String × Nat)) (name : String) (ip : Nat)
    (hfresh : labels.lookup name = none) (l : String) :
    (labels ++ [(name, ip)]).lookup l = if l = name then some ip else labels.lookup l := by
  rw [List.lookup_append]
  by_cases h : l = name
  · subst h
    simp [hfresh, List.lookup]
  · have : ([(name, ip)] : List (String × Nat)).lookup l = none := by
      have hb : (l == name) = false := by simpa using h
      simp [List.lookup, hb]
    rw [this, if_neg h]
    simp

theorem targetBytes_snoc (labels : List (String × Nat)) (name : String) (ip : Nat)
    (hfresh : labels.lookup name = none) (l : String) :
    targetBytes (labels ++ [(name, ip)]) l = if l = name then be8 ip else targetBytes labels l := by
  unfold targetBytes
  rw [lookup_snoc labels name ip hfresh l]
  by_cases h : l = name
  · simp [h]
  · simp [h]

theorem encode_snoc_other (labels : List (String × Nat)) (name : String) (ip : Nat)
    (hfresh : labels.lookup name = none) (st : Statement) (h : st.target ≠ some name) :
    st.encode (labels ++ [(name, ip)]) = st.encode labels := by
  cases st with
  | jump cond l =>
    have hl : l ≠ name := fun e => h (by simp [Statement.target, e])
    simp [Statement.encode, targetBytes_snoc labels name ip hfresh, hl]
  | call l =>
    have hl : l ≠ name := fun e => h (by simp [Statement.target, e])
    simp [Statement.encode, targetBytes_snoc labels name ip hfresh, hl]
  | _ => rfl

theorem pendingOf_snoc (labels : List (String × Nat)) (name : String) (ip : Nat)
    (hfresh : labels.lookup name = none) (base : Nat) (st : Statement) :
    pendingOf (labels ++ [(name, ip)]) base st =
      (pendingOf labels base st).filter (fun kv => kv.1 ≠ name) := by
  unfold pendingOf
  cases ht : st.target with
  | none => simp
  | some l =>
    simp only [lookup_snoc labels name ip hfresh l]
    by_cases h : l = name
    · subst h
      simp [hfresh]
    · simp only [if_neg h]
      cases hl : labels.lookup l with
      | none => simp [h]
      | some v => simp

theorem pendingFixups_snoc (labels : List (String × Nat)) (name : String) (ip : Nat)
    (hfresh : labels.lookup name = none) (stmts : List Statement) :
    ∀ base, pendingFixups (labels ++ [(name, ip)]) base stmts =
      (pendingFixups labels base stmts).filter (fun kv => kv.1 ≠ name) := by
  induction stmts with
  | nil => intro base; rfl
  | cons st rest ih =>
    intro base
    simp only [pendingFixups, List.filter_append, ih, pendingOf_snoc labels name ip hfresh]

theorem pendingOf_name (labels : List (String × Nat)) (name : String)
    (hfresh : labels.lookup name = none) (base : Nat) (st : Statement) :
    ((pendingOf labels base st).filter (fun kv => kv.1 = name)).map Prod.snd =
      if st.target = some name then [base + st.targetAt] else [] := by
  unfold pendingOf
  cases ht : st.target with
  | none => simp
  | some l =>
    by_cases h : l = name
    · subst h
      simp [hfresh]
    · cases hl : labels.lookup l with
      | none => simp [h]
      | some v => simp [h]

theorem encode_target (st : Statement) (name : String) (h : st.target = some name) :
    ∃ hd, hd.length = st.targetAt ∧ ∀ tbl, st.encode tbl = hd ++ targetBytes tbl name := by
  cases st with
  | jump cond l =>
    simp only [Statement.target, Option.some.injEq] at h
    subst h
    exact ⟨[9, (cond <<< 5) % 256], rfl, fun _ => rfl⟩
  | call l =>
    simp only [Statement.target, Option.some.injEq] at h
    subst h
    exact ⟨[10], rfl, fun _ => rfl⟩
  | _ => simp [Statement.target] at h

/-- Backpatching: patching the pending fixups of a fresh label in the bytes that were assembled
without it yields the bytes assembled with it. -/
theorem backpatch (labels : List (String × Nat)) (name : String) (ip : Nat)
    (hfresh : labels.lookup name = none) (stmts : List Statement) :
    ∀ pre : List Nat,
      (((pendingFixups labels pre.length stmts).filter (fun kv => kv.1 = name)).map
          Prod.snd).foldl (fun b pos => patch b pos ip) (pre ++ assemble labels stmts) =
        pre ++ assemble (labels ++ [(name, ip)]) stmts := by
  induction stmts with
  | nil => intro pre; simp [pendingFixups, assemble]
  | cons st rest ih =>
    intro pre
    simp only [pendingFixups, List.filter_append, List.map_append, List.foldl_append,
      assemble_cons]
    rw [pendingOf_name labels name hfresh]
    by_cases ht : st.target = some name
    · obtain ⟨hd, hlen, henc⟩ := encode_target st name ht
      rw [if_pos ht, henc labels, henc (labels ++ [(name, ip)])]
      simp only [List.foldl_cons, List.foldl_nil]
      have hz : targetBytes labels name = List.replicate 8 0 := by
        simp [targetBytes, hfresh]
      have hb : targetBytes (labels ++ [(name, ip)]) name = be8 ip := by
        rw [targetBytes_snoc labels name ip hfresh]; simp
      have e1 : pre ++ (hd ++ targetBytes labels name ++ assemble labels rest) =
          (pre ++ hd) ++ List.replicate 8 0 ++ assemble labels rest := by
        rw [hz]; simp
      have e2 : pre.length + st.targetAt = (pre ++ hd).length := by simp [hlen]
      rw [e1, e2, patch_at _ _ _ _ (by simp)]
      have e3 : pre.length + st.length = (pre ++ hd ++ be8 ip).length := by
        have := encode_length labels st
        rw [henc labels] at this
        simp only [List.length_append, targetBytes_length] at this
        simp only [List.length_append, be8_length]
        omega
      rw [e3, ih (pre ++ hd ++ be8 ip), hb]
      simp
    · rw [if_neg ht, encode_snoc_other labels name ip hfresh st ht]
      simp only [List.foldl_nil]
      have e3 : pre.length + st.length = (pre ++ st.encode labels).length := by
        simp [encode_length]
      have e1 : pre ++ (st.encode labels ++ assemble labels rest) =
          (pre ++ st.encode labels) ++ assemble labels rest := by simp
      rw [e1, e3, ih (pre ++ st.encode labels)]
      simp

end Rasm

namespace Rasm

theorem referencedLabels_cons (st : Statement) (rest : List Statement) :
    referencedLabels (st :: rest) = st.target.toList ++ referencedLabels rest := by
  simp [referencedLabels]

theorem referencedLabels_append (a b : List Statement) :
    referencedLabels (a ++ b) = referencedLabels a ++ referencedLabels b := by
  simp [referencedLabels]

theorem assemble_snoc_resolved (labels : List (String × Nat)) (name : String) (ip : Nat)
    (hfresh : labels.lookup name = none) (stmts : List Statement)
    (hres : ∀ l ∈ referencedLabels stmts, (labels.lookup l).isSome = true) :
    assemble (labels ++ [(name, ip)]) stmts = assemble labels stmts := by
  induction stmts with
  | nil => rfl
  | cons st rest ih =>
    rw [assemble_cons, assemble_cons]
    rw [referencedLabels_cons] at hres
    have hst : st.target ≠ some name := by
      intro h
      have := hres name (by simp [h])
      rw [hfresh] at this
      simp at this
    rw [encode_snoc_other labels name ip hfresh st hst,
      ih (fun l hl => hres l (List.mem_append_right _ hl))]

theorem pendingFixups_nil_iff (labels : List (String × Nat)) (stmts : List Statement) :
    ∀ base, pendingFixups labels base stmts = [] ↔
      ∀ l ∈ referencedLabels stmts, (labels.lookup l).isSome = true := by
  induction stmts with
  | nil => intro base; simp [pendingFixups, referencedLabels]
  | cons st rest ih =>
    intro base
    rw [referencedLabels_cons]
    simp only [pendingFixups, List.append_eq_nil, ih, List.mem_append]
    constructor
    · rintro ⟨h1, h2⟩ l (hl | hl)
      · unfold pendingOf at h1
        cases ht : st.target with
        | none => rw [ht] at hl; simp at hl
        | some l' =>
          rw [ht] at hl h1
          simp only [Option.toList, List.mem_singleton] at hl
          subst hl
          simp only at h1
          by_contra hc
          rw [if_neg hc] at h1
          simp at h1
      · exact h2 l hl
    · intro h
      refine ⟨?_, fun l hl => h l (Or.inr hl)⟩
      unfold pendingOf
      cases ht : st.target with
      | none => rfl
      | some l' =>
        have := h l' (Or.inl (by simp [ht]))
        simp [this]

theorem inv_defineLabel (row : Nat) (s : RasmTranslator) (name : String)
    (f p : List Statement) (hinv : Inv s f p) (hfresh : s.labels_.lookup name = none) :
    Inv (defineLabel row s name) f p ∧
      (defineLabel row s name).labels_ = s.labels_ ++ [(name, s.curr_ip_)] ∧
      (defineLabel row s name).lexer_ = s.lexer_ ∧
      (defineLabel row s name).eofRow_ = s.eofRow_ ∧
      (defineLabel row s name).curr_ip_ = s.curr_ip_ := by
  have hdef : defineLabel row s name =
      try_resolve_label_ { s with labels_ := s.labels_ ++ [(name, s.curr_ip_)] } name
        s.curr_ip_ := by
    unfold defineLabel
    simp [hfresh, insertLabel]
  rw [hdef]
  refine ⟨⟨?_, ?_, ?_, ?_, ?_, ?_, ?_⟩, rfl, rfl, rfl, rfl⟩
  · simp only [try_resolve_fout, try_resolve_labels]
    rw [assemble_snoc_resolved _ _ _ hfresh _ hinv.resolved]
    exact hinv.fout_eq
  · intro l hl
    simp only [try_resolve_labels]
    rw [lookup_snoc _ _ _ hfresh]
    split_ifs
    · rfl
    · exact hinv.resolved l hl
  · simp only [try_resolve_byte_code_buffer, try_resolve_labels]
    rw [hinv.unresolved_eq, hinv.buffer_eq]
    have := backpatch s.labels_ name s.curr_ip_ hfresh p []
    simpa using this
  · simp only [try_resolve_unresolved_labels, try_resolve_labels]
    rw [hinv.unresolved_eq, pendingFixups_snoc _ _ _ hfresh]
  · exact hinv.ip_eq
  · exact hinv.no_errors
  · exact hinv.errors_nil

theorem inv_applyStatement (s : RasmTranslator) (st : Statement) (f p : List Statement)
    (hinv : Inv s f p) :
    Inv (applyStatement s st) f (p ++ [st]) ∧ (applyStatement s st).labels_ = s.labels_ ∧
      (applyStatement s st).lexer_ = s.lexer_ ∧ (applyStatement s st).eofRow_ = s.eofRow_ := by
  refine ⟨⟨?_, ?_, ?_, ?_, ?_, ?_, ?_⟩, rfl, rfl, rfl⟩
  · exact hinv.fout_eq
  · exact hinv.resolved
  · show s.byte_code_buffer_ ++ st.encode s.labels_ = assemble s.labels_ (p ++ [st])
    rw [assemble_append, hinv.buffer_eq]
    simp [assemble]
  · show s.unresolved_labels_ ++ pendingOf s.labels_ s.byte_code_buffer_.length st =
      pendingFixups s.labels_ 0 (p ++ [st])
    rw [pendingFixups_append, hinv.unresolved_eq, hinv.buffer_eq, assemble_length]
    simp [pendingFixups]
  · show (s.curr_ip_ + st.length) % 2 ^ 64 = totalLength (f ++ (p ++ [st])) % 2 ^ 64
    rw [hinv.ip_eq, ← List.append_assoc, totalLength_append (f ++ p)]
    simp [totalLength, Nat.add_mod]
  · exact hinv.no_errors
  · exact hinv.errors_nil

theorem inv_flush (s : RasmTranslator) (f p : List Statement) (hinv : Inv s f p) :
    (flush s).labels_ = s.labels_ ∧ (flush s).lexer_ = s.lexer_ ∧
      (flush s).eofRow_ = s.eofRow_ ∧
      ∃ f' p', f' ++ p' = f ++ p ∧ Inv (flush s) f' p' ∧
        ((∀ l ∈ referencedLabels p, (s.labels_.lookup l).isSome = true) → p' = []) := by
  unfold flush
  by_cases hu : s.unresolved_labels_.isEmpty = true
  · rw [if_pos hu]
    have hnil : pendingFixups s.labels_ 0 p = [] := by
      rw [← hinv.unresolved_eq]; simpa using hu
    have hres := (pendingFixups_nil_iff s.labels_ p 0).mp hnil
    have hw : write_ s = { s with fout := s.fout ++ s.byte_code_buffer_, byte_code_buffer_ := [] } := by
      unfold write_
      simp [hinv.no_errors]
    rw [hw]
    refine ⟨rfl, rfl, rfl, f ++ p, [], by simp, ⟨?_, ?_, ?_, ?_, ?_, ?_, ?_⟩, fun _ => rfl⟩
    · show s.fout ++ s.byte_code_buffer_ = assemble s.labels_ (f ++ p)
      rw [assemble_append, hinv.fout_eq, hinv.buffer_eq]
    · intro l hl
      rw [referencedLabels_append, List.mem_append] at hl
      rcases hl with hl | hl
      · exact hinv.resolved l hl
      · exact hres l hl
    · rfl
    · show s.unresolved_labels_ = pendingFixups s.labels_ 0 []
      rw [hinv.unresolved_eq, hnil]; rfl
    · show s.curr_ip_ = _
      rw [hinv.ip_eq]; simp
    · exact hinv.no_errors
    · exact hinv.errors_nil
  · rw [if_neg hu]
    refine ⟨rfl, rfl, rfl, f, p, rfl, hinv, fun hres => ?_⟩
    exfalso
    apply hu
    rw [hinv.unresolved_eq, (pendingFixups_nil_iff s.labels_ p 0).mpr hres]
    rfl

end Rasm

namespace Rasm

theorem lookup_none_of_not_mem (labels : List (String × Nat)) (name : String)
    (h : name ∉ labels.map Prod.fst) : labels.lookup name = none := by
  rw [List.lookup_eq_none_iff]
  intro p hp
  simp only [bne_iff_ne, ne_eq]
  intro e
  exact h (List.mem_map.mpr ⟨p, hp, e.symm⟩)

theorem lookup_isSome_of_mem (labels : List (String × Nat)) (name : String)
    (h : name ∈ labels.map Prod.fst) : (labels.lookup name).isSome = true := by
  rw [List.lookup_isSome_iff]
  obtain ⟨p, hp, e⟩ := List.mem_map.mp h
  exact ⟨p, hp, by simp [e]⟩

theorem inv_lexer (s : RasmTranslator) (f p : List Statement) (toks : List token_t)
    (h : Inv s f p) : Inv { s with lexer_ := toks } f p :=
  ⟨h.fout_eq, h.resolved, h.buffer_eq, h.unresolved_eq, h.ip_eq, h.no_errors, h.errors_nil⟩

theorem inv_labels (row : Nat) (names : List String) : ∀ (s : RasmTranslator)
    (f p : List Statement), Inv s f p → (s.labels_.map Prod.fst ++ names).Nodup →
    Inv (names.foldl (defineLabel row) s) f p ∧
      (names.foldl (defineLabel row) s).labels_ =
        s.labels_ ++ names.map (fun n => (n, s.curr_ip_)) ∧
      (names.foldl (defineLabel row) s).lexer_ = s.lexer_ ∧
      (names.foldl (defineLabel row) s).eofRow_ = s.eofRow_ ∧
      (names.foldl (defineLabel row) s).curr_ip_ = s.curr_ip_ := by
  induction names with
  | nil => intro s f p h _; simp [h]
  | cons name names ih =>
    intro s f p h hnd
    have hfresh : s.labels_.lookup name = none := by
      apply lookup_none_of_not_mem
      intro hm
      have := List.nodup_append.mp hnd
      exact this.2.2 hm (List.mem_cons_self _ _)
    obtain ⟨h1, h2, h3, h4, h5⟩ := inv_defineLabel row s name f p h hfresh
    have hnd' : ((defineLabel row s name).labels_.map Prod.fst ++ names).Nodup := by
      rw [h2]
      simpa using hnd
    obtain ⟨g1, g2, g3, g4, g5⟩ := ih (defineLabel row s name) f p h1 hnd'
    simp only [List.foldl_cons]
    refine ⟨g1, ?_, g3.trans h3, g4.trans h4, g5.trans h5⟩
    rw [g2, h2, h5]
    simp

theorem inv_line (row : Nat) (last : Bool) (s : RasmTranslator) (l : Line)
    (f p : List Statement) (h : Inv s f p) (hnd : (s.labels_.map Prod.fst ++ l.labels).Nodup) :
    (lineEffect row last s l).labels_ = s.labels_ ++ l.labels.map (fun n => (n, s.curr_ip_)) ∧
      (lineEffect row last s l).lexer_ = s.lexer_ ∧
      (lineEffect row last s l).eofRow_ = s.eofRow_ ∧
      ∃ f' p', f' ++ p' = f ++ p ++ l.statement.toList ∧ Inv (lineEffect row last s l) f' p' ∧
        (last = true →
          (∀ x ∈ referencedLabels (p ++ l.statement.toList),
            ((lineEffect row last s l).labels_.lookup x).isSome = true) → p' = []) := by
  obtain ⟨g1, g2, g3, g4, g5⟩ := inv_labels row l.labels s f p h hnd
  unfold lineEffect
  cases hs : l.statement with
  | some st =>
    simp only []
    obtain ⟨a1, a2, a3, a4⟩ := inv_applyStatement _ st f p g1
    obtain ⟨b1, b2, b3, f', p', e, hinv, hp⟩ := inv_flush _ f (p ++ [st]) a1
    refine ⟨by rw [b1, a2, g2], by rw [b2, a3, g3], by rw [b3, a4, g4], f', p',
      by simpa using e, hinv, fun _ hres => hp ?_⟩
    intro x hx
    have := hres x (by simpa using hx)
    rwa [b1] at this
  | none =>
    cases last with
    | false =>
      simp only [Bool.false_eq_true, if_false]
      exact ⟨g2, g3, g4, f, p, by simp, g1, fun h => by cases h⟩
    | true =>
      simp only [if_true]
      obtain ⟨b1, b2, b3, f', p', e, hinv, hp⟩ := inv_flush _ f p g1
      refine ⟨by rw [b1, g2], by rw [b2, g3], by rw [b3, g4], f', p', by simpa using e, hinv,
        fun _ hres => hp ?_⟩
      intro x hx
      have := hres x (by simpa using hx)
      rwa [b1] at this

theorem translateLoop_mono (n : Nat) : ∀ (s r : RasmTranslator),
    translateLoop n s = some r → ∀ k, translateLoop (n + k) s = some r := by
  induction n with
  | zero => intro s r h; simp [translateLoop] at h
  | succ n ih =>
    intro s r h k
    have e : n + 1 + k = (n + k) + 1 := by omega
    rw [e]
    unfold translateLoop at h ⊢
    cases hr : translateRound s with
    | none => rw [hr] at h; simp at h
    | some v =>
      obtain ⟨s', done⟩ := v
      rw [hr] at h
      cases done with
      | true => exact h
      | false => exact ih s' r h k

theorem labelOffsets_keys (lines : List Line) : ∀ start,
    (tableOf (labelOffsets start lines)).map Prod.fst = definedLabels lines := by
  induction lines with
  | nil => intro start; rfl
  | cons l ls ih =>
    intro start
    have := ih (start + totalLength l.statement.toList)
    simp only [tableOf, List.map_map] at this
    simp [labelOffsets, definedLabels, tableOf, List.map_append, List.map_map, Function.comp_def]
    simpa [definedLabels, Function.comp_def] using this

theorem linesTokens_length (lines : List Line) : ∀ row,
    lines.length ≤ (linesTokens row lines).length := by
  induction lines with
  | nil => intro row; simp
  | cons l ls ih =>
    intro row
    have := ih (row + 1)
    simp only [linesTokens, List.length_append, List.length_cons]
    omega

end Rasm

namespace Rasm

theorem statementsOf_cons (l : Line) (ls : List Line) :
    statementsOf (l :: ls) = l.statement.toList ++ statementsOf ls := by
  simp [statementsOf]

theorem definedLabels_cons (l : Line) (ls : List Line) :
    definedLabels (l :: ls) = l.labels ++ definedLabels ls := by
  simp [definedLabels]

theorem tableOf_append (a b : List (String × Nat)) : tableOf (a ++ b) = tableOf a ++ tableOf b := by
  simp [tableOf]

theorem tableOf_labels (names : List String) (start : Nat) :
    tableOf (names.map (fun n => (n, start))) = names.map (fun n => (n, start % 2 ^ 64)) := by
  simp [tableOf, Function.comp_def]

theorem labelOffsets_snoc (last : Line) (ls : List Line) : ∀ (start : Nat),
    labelOffsets start (ls ++ [last]) =
      labelOffsets start ls ++
        last.labels.map (fun n => (n, start + totalLength (statementsOf ls))) := by
  induction ls with
  | nil => intro start; simp [labelOffsets, statementsOf, totalLength]
  | cons x xs ihx =>
    intro start
    show x.labels.map (fun name => (name, start)) ++
      labelOffsets (start + totalLength x.statement.toList) (xs ++ [last]) = _
    rw [ihx, statementsOf_cons, totalLength_append]
    simp [labelOffsets, Nat.add_assoc]

/-- The rounds of the `translate` loop on lines ended by a line feed whose label definitions are
all new: no diagnostic is logged, and the translator is left with the bytes of the
statements, the labels of the lines and the rest of the token stream. -/
theorem run_lines (lines : List Line) : ∀ (row : Nat) (s : RasmTranslator)
    (f p : List Statement) (rest : List token_t),
    Inv s f p → (s.labels_.map Prod.fst ++ definedLabels lines).Nodup →
    s.lexer_ = linesTokens row lines ++ rest →
    ∃ s' f' p', (∀ fuel, translateLoop (fuel + lines.length) s = translateLoop fuel s') ∧
      Inv s' f' p' ∧ f' ++ p' = f ++ p ++ statementsOf lines ∧
      s'.labels_ = s.labels_ ++ tableOf (labelOffsets (totalLength (f ++ p)) lines) ∧
      s'.lexer_ = rest ∧ s'.eofRow_ = s.eofRow_ := by
  induction lines with
  | nil =>
    intro row s f p rest h _ hl
    exact ⟨s, f, p, fun _ => rfl, h, by simp [statementsOf], by simp [labelOffsets, tableOf],
      by simpa [linesTokens] using hl, rfl⟩
  | cons l ls ih =>
    intro row s f p rest h hnd hl
    rw [definedLabels_cons, ← List.append_assoc] at hnd
    have hnd1 : (s.labels_.map Prod.fst ++ l.labels).Nodup := (List.nodup_append.mp hnd).1
    have hl' : s.lexer_ = l.tokens row ++ .Eol (row + 1) :: (linesTokens (row + 1) ls ++ rest) := by
      rw [hl]; simp [linesTokens]
    have hround := translateRound_line s l row (row + 1) _ hl'
    obtain ⟨a1, a2, a3, f1, p1, e1, hinv1, _⟩ :=
      inv_line row false { s with lexer_ := linesTokens (row + 1) ls ++ rest } l f p
        (inv_lexer s f p _ h) hnd1
    have hnd2 : ((lineEffect row false { s with lexer_ := linesTokens (row + 1) ls ++ rest }
        l).labels_.map Prod.fst ++ definedLabels ls).Nodup := by
      rw [a1]
      simpa [Function.comp_def] using hnd
    obtain ⟨s', f', p', b1, b2, b3, b4, b5, b6⟩ := ih (row + 1) _ f1 p1 rest hinv1 hnd2 a2
    refine ⟨s', f', p', fun fuel => ?_, b2, ?_, ?_, b5, b6.trans a3⟩
    · have e : fuel + (l :: ls).length = (fuel + ls.length) + 1 := by simp; omega
      rw [e, translateLoop, hround]
      exact b1 fuel
    · rw [b3, e1, statementsOf_cons]
      simp
    · rw [b4, a1, e1, labelOffsets, tableOf_append, tableOf_labels]
      have hip : s.curr_ip_ = totalLength (f ++ p) % 2 ^ 64 := h.ip_eq
      simp only [List.append_assoc, totalLength_append]
      rw [show ({ s with lexer_ := linesTokens (row + 1) ls ++ rest } : RasmTranslator).curr_ip_
        = s.curr_ip_ from rfl, hip]
      simp [totalLength_append, Nat.add_assoc]

/-- The translation of a program whose label definitions are all different: `translate` returns
without a diagnostic; the statements whose bytes are written and those left in the
buffer make up the program, the label table holds the offset of every definition, and
nothing is left in the buffer when every referenced label is defined. -/
theorem translate_good (P : Program) (hnd : (definedLabels P.allLines).Nodup) :
    ∃ r f p, translate P.tokens P.eofRow = some r ∧ Inv r f p ∧
      f ++ p = statementsOf P.allLines ∧
      r.labels_ = tableOf (labelOffsets 0 P.allLines) ∧
      ((∀ x ∈ referencedLabels (statementsOf P.allLines), x ∈ definedLabels P.allLines) →
        p = []) := by
  have hinv0 : Inv { lexer_ := P.tokens, eofRow_ := P.eofRow } [] [] :=
    ⟨rfl, by simp [referencedLabels], rfl, rfl, rfl, rfl, rfl⟩
  have hnd' : (definedLabels P.lines ++ P.last.labels).Nodup := by
    simpa [Program.allLines, definedLabels] using hnd
  obtain ⟨s1, f1, p1, b1, b2, b3, b4, b5, b6⟩ := run_lines P.lines 1
    { lexer_ := P.tokens, eofRow_ := P.eofRow } [] [] (P.last.tokens (P.lines.length + 1)) hinv0
    (by simpa using (List.nodup_append.mp hnd').1) rfl
  have hround := translateRound_last s1 P.last (P.lines.length + 1) b5
  have hnd1 : (s1.labels_.map Prod.fst ++ P.last.labels).Nodup := by
    rw [b4]
    simpa [labelOffsets_keys] using hnd'
  obtain ⟨a1, a2, a3, f2, p2, e2, hinv2, hlast⟩ :=
    inv_line (P.lines.length + 1) true { s1 with lexer_ := [] } P.last f1 p1
      (inv_lexer s1 f1 p1 _ b2) hnd1
  have hloop : translateLoop (0 + 1) s1 =
      some (lineEffect (P.lines.length + 1) true { s1 with lexer_ := [] } P.last) := by
    rw [translateLoop, hround]
  have hrun := b1 (0 + 1)
  rw [hloop] at hrun
  have hlen := linesTokens_length P.lines 1
  have hfuel : P.tokens.length + 1 = (0 + 1 + P.lines.length) + (P.tokens.length - P.lines.length) := by
    have : P.lines.length ≤ P.tokens.length := by
      simp only [Program.tokens, List.length_append]
      omega
    omega
  have hall : statementsOf P.allLines = statementsOf P.lines ++ P.last.statement.toList := by
    simp [Program.allLines, statementsOf]
  have htable : (lineEffect (P.lines.length + 1) true { s1 with lexer_ := [] } P.last).labels_ =
      tableOf (labelOffsets 0 P.allLines) := by
    rw [a1, b4]
    have hip : s1.curr_ip_ = totalLength (f1 ++ p1) % 2 ^ 64 := b2.ip_eq
    rw [Program.allLines, labelOffsets_snoc, tableOf_append, tableOf_labels]
    simp only [List.nil_append, totalLength, List.map_nil, List.sum_nil, Nat.zero_add]
    rw [show ({ s1 with lexer_ := [] } : RasmTranslator).curr_ip_ = s1.curr_ip_ from rfl, hip, b3]
    simp [totalLength]
  refine ⟨_, f2, p2, ?_, hinv2, ?_, htable, fun hrefs => hlast rfl ?_⟩
  · unfold translate
    rw [hfuel]
    exact translateLoop_mono _ _ _ hrun _
  · rw [e2, b3, hall]
    simp
  · intro x hx
    rw [htable]
    apply lookup_isSome_of_mem
    rw [labelOffsets_keys]
    apply hrefs
    have b3' : statementsOf P.lines = f1 ++ p1 := by simpa using b3.symm
    rw [hall, b3', List.append_assoc, referencedLabels_append]
    exact List.mem_append_right _ hx

end Rasm

namespace Rasm

theorem be8_mod (x : Nat) : be8 (x % 2 ^ 64) = be8 x := by
  rw [be8_eq, be8_eq]
  simp only [List.cons.injEq, and_true]
  norm_num
  refine ⟨?_, ?_, ?_, ?_, ?_, ?_, ?_⟩ <;> omega

theorem lookup_tableOf (t : List (String × Nat)) (k : String) :
    (tableOf t).lookup k = (t.lookup k).map (fun v => v % 2 ^ 64) := by
  induction t with
  | nil => rfl
  | cons kv rest ih =>
    obtain ⟨k', v⟩ := kv
    simp only [tableOf, List.map_cons, List.lookup_cons] at ih ⊢
    cases hk : k == k' with
    | true => simp
    | false => simpa [tableOf] using ih

theorem exists_first_dup (xs : List String) (h : ¬ xs.Nodup) :
    ∃ a name b, xs = a ++ name :: b ∧ a.Nodup ∧ name ∈ a := by
  induction xs using List.reverseRecOn with
  | nil => exact absurd List.nodup_nil h
  | append_singleton xs x ih =>
    by_cases hx : xs.Nodup
    · have hmem : x ∈ xs := by
        by_contra hc
        apply h
        rw [List.nodup_append]
        exact ⟨hx, List.nodup_singleton x, by
          intro y hy hy'
          simp only [List.mem_singleton] at hy'
          subst hy'
          exact hc hy⟩
      exact ⟨xs, x, [], rfl, hx, hmem⟩
    · obtain ⟨a, name, b, e, ha, hm⟩ := ih hx
      exact ⟨a, name, b ++ [x], by rw [e]; simp, ha, hm⟩

theorem split_definedLabels (lines : List Line) : ∀ (a : List String) (name : String)
    (b : List String), definedLabels lines = a ++ name :: b →
    ∃ pre l post a' b', lines = pre ++ l :: post ∧ l.labels = a' ++ name :: b' ∧
      a = definedLabels pre ++ a' := by
  induction lines with
  | nil => intro a name b h; simp [definedLabels] at h
  | cons l ls ih =>
    intro a name b h
    rw [definedLabels_cons] at h
    rcases List.append_eq_append_iff.mp h with ⟨c, hc1, hc2⟩ | ⟨c, hc1, hc2⟩
    · -- a = l.labels ++ c, definedLabels ls = c ++ name :: b
      obtain ⟨pre, l', post, a', b', e1, e2, e3⟩ := ih c name b hc2
      refine ⟨l :: pre, l', post, a', b', by rw [e1]; rfl, e2, ?_⟩
      rw [hc1, e3, definedLabels_cons, List.append_assoc]
    · -- l.labels = a ++ c, name :: b = c ++ definedLabels ls
      cases c with
      | nil =>
        simp only [List.nil_append] at hc2
        simp only [List.append_nil] at hc1
        obtain ⟨pre, l', post, a', b', e1, e2, e3⟩ := ih [] name b (by simpa using hc2.symm)
        refine ⟨l :: pre, l', post, a', b', by rw [e1]; rfl, e2, ?_⟩
        have : definedLabels pre = [] ∧ a' = [] := by
          have := e3.symm
          simpa using this
        rw [definedLabels_cons, this.1, this.2, hc1]
        simp
      | cons c0 cs =>
        simp only [List.cons_append, List.cons.injEq] at hc2
        obtain ⟨rfl, _⟩ := hc2
        exact ⟨[], l, ls, a, cs, rfl, hc1, by simp [definedLabels]⟩

theorem linesTokens_append (a b : List Line) : ∀ row,
    linesTokens row (a ++ b) = linesTokens row a ++ linesTokens (row + a.length) b := by
  induction a with
  | nil => intro row; simp [linesTokens]
  | cons l ls ih =>
    intro row
    show l.tokens row ++ token_t.Eol (row + 1) :: linesTokens (row + 1) (ls ++ b) = _
    rw [ih, show row + 1 + ls.length = row + (l :: ls).length by
      simp only [List.length_cons]; omega]
    simp [linesTokens]

theorem labelOffsets_append (a b : List Line) : ∀ start,
    labelOffsets start (a ++ b) =
      labelOffsets start a ++ labelOffsets (start + totalLength (statementsOf a)) b := by
  induction a with
  | nil => intro start; simp [labelOffsets, statementsOf, totalLength]
  | cons x xs ih =>
    intro start
    show x.labels.map (fun name => (name, start)) ++
      labelOffsets (start + totalLength x.statement.toList) (xs ++ b) = _
    rw [ih, statementsOf_cons, totalLength_append]
    simp [labelOffsets, Nat.add_assoc]

theorem ext_defineLabel (row : Nat) (s : RasmTranslator) (name : String) :
    Ext s (defineLabel row s name) := by
  unfold defineLabel
  simp only []
  refine ext_via (ext_try_resolve _ _ _) ?_
  refine ext_via (ext_insertLabel _ _ _) ?_
  split_ifs
  · exact ext_log_error _ _
  · exact Ext.refl _

theorem ext_defineLabels (row : Nat) (names : List String) : ∀ (s : RasmTranslator),
    Ext s (names.foldl (defineLabel row) s) := by
  induction names with
  | nil => intro s; exact Ext.refl _
  | cons n ns ih => intro s; exact (ext_defineLabel row s n).trans (ih _)

theorem ext_applyStatement (s : RasmTranslator) (st : Statement) : Ext s (applyStatement s st) :=
  ext_of_eq rfl rfl rfl rfl rfl rfl

theorem grows_lineEffect_from (row : Nat) (last : Bool) (s : RasmTranslator) (names : List String)
    (stmt : Option Statement) :
    Grows s (lineEffect row last s ⟨names, stmt⟩) := by
  unfold lineEffect
  cases stmt with
  | some st =>
    exact ((ext_defineLabels row names s).trans (ext_applyStatement _ st)).grows.comp
      (grows_flush _)
  | none =>
    cases last with
    | false => exact (ext_defineLabels row names s).grows
    | true => exact (ext_defineLabels row names s).grows.comp (grows_flush _)

end Rasm

namespace Rasm

theorem defineLabel_dup (row : Nat) (s : RasmTranslator) (name : String) (v : Nat)
    (hv : s.labels_.lookup name = some v) (he : s.errors_ = []) :
    (defineLabel row s name).has_errors_ = true ∧
      (defineLabel row s name).errors_ =
        [atRow row ++ " label \'" ++ name ++ "\' was redefined"] ∧
      (defineLabel row s name).labels_.lookup name = some v := by
  have hsome : (s.labels_.lookup name).isSome = true := by rw [hv]; rfl
  unfold defineLabel
  simp only [hsome, if_true]
  refine ⟨rfl, ?_, ?_⟩
  · show s.errors_ ++ _ = _
    rw [he]
    rfl
  · show (insertLabel s.labels_ name _).lookup name = some v
    exact lookup_insertLabel _ _ _ _ _ hv

theorem dup_line (row : Nat) (last : Bool) (s : RasmTranslator) (l : Line) (a b : List String)
    (name : String) (f p : List Statement) (h : Inv s f p) (hl : l.labels = a ++ name :: b)
    (hnd : (s.labels_.map Prod.fst ++ a).Nodup) (hmem : name ∈ s.labels_.map Prod.fst ++ a) :
    ∃ v, (s.labels_ ++ a.map (fun n => (n, s.curr_ip_))).lookup name = some v ∧
      (lineEffect row last s l).has_errors_ = true ∧
      (atRow row ++ " label \'" ++ name ++ "\' was redefined") ∈ (lineEffect row last s l).errors_ ∧
      (lineEffect row last s l).labels_.lookup name = some v := by
  obtain ⟨i1, i2, _, _, _⟩ := inv_labels row a s f p h hnd
  have hsome : ((a.foldl (defineLabel row) s).labels_.lookup name).isSome = true := by
    apply lookup_isSome_of_mem
    rw [i2]
    simpa [Function.comp_def] using hmem
  obtain ⟨v, hv⟩ := Option.isSome_iff_exists.mp hsome
  have hsplit : lineEffect row last s l =
      lineEffect row last (defineLabel row (a.foldl (defineLabel row) s) name)
        ⟨b, l.statement⟩ := by
    unfold lineEffect
    simp only [hl, List.foldl_append, List.foldl_cons]
  have hg := grows_lineEffect_from row last (defineLabel row (a.foldl (defineLabel row) s) name)
    b l.statement
  rw [← hsplit] at hg
  have hmid := defineLabel_dup row (a.foldl (defineLabel row) s) name v hv i1.errors_nil
  refine ⟨v, ?_, hg.has_errors hmid.1, ?_, hg.labels _ _ hmid.2.2⟩
  · rw [← i2]; exact hv
  · apply hg.errors.subset
    rw [hmid.2.1]
    exact List.mem_singleton_self _

theorem translateLoop_unique (n m : Nat) (s r r' : RasmTranslator)
    (h : translateLoop n s = some r) (h' : translateLoop m s = some r') : r = r' := by
  have e1 := translateLoop_mono n s r h m
  have e2 := translateLoop_mono m s r' h' n
  rw [Nat.add_comm] at e2
  rw [e1] at e2
  exact Option.some.inj e2

theorem allLines_split (P : Program) (pre post : List Line) (l : Line)
    (hall : P.allLines = pre ++ l :: post) :
    (post = [] ∧ P.lines = pre ∧ P.last = l) ∨
      ∃ post', P.lines = pre ++ l :: post' ∧ post = post' ++ [P.last] := by
  unfold Program.allLines at hall
  rcases List.eq_nil_or_concat post with rfl | ⟨post', x, rfl⟩
  · left
    have := List.append_inj' hall rfl
    exact ⟨rfl, this.1, by simpa using this.2⟩
  · right
    have h2 : P.lines ++ [P.last] = (pre ++ l :: post') ++ [x] := by
      rw [hall]; simp
    have := List.append_inj' h2 rfl
    exact ⟨post', this.1, by simp at this; rw [this.2]; simp⟩

end Rasm

namespace Rasm

/-- The translation of a program up to and after the first label definition that repeats an
earlier one: the rounds before it log nothing, the round of the line logs the
redefinition, and the binding made by the first definition stays in the table. -/
theorem translate_dup (P : Program) (pre post : List Line) (l : Line) (a b : List String)
    (name : String) (hall : P.allLines = pre ++ l :: post) (hl : l.labels = a ++ name :: b)
    (hnd : (definedLabels pre ++ a).Nodup) (hmem : name ∈ definedLabels pre ++ a) :
    ∃ r off, translate P.tokens P.eofRow = some r ∧ r.has_errors_ = true ∧
      (atRow (pre.length + 1) ++ " label \'" ++ name ++ "\' was redefined") ∈ r.errors_ ∧
      P.labelOffset name = some off ∧ r.labels_.lookup name = some (off % 2 ^ 64) := by
  have hinv0 : Inv { lexer_ := P.tokens, eofRow_ := P.eofRow } [] [] :=
    ⟨rfl, by simp [referencedLabels], rfl, rfl, rfl, rfl, rfl⟩
  -- the token stream: the lines before, the line, the rest
  have htoks : ∃ tail, P.tokens = linesTokens 1 pre ++ (l.tokens (pre.length + 1) ++ tail) ∧
      (tail = [] ∨ ∃ r rest, tail = .Eol r :: rest) := by
    rcases allLines_split P pre post l hall with ⟨_, e1, e2⟩ | ⟨post', e1, _⟩
    · exact ⟨[], by simp [Program.tokens, e1, e2], Or.inl rfl⟩
    · refine ⟨.Eol (pre.length + 1 + 1) :: (linesTokens (pre.length + 1 + 1) post' ++
        P.last.tokens (P.lines.length + 1)), ?_, Or.inr ⟨_, _, rfl⟩⟩
      rw [Program.tokens, e1, linesTokens_append, Nat.add_comm 1 pre.length]
      simp [linesTokens]
  obtain ⟨tail, htok, htail⟩ := htoks
  obtain ⟨s1, f1, p1, b1, b2, b3, b4, b5, _⟩ := run_lines pre 1
    { lexer_ := P.tokens, eofRow_ := P.eofRow } [] [] (l.tokens (pre.length + 1) ++ tail) hinv0
    (by simpa using (List.nodup_append.mp hnd).1) htok
  have b3' : f1 ++ p1 = statementsOf pre := by simpa using b3
  have b4' : s1.labels_ = tableOf (labelOffsets 0 pre) := by simpa [totalLength] using b4
  -- the round of the line
  have hline : ∀ (last : Bool) (rest : List token_t),
      ∃ v, (s1.labels_ ++ a.map (fun n => (n, s1.curr_ip_))).lookup name = some v ∧
        (lineEffect (pre.length + 1) last { s1 with lexer_ := rest } l).has_errors_ = true ∧
        (atRow (pre.length + 1) ++ " label \'" ++ name ++ "\' was redefined") ∈
          (lineEffect (pre.length + 1) last { s1 with lexer_ := rest } l).errors_ ∧
        (lineEffect (pre.length + 1) last { s1 with lexer_ := rest } l).labels_.lookup name
          = some v := by
    intro last rest
    apply dup_line (pre.length + 1) last { s1 with lexer_ := rest } l a b name f1 p1
      (inv_lexer s1 f1 p1 _ b2) hl
    · show (s1.labels_.map Prod.fst ++ a).Nodup
      rw [b4', labelOffsets_keys]
      exact hnd
    · show name ∈ s1.labels_.map Prod.fst ++ a
      rw [b4', labelOffsets_keys]
      exact hmem
  -- the rest of the translation
  have hrun : ∃ n r v, translateLoop n s1 = some r ∧
      (s1.labels_ ++ a.map (fun n => (n, s1.curr_ip_))).lookup name = some v ∧
      r.has_errors_ = true ∧
      (atRow (pre.length + 1) ++ " label \'" ++ name ++ "\' was redefined") ∈ r.errors_ ∧
      r.labels_.lookup name = some v := by
    rcases htail with rfl | ⟨r0, rest, rfl⟩
    · have hround := translateRound_last s1 l (pre.length + 1) (by simpa using b5)
      obtain ⟨v, c1, c2, c3, c4⟩ := hline true []
      exact ⟨0 + 1, _, v, by rw [translateLoop, hround], c1, c2, c3, c4⟩
    · have hround := translateRound_line s1 l (pre.length + 1) r0 rest b5
      obtain ⟨v, c1, c2, c3, c4⟩ := hline false rest
      obtain ⟨r, e, g⟩ := translateLoop_grows
        ((lineEffect (pre.length + 1) false { s1 with lexer_ := rest } l).lexer_.length + 1) _
        (Nat.lt_succ_self _)
      exact ⟨_ + 1, r, v, by rw [translateLoop, hround]; exact e, c1, g.has_errors c2,
        g.errors.subset c3, g.labels _ _ c4⟩
  obtain ⟨n, r, v, d1, d2, d3, d4, d5⟩ := hrun
  have hfull : translateLoop (n + pre.length) { lexer_ := P.tokens, eofRow_ := P.eofRow }
      = some r := by rw [b1 n]; exact d1
  obtain ⟨r', hr'⟩ := translate_returns P.tokens P.eofRow
  have e := translateLoop_unique _ _ _ _ _ hfull hr'
  subst e
  -- the offset of the first definition
  have hip : s1.curr_ip_ = totalLength (statementsOf pre) % 2 ^ 64 := by
    rw [b2.ip_eq, b3']
  have htab : s1.labels_ ++ a.map (fun n => (n, s1.curr_ip_)) =
      tableOf (labelOffsets 0 pre ++ a.map (fun n => (n, totalLength (statementsOf pre)))) := by
    rw [tableOf_append, tableOf_labels, b4', hip]
  rw [htab, lookup_tableOf] at d2
  cases hoff : (labelOffsets 0 pre ++
      a.map (fun n => (n, totalLength (statementsOf pre)))).lookup name with
  | none => rw [hoff] at d2; simp at d2
  | some off =>
    rw [hoff] at d2
    simp only [Option.map_some', Option.some.injEq] at d2
    refine ⟨r, off, hr', d3, d4, ?_, by rw [d5, d2]⟩
    unfold Program.labelOffset
    rw [hall, labelOffsets_append, labelOffsets, hl, List.map_append, List.append_assoc,
      ← List.append_assoc, List.lookup_append, Nat.zero_add, hoff]
    rfl

end Rasm

namespace Rasm

theorem translate_error_of_dup (P : Program) (h : ¬ (definedLabels P.allLines).Nodup) :
    ∃ r, translate P.tokens P.eofRow = some r ∧ r.has_errors_ = true := by
  obtain ⟨a0, name, b0, e0, hnd, hmem⟩ := exists_first_dup _ h
  obtain ⟨pre, l, post, a, b, e1, e2, e3⟩ := split_definedLabels _ a0 name b0 e0
  subst e3
  obtain ⟨r, _, hr, herr, _⟩ := translate_dup P pre post l a b name e1 e2 hnd hmem
  exact ⟨r, hr, herr⟩

theorem translate_nodup (P : Program) (r : RasmTranslator)
    (h : translate P.tokens P.eofRow = some r) (hok : r.has_errors_ = false) :
    (definedLabels P.allLines).Nodup := by
  by_contra hc
  obtain ⟨r', hr', herr⟩ := translate_error_of_dup P hc
  rw [h] at hr'
  cases hr'
  rw [hok] at herr
  cases herr

/-- The result of an error-free translation of a program that defines every label it
references: the output is the bytes of all statements under the final label table, which
binds every label to the offset of its definition. -/
theorem translate_output (P : Program) (r : RasmTranslator)
    (h : translate P.tokens P.eofRow = some r) (hnd : (definedLabels P.allLines).Nodup)
    (hrefs : ∀ x ∈ referencedLabels (statementsOf P.allLines), x ∈ definedLabels P.allLines) :
    r.has_errors_ = false ∧ r.errors_ = [] ∧
      r.fout = assemble r.labels_ (statementsOf P.allLines) ∧
      r.labels_ = tableOf (labelOffsets 0 P.allLines) := by
  obtain ⟨r', f, p, hr', hinv, hfp, htab, hp⟩ := translate_good P hnd
  rw [h] at hr'
  cases hr'
  have hp' := hp hrefs
  subst hp'
  rw [List.append_nil] at hfp
  subst hfp
  exact ⟨hinv.no_errors, hinv.errors_nil, hinv.fout_eq, htab⟩

theorem lookup_const_map (names : List String) (name : String) (c : Nat) (h : name ∈ names) :
    (names.map (fun n => (n, c))).lookup name = some c := by
  induction names with
  | nil => cases h
  | cons x xs ih =>
    simp only [List.map_cons, List.lookup_cons]
    cases hx : name == x with
    | true => rfl
    | false =>
      have hne : name ≠ x := by simpa using hx
      rcases List.mem_cons.mp h with e | e
      · exact absurd e hne
      · exact ih e

theorem labelOffsets_fst (lines : List Line) : ∀ start,
    (labelOffsets start lines).map Prod.fst = definedLabels lines := by
  intro start
  have := labelOffsets_keys lines start
  simpa [tableOf, Function.comp_def] using this

/-- The offset that `labelOffsets` gives a label is that of its first definition: the sum of
the lengths of the statements on the lines before the first line that defines it. -/
theorem labelOffsets_first (before after : List Line) (l0 : Line) (name : String) (start : Nat)
    (h1 : name ∉ definedLabels before) (h2 : name ∈ l0.labels) :
    (labelOffsets start (before ++ l0 :: after)).lookup name =
      some (start + totalLength (statementsOf before)) := by
  rw [labelOffsets_append, List.lookup_append,
    lookup_none_of_not_mem _ _ (by rw [labelOffsets_fst]; exact h1), labelOffsets,
    List.lookup_append, lookup_const_map _ _ _ h2]
  rfl

theorem target_bytes_at (tbl : List (String × Nat)) (pre post : List Statement) (st : Statement)
    (label : String) (d : Nat) (ht : st.target = some label) (hd : tbl.lookup label = some d) :
    ((assemble tbl (pre ++ st :: post)).drop (totalLength pre + st.targetAt)).take 8 = be8 d := by
  obtain ⟨hd0, hlen, henc⟩ := encode_target st label ht
  rw [assemble_append, assemble_cons, henc tbl]
  have e : assemble tbl pre ++ (hd0 ++ targetBytes tbl label ++ assemble tbl post) =
      (assemble tbl pre ++ hd0) ++ (targetBytes tbl label ++ assemble tbl post) := by
    simp
  rw [e, List.drop_left' (by rw [List.length_append, assemble_length, hlen]),
    List.take_left' (targetBytes_length _ _)]
  unfold targetBytes
  rw [hd]

end Rasm

namespace Rasm

theorem carries_refl (s : RasmTranslator) : Carries s s := id

theorem carries_trans {a b c : RasmTranslator} (h1 : Carries a b) (h2 : Carries b c) :
    Carries a c := fun h => h2 (h1 h)

theorem carries_via {a b c : RasmTranslator} (h2 : Carries b c) (h1 : Carries a b) :
    Carries a c := fun h => h2 (h1 h)

theorem carries_of_eq {s s' : RasmTranslator}
    (h1 : s'.byte_code_buffer_ = s.byte_code_buffer_)
    (h2 : s'.unresolved_labels_ = s.unresolved_labels_) : Carries s s' := by
  intro h
  refine ⟨?_, ?_, ?_⟩
  · rw [h1, h2]; exact h.inside
  · rw [h1, h2]; exact h.placeholder
  · rw [h2]; exact h.apart

theorem carries_log_error (s : RasmTranslator) (m : String) : Carries s (log_error_ s m) :=
  carries_of_eq rfl rfl

theorem carries_push_back (s : RasmTranslator) (bytes : List Nat) :
    Carries s (push_back s bytes) := by
  intro h
  refine ⟨?_, ?_, h.apart⟩
  · intro kv hkv
    have := h.inside kv hkv
    simp only [push_back_byte_code_buffer, List.length_append]
    omega
  · intro kv hkv j hj
    have := h.inside kv hkv
    simp only [push_back_byte_code_buffer]
    rw [List.getElem?_append_left (by omega)]
    exact h.placeholder kv hkv j hj

theorem carries_emit (s : RasmTranslator) (bytes : List Nat) (n : Nat) :
    Carries s (emit s bytes n) :=
  carries_trans (carries_push_back s bytes)
    (@carries_of_eq (push_back s bytes) (emit s bytes n) rfl rfl)

theorem carries_pending (s : RasmTranslator) (label : String) :
    Carries s (push_back
      { s with
        unresolved_labels_ := s.unresolved_labels_ ++ [(label, s.byte_code_buffer_.length)] }
      (List.replicate 8 0)) := by
  intro h
  refine ⟨?_, ?_, ?_⟩
  · intro kv hkv
    simp only [push_back_byte_code_buffer, List.length_append, List.length_replicate]
    simp only [push_back_unresolved_labels, List.mem_append, List.mem_singleton] at hkv
    rcases hkv with hkv | hkv
    · have := h.inside kv hkv
      omega
    · subst hkv
      exact Nat.le_refl _
  · intro kv hkv j hj
    simp only [push_back_byte_code_buffer]
    simp only [push_back_unresolved_labels, List.mem_append, List.mem_singleton] at hkv
    rcases hkv with hkv | hkv
    · have := h.inside kv hkv
      rw [List.getElem?_append_left (by omega)]
      exact h.placeholder kv hkv j hj
    · subst hkv
      rw [List.getElem?_append_right (by simp)]
      simp only [Nat.add_sub_cancel_left]
      interval_cases j <;> rfl
  · simp only [push_back_unresolved_labels]
    rw [List.pairwise_append]
    refine ⟨h.apart, List.pairwise_singleton _ _, ?_⟩
    intro a ha b hb
    simp only [List.mem_singleton] at hb
    subst hb
    exact h.inside a ha

theorem foldl_set_length (f : Nat → Nat) (pos : Nat) : ∀ (js : List Nat) (buf : List Nat),
    (js.foldl (fun b j => b.set (pos + j) (f j)) buf).length = buf.length := by
  intro js
  induction js with
  | nil => intro buf; rfl
  | cons j js ih => intro buf; rw [List.foldl_cons, ih, List.length_set]

theorem foldl_set_out (f : Nat → Nat) (pos i : Nat) : ∀ (js : List Nat) (buf : List Nat),
    (∀ j ∈ js, pos + j ≠ i) →
    (js.foldl (fun b j => b.set (pos + j) (f j)) buf)[i]? = buf[i]? := by
  intro js
  induction js with
  | nil => intro buf _; rfl
  | cons j js ih =>
    intro buf h
    rw [List.foldl_cons, ih _ (fun j' hj' => h j' (List.mem_cons_of_mem _ hj')),
      List.getElem?_set_ne (h j (List.mem_cons_self _ _))]

theorem patch_length (buf : List Nat) (pos ip : Nat) : (patch buf pos ip).length = buf.length :=
  foldl_set_length _ pos _ buf

theorem patch_out (buf : List Nat) (pos ip i : Nat) (h : i < pos ∨ pos + 8 ≤ i) :
    (patch buf pos ip)[i]? = buf[i]? := by
  apply foldl_set_out
  intro j hj
  have := List.mem_range.mp hj
  omega

theorem patches_length (ip : Nat) : ∀ (ps : List Nat) (buf : List Nat),
    (ps.foldl (fun b pos => patch b pos ip) buf).length = buf.length := by
  intro ps
  induction ps with
  | nil => intro buf; rfl
  | cons p ps ih => intro buf; rw [List.foldl_cons, ih, patch_length]

theorem patches_out (ip i : Nat) : ∀ (ps : List Nat) (buf : List Nat),
    (∀ p ∈ ps, i < p ∨ p + 8 ≤ i) →
    (ps.foldl (fun b pos => patch b pos ip) buf)[i]? = buf[i]? := by
  intro ps
  induction ps with
  | nil => intro buf _; rfl
  | cons p ps ih =>
    intro buf h
    rw [List.foldl_cons, ih _ (fun p' hp' => h p' (List.mem_cons_of_mem _ hp')),
      patch_out _ _ _ _ (h p (List.mem_cons_self _ _))]

/-- The method `try_resolve_label_` keeps the length of the buffer. -/
theorem try_resolve_length (s : RasmTranslator) (label : String) (ip : Nat) :
    (try_resolve_label_ s label ip).byte_code_buffer_.length = s.byte_code_buffer_.length :=
  patches_length ip _ _

/-- The method `try_resolve_label_` changes no byte outside the eight-byte ranges of the fixups
of its label. -/
theorem try_resolve_out (s : RasmTranslator) (label : String) (ip i : Nat)
    (h : ∀ kv ∈ s.unresolved_labels_, kv.1 = label → i < kv.2 ∨ kv.2 + 8 ≤ i) :
    (try_resolve_label_ s label ip).byte_code_buffer_[i]? = s.byte_code_buffer_[i]? := by
  apply patches_out
  intro p hp
  obtain ⟨kv, hkv, e⟩ := List.mem_map.mp hp
  rw [List.mem_filter] at hkv
  rw [← e]
  exact h kv hkv.1 (by simpa using hkv.2)

theorem pairwise_apart (l : List (String × Nat)) (h : l.Pairwise (fun a b => a.2 + 8 ≤ b.2))
    (a b : String × Nat) (ha : a ∈ l) (hb : b ∈ l) (hne : a ≠ b) :
    a.2 + 8 ≤ b.2 ∨ b.2 + 8 ≤ a.2 := by
  have h' : l.Pairwise (fun a b => a.2 + 8 ≤ b.2 ∨ b.2 + 8 ≤ a.2) :=
    h.imp (fun h => Or.inl h)
  exact h'.forall (fun x y hxy => hxy.symm) ha hb hne

theorem carries_try_resolve (s : RasmTranslator) (label : String) (ip : Nat) :
    Carries s (try_resolve_label_ s label ip) := by
  intro h
  have hmem : ∀ kv, kv ∈ (try_resolve_label_ s label ip).unresolved_labels_ →
      kv ∈ s.unresolved_labels_ ∧ kv.1 ≠ label := by
    intro kv hkv
    simp only [try_resolve_unresolved_labels, List.mem_filter] at hkv
    exact ⟨hkv.1, by simpa using hkv.2⟩
  refine ⟨?_, ?_, ?_⟩
  · intro kv hkv
    rw [try_resolve_length]
    exact h.inside kv (hmem kv hkv).1
  · intro kv hkv j hj
    obtain ⟨h1, h2⟩ := hmem kv hkv
    rw [try_resolve_out s label ip (kv.2 + j), h.placeholder kv h1 j hj]
    intro kv' hkv' e
    have hne : kv' ≠ kv := by
      intro hc
      rw [hc] at e
      exact h2 e
    rcases pairwise_apart _ h.apart kv' kv hkv' h1 hne with hc | hc <;> omega
  · simp only [try_resolve_unresolved_labels]
    exact h.apart.filter _

theorem handle_arithmetic_carries (s : RasmTranslator) (line : List token_t) :
    Carries s (handle_arithmetic_ s line).1 := by
  unfold handle_arithmetic_
  repeat' split
  all_goals first
    | exact carries_refl _
    | exact carries_log_error _ _
    | exact carries_emit _ _ _

theorem handle_jump_target_carries (s : RasmTranslator) (row : Nat) (line : List token_t) :
    Carries s (handle_jump_target_ s row line).1 := by
  unfold handle_jump_target_
  repeat' split
  all_goals first
    | exact carries_refl _
    | exact carries_log_error _ _
    | exact carries_push_back _ _
    | exact carries_pending _ _

theorem handle_jumps_carries (s : RasmTranslator) (line : List token_t) :
    Carries s (handle_jumps_ s line).1 := by
  unfold handle_jumps_
  repeat' split
  all_goals first
    | exact carries_refl _
    | exact carries_trans (carries_emit _ _ _) (handle_jump_target_carries _ _ _)

theorem get_reg_and_offset_from_carries (s : RasmTranslator) (row : Nat) (line : List token_t) :
    Carries s (get_reg_and_offset_from_ s row line).2.1 := by
  unfold get_reg_and_offset_from_
  repeat' split
  all_goals first
    | exact carries_refl _
    | exact carries_log_error _ _

theorem get_reg_and_offset_carries (s : RasmTranslator) (line : List token_t) :
    Carries s (get_reg_and_offset_ s line).2.1 := by
  unfold get_reg_and_offset_
  split
  · exact carries_refl _
  · exact get_reg_and_offset_from_carries _ _ _

theorem get_reg_and_offset_carries_of {s s' : RasmTranslator} {line line' : List token_t}
    {o : Option (Nat × Nat)} (h : get_reg_and_offset_ s line = (o, s', line')) :
    Carries s s' := by
  have := get_reg_and_offset_carries s line
  rw [h] at this
  exact this

theorem handle_mov_to_reg_carries (s : RasmTranslator) (row opcode dstReg : Nat)
    (line : List token_t) : Carries s (handle_mov_to_reg_ s row opcode dstReg line).1 := by
  unfold handle_mov_to_reg_
  repeat' split
  all_goals first
    | exact carries_refl _
    | exact carries_log_error _ _
    | exact carries_emit _ _ _
    | exact get_reg_and_offset_carries_of ‹get_reg_and_offset_ s _ = _›
    | exact carries_trans (get_reg_and_offset_carries_of ‹get_reg_and_offset_ s _ = _›)
        (carries_emit _ _ _)
    | exact carries_trans (get_reg_and_offset_carries_of ‹get_reg_and_offset_ s _ = _›)
        (carries_log_error _ _)

theorem handle_mov_to_mem_carries (s : RasmTranslator) (row opcode size : Nat)
    (line : List token_t) : Carries s (handle_mov_to_mem_ s row opcode size line).1 := by
  unfold handle_mov_to_mem_
  repeat' split
  all_goals first
    | exact carries_refl _
    | exact carries_log_error _ _
    | exact carries_emit _ _ _
    | exact get_reg_and_offset_carries_of ‹get_reg_and_offset_ s _ = _›
    | exact carries_trans (get_reg_and_offset_carries_of ‹get_reg_and_offset_ s _ = _›)
        (carries_emit _ _ _)
    | exact carries_trans (get_reg_and_offset_carries_of ‹get_reg_and_offset_ s _ = _›)
        (carries_log_error _ _)

theorem handle_mov_carries (s : RasmTranslator) (line : List token_t) :
    Carries s (handle_mov_ s line).1 := by
  unfold handle_mov_
  repeat' split
  all_goals first
    | exact carries_refl _
    | exact carries_log_error _ _
    | exact handle_mov_to_reg_carries _ _ _ _ _
    | exact handle_mov_to_mem_carries _ _ _ _ _

theorem handle_others_end_carries (s : RasmTranslator) (row : Nat) (line : List token_t) :
    Carries s (handle_others_end_ s row line).1 := by
  unfold handle_others_end_ check_end_of_line_
  split_ifs
  · exact carries_refl _
  · exact carries_log_error _ _

theorem handle_push_pop_carries (s : RasmTranslator) (row : Nat) (line : List token_t) :
    Carries s (handle_push_pop_ s row line).1 := by
  unfold handle_push_pop_
  repeat' split
  all_goals first
    | exact carries_log_error _ _
    | exact carries_via (handle_others_end_carries _ _ _) (carries_push_back _ _)

theorem handle_others_carries (s : RasmTranslator) (line : List token_t) :
    Carries s (handle_others_ s line).1 := by
  unfold handle_others_
  repeat' split
  all_goals first
    | exact carries_refl _
    | exact carries_log_error _ _
    | exact carries_trans (carries_emit _ _ _) (handle_others_end_carries _ _ _)
    | exact carries_trans (carries_emit _ _ _) (handle_push_pop_carries _ _ _)
    | exact carries_trans (carries_emit _ _ _) (carries_log_error _ _)
    | exact carries_via (handle_others_end_carries _ _ _)
        (carries_via (carries_push_back _ _) (carries_emit _ _ _))

theorem dispatch_carries (s : RasmTranslator) (line : List token_t) :
    Carries s (dispatch s line).1 := by
  unfold dispatch
  repeat' split
  all_goals first
    | exact handle_arithmetic_carries _ _
    | exact handle_jumps_carries _ _
    | exact handle_mov_carries _ _
    | exact handle_others_carries _ _

theorem carries_insertLabel (s : RasmTranslator) (label : String) (ip : Nat) :
    Carries s { s with labels_ := insertLabel s.labels_ label ip } :=
  carries_of_eq rfl rfl

theorem handle_new_labels_carries (s : RasmTranslator) (line : List token_t) :
    Carries s (handle_new_labels_ s line).1 := by
  refine handle_new_labels_.induct (fun s line => Carries s (handle_new_labels_ s line).1)
    ?_ ?_ ?_ s line
  · intro s row label r line s1 s2 ih
    rw [handle_new_labels_]
    refine carries_via ih ?_
    refine carries_via (carries_try_resolve _ _ _) ?_
    refine carries_via (carries_insertLabel s1 label s1.curr_ip_) ?_
    show Carries s (if _ then _ else _)
    split_ifs
    · exact carries_log_error _ _
    · exact carries_refl _
  · intro s row label line hne
    rw [handle_new_labels_]
    · exact carries_log_error _ _
    · exact hne
  · intro s line h1 h2
    rw [handle_new_labels_]
    · exact carries_refl _
    · exact h1
    · exact h2

theorem resolveCalls_fixups (s : RasmTranslator) (line : List token_t) :
    Fixups s → ∀ c ∈ resolveCalls s line, Fixups c.1 := by
  refine handle_new_labels_.induct
    (fun s line => Fixups s → ∀ c ∈ resolveCalls s line, Fixups c.1) ?_ ?_ ?_ s line
  · intro s row label r line s1 s2 ih h c hc
    rw [resolveCalls] at hc
    have h1 : Fixups s1 := by
      show Fixups (if _ then _ else _)
      split_ifs
      · exact carries_log_error _ _ h
      · exact h
    have h2 : Fixups s2 := carries_insertLabel s1 label s1.curr_ip_ h1
    rcases List.mem_cons.mp hc with e | hc
    · rw [e]; exact h2
    · exact ih (carries_try_resolve _ _ _ h2) c hc
  · intro s row label line hne _ c hc
    rw [resolveCalls] at hc
    · cases hc
    · intro r1 l1 r2 ln e
      cases e
      exact hne _ _ rfl
  · intro s line h1 h2 _ c hc
    rw [resolveCalls] at hc
    · cases hc
    · exact h1

theorem readLine_frame (fuel : Nat) : ∀ (s : RasmTranslator) (acc line : List token_t)
    (s' : RasmTranslator), readLine fuel s acc = some (line, s') →
    s'.byte_code_buffer_ = s.byte_code_buffer_ ∧
      s'.unresolved_labels_ = s.unresolved_labels_ := by
  induction fuel with
  | zero => intro s acc line s' h; simp [readLine] at h
  | succ n ih =>
    intro s acc line s' h
    unfold readLine nextToken at h
    cases hl : s.lexer_ with
    | nil =>
      rw [hl] at h
      simp only [Option.some.injEq, Prod.mk.injEq] at h
      rw [← h.2]
      exact ⟨rfl, rfl⟩
    | cons t ts =>
      rw [hl] at h
      simp only [] at h
      split at h
      · rename_i row lexeme s2 heq
        simp only [Prod.mk.injEq] at heq
        obtain ⟨_, h2⟩ := heq
        subst h2
        have := ih _ _ _ _ h
        exact this
      · rename_i row s2 heq
        simp only [Prod.mk.injEq] at heq
        obtain ⟨_, h2⟩ := heq
        subst h2
        simp only [Option.some.injEq, Prod.mk.injEq] at h
        rw [← h.2]
        exact ⟨rfl, rfl⟩
      · rename_i row s2 heq
        simp only [Prod.mk.injEq] at heq
        obtain ⟨_, h2⟩ := heq
        subst h2
        simp only [Option.some.injEq, Prod.mk.injEq] at h
        rw [← h.2]
        exact ⟨rfl, rfl⟩
      · rename_i t2 s2 _ _ _ heq
        simp only [Prod.mk.injEq] at heq
        obtain ⟨_, h2⟩ := heq
        subst h2
        have := ih _ _ _ _ h
        exact this

theorem readLine_carries (fuel : Nat) (s : RasmTranslator) (acc line : List token_t)
    (s' : RasmTranslator) (h : readLine fuel s acc = some (line, s')) : Carries s s' :=
  carries_of_eq (readLine_frame fuel s acc line s' h).1 (readLine_frame fuel s acc line s' h).2

theorem carries_flush (s : RasmTranslator) :
    Carries s (if s.unresolved_labels_.isEmpty then write_ s else s) := by
  intro h
  split_ifs with he
  · have hnil : s.unresolved_labels_ = [] := List.isEmpty_iff.mp he
    have hw : (write_ s).unresolved_labels_ = [] := by
      unfold write_
      split_ifs <;> exact hnil
    refine ⟨?_, ?_, ?_⟩
    · intro kv hkv; rw [hw] at hkv; cases hkv
    · intro kv hkv; rw [hw] at hkv; cases hkv
    · rw [hw]; exact List.Pairwise.nil
  · exact h

theorem translateRound_carries (s s' : RasmTranslator) (done : Bool)
    (h : translateRound s = some (s', done)) : Carries s s' := by
  unfold translateRound at h
  cases e1 : readLine (s.lexer_.length + 1) s [] with
  | none => rw [e1] at h; cases h
  | some p =>
    obtain ⟨line, s1⟩ := p
    rw [e1] at h
    simp only [] at h
    have c1 := readLine_carries _ _ _ _ _ e1
    have c2 := handle_new_labels_carries s1 line
    rcases h2 : handle_new_labels_ s1 line with ⟨s2, line2⟩
    rw [h2] at h c2
    simp only [] at h c2
    by_cases hb : isBlankLine line2 = true
    · rw [if_pos hb] at h
      simp only [Option.some.injEq, Prod.mk.injEq] at h
      rw [← h.1]
      exact carries_trans c1 c2
    · rw [if_neg hb] at h
      have c3 := dispatch_carries s2 line2
      rcases h3 : dispatch s2 line2 with ⟨s3, line3⟩
      rw [h3] at h c3
      simp only [Option.some.injEq, Prod.mk.injEq] at h c3
      rw [← h.1]
      exact carries_trans (carries_trans (carries_trans c1 c2) c3) (carries_flush s3)

theorem roundsFrom_carries (n : Nat) : ∀ (s s' : RasmTranslator) (done : Bool),
    roundsFrom n s = some (s', done) → Carries s s' := by
  induction n with
  | zero =>
    intro s s' done h
    simp only [roundsFrom, Option.some.injEq, Prod.mk.injEq] at h
    rw [← h.1]
    exact carries_refl _
  | succ n ih =>
    intro s s' done h
    unfold roundsFrom at h
    cases e : translateRound s with
    | none => rw [e] at h; cases h
    | some p =>
      obtain ⟨s1, d1⟩ := p
      rw [e] at h
      cases d1 with
      | false =>
        simp only [] at h
        exact carries_trans (translateRound_carries _ _ _ e) (ih _ _ _ h)
      | true =>
        simp only [Option.some.injEq, Prod.mk.injEq] at h
        rw [← h.1]
        exact translateRound_carries _ _ _ e

theorem translateLoop_rounds (fuel : Nat) : ∀ (s r : RasmTranslator),
    translateLoop fuel s = some r → ∃ n, roundsFrom n s = some (r, true) := by
  induction fuel with
  | zero => intro s r h; simp [translateLoop] at h
  | succ k ih =>
    intro s r h
    unfold translateLoop at h
    cases e : translateRound s with
    | none => rw [e] at h; cases h
    | some p =>
      obtain ⟨s1, d1⟩ := p
      rw [e] at h
      cases d1 with
      | false =>
        simp only [] at h
        obtain ⟨n, hn⟩ := ih _ _ h
        refine ⟨n + 1, ?_⟩
        rw [roundsFrom, e]
        exact hn
      | true =>
        simp only [Option.some.injEq] at h
        refine ⟨1, ?_⟩
        rw [roundsFrom, e, h]

theorem fixups_start (toks : List token_t) (eofRow : Nat) :
    Fixups { lexer_ := toks, eofRow_ := eofRow } :=
  ⟨fun _ h => (by cases h), fun _ h => (by cases h), List.Pairwise.nil⟩

/-- The translator that `translate` returns is the one that the rounds of its loop leave when
the loop ends. -/
theorem translate_rounds (toks : List token_t) (eofRow : Nat) (r : RasmTranslator)
    (h : translate toks eofRow = some r) :
    ∃ n, roundsFrom n { lexer_ := toks, eofRow_ := eofRow } = some (r, true) :=
  translateLoop_rounds _ _ _ h

end Rasm

namespace Rasm

theorem prefix_of_not_mem {α : Type} (f p pre post : List α) (x : α)
    (h : f ++ p = pre ++ x :: post) (hx : x ∉ f) : f <+: pre := by
  have h1 : f <+: pre ++ x :: post := ⟨p, h⟩
  have h2 : pre <+: pre ++ x :: post := ⟨x :: post, rfl⟩
  rcases List.prefix_or_prefix_of_prefix h1 h2 with h3 | ⟨t, ht⟩
  · exact h3
  · cases t with
    | nil => rw [List.append_nil] at ht; rw [ht]
    | cons y t =>
      exfalso
      rw [← ht, List.append_assoc] at h
      have := List.append_cancel_left h
      simp only [List.cons_append, List.cons.injEq] at this
      apply hx
      rw [← ht, ← this.1]
      simp

theorem ciEq_iff : ∀ (k a : List Char),
    ciEq k a = true ↔ k.map Char.toLower = a.map Char.toLower := by
  intro k
  induction k with
  | nil => intro a; cases a <;> simp [ciEq]
  | cons c k ih =>
    intro a
    cases a with
    | nil => simp [ciEq]
    | cons d a => simp [ciEq, ciCharEq, ih a]

theorem ciFind_none {V : Type} (table : List (String × V)) (lex : List Char)
    (h : ∀ kv ∈ table, kv.1.data.map Char.toLower ≠ lex.map Char.toLower) :
    ciFind table lex = none := by
  induction table with
  | nil => rfl
  | cons kv rest ih =>
    obtain ⟨k, v⟩ := kv
    have h1 : ciEq k.data lex = false := by
      cases hc : ciEq k.data lex with
      | false => rfl
      | true => exact absurd ((ciEq_iff _ _).mp hc) (h (k, v) (by simp))
    simp only [ciFind, h1]
    exact ih (fun kv hkv => h kv (by simp [hkv]))

theorem keywords_lower : ∀ k ∈ keywords, k.data.map Char.toLower = k.data := by decide

theorem mem_keywords {V : Type} (table : List (String × V)) (kv : String × V) (h : kv ∈ table)
    (hsub : ∀ k ∈ table.map Prod.fst, k ∈ keywords) : kv.1 ∈ keywords :=
  hsub _ (List.mem_map.mpr ⟨kv, h, rfl⟩)

theorem ciFind_miss {V : Type} (table : List (String × V)) (lex : List Char)
    (hsub : ∀ k ∈ table.map Prod.fst, k ∈ keywords)
    (h : ∀ k ∈ keywords, lex.map Char.toLower ≠ k.data) : ciFind table lex = none := by
  apply ciFind_none
  intro kv hkv e
  have hk := mem_keywords table kv hkv hsub
  rw [keywords_lower _ hk] at e
  exact h _ hk e.symm

theorem classify_congr (a b : List Char) (h : a.map Char.toLower = b.map Char.toLower) :
    classify a = classify b ∨
      (classify a = .Label 0 (String.mk a) ∧ classify b = .Label 0 (String.mk b)) := by
  unfold classify
  rw [ciFind_congr registers_ a b h, ciFind_congr binary_operators_ a b h,
    ciFind_congr jumps_ a b h, ciFind_congr others_ a b h, ciFind_congr sizes_ a b h]
  cases ciFind registers_ b with
  | some r => exact Or.inl rfl
  | none =>
    cases ciFind binary_operators_ b with
    | some r => exact Or.inl rfl
    | none =>
      cases ciFind jumps_ b with
      | some r => exact Or.inl rfl
      | none =>
        cases ciFind others_ b with
        | some r => exact Or.inl rfl
        | none =>
          cases ciFind sizes_ b with
          | some r => exact Or.inl rfl
          | none => exact Or.inr ⟨rfl, rfl⟩

theorem classify_keyword : ∀ k ∈ keywords, (classify k.data).type ≠ .Label := by decide

end Rasm

namespace Rasm

/-- C1: in an error-free translation of a program that defines every label it references,
the eight bytes that follow the header of a jump (offset 2 of the instruction) or the
opcode of a call (offset 1) in the written output are the big-endian bytes of the offset
at which the referenced label is defined, the value that the label table holds for it; the
definition may stand before or after the reference. -/
theorem label_target_bytes (P : Program) (r : RasmTranslator)
    (h : translate P.tokens P.eofRow = some r) (hok : (status r).ok_ = true)
    (hrefs : ∀ x ∈ referencedLabels (statementsOf P.allLines), x ∈ definedLabels P.allLines)
    (pre post : List Statement) (st : Statement) (label : String)
    (hst : statementsOf P.allLines = pre ++ st :: post) (ht : st.target = some label) :
    ∃ off, P.labelOffset label = some off ∧ r.labels_.lookup label = some (off % 2 ^ 64) ∧
      (r.fout.drop (totalLength pre + st.targetAt)).take 8 = be8 off ∧
      beValue ((r.fout.drop (totalLength pre + st.targetAt)).take 8) = off % 2 ^ 64 := by
  have hne : r.has_errors_ = false := by simpa [status] using hok
  have hnd := translate_nodup P r h hne
  obtain ⟨_, _, hout, htab⟩ := translate_output P r h hnd hrefs
  have hmem : label ∈ definedLabels P.allLines := by
    apply hrefs
    rw [hst, referencedLabels_append, referencedLabels_cons, ht]
    simp
  have hsome : ((labelOffsets 0 P.allLines).lookup label).isSome = true :=
    lookup_isSome_of_mem _ _ (by rw [labelOffsets_fst]; exact hmem)
  obtain ⟨off, hoff⟩ := Option.isSome_iff_exists.mp hsome
  have hlook : r.labels_.lookup label = some (off % 2 ^ 64) := by
    rw [htab, lookup_tableOf, hoff]
    rfl
  have hbytes : (r.fout.drop (totalLength pre + st.targetAt)).take 8 = be8 off := by
    rw [hout, hst, target_bytes_at _ pre post st label _ ht hlook, be8_mod]
  refine ⟨off, hoff, hlook, hbytes, ?_⟩
  rw [hbytes, ← be8_mod]
  exact beValue_be8 _ (Nat.mod_lt _ (by norm_num))

/-- C2 (counterexample): the source `foo:` / `foo:` / `ret` conforms to the line grammar and
references no label, yet `translate` returns a status that is not ok, and writes no byte
although the instruction lengths sum to 1. -/
theorem redefined_label_counterexample :
    tokens "foo:\nfoo:\nret" = some (twiceFoo.tokens, twiceFoo.eofRow) ∧
      (∀ x ∈ referencedLabels (statementsOf twiceFoo.allLines),
        x ∈ definedLabels twiceFoo.allLines) ∧
      (translateSource "foo:\nfoo:\nret").map status =
        some { ok_ := false, errors_ := ["at row 2 label \'foo\' was redefined"] } ∧
      (translateSource "foo:\nfoo:\nret").map (fun r => r.fout) = some [] ∧
      totalLength (statementsOf twiceFoo.allLines) = 1 := by
  refine ⟨by decide, by decide, by decide, by decide, by decide⟩

/-- C2 (amended): for a program that conforms to the line grammar, defines no label twice and
defines every label it references, `translate` returns an ok status without diagnostics,
and the number of bytes written is the sum of the instruction lengths of its
statements. -/
theorem bytes_written_eq_total_length (P : Program)
    (hnd : (definedLabels P.allLines).Nodup)
    (hrefs : ∀ x ∈ referencedLabels (statementsOf P.allLines), x ∈ definedLabels P.allLines) :
    ∃ r, translate P.tokens P.eofRow = some r ∧ status r = { ok_ := true, errors_ := [] } ∧
      r.fout.length = totalLength (statementsOf P.allLines) := by
  obtain ⟨r, hr⟩ := translate_returns P.tokens P.eofRow
  obtain ⟨h1, h2, h3, _⟩ := translate_output P r hr hnd hrefs
  refine ⟨r, hr, ?_, ?_⟩
  · simp [status, h1, h2]
  · rw [h3, assemble_length]

/-- C4: for a program that conforms to the line grammar in which the label `name` is defined
more than once and no other label is, `translate` returns a status that is not ok; its
diagnostics hold the message `at row N label 'name' was redefined`, with `N` the row of
the line of the first repeated definition (a line after one that defines `name`, or a
line that defines it twice); and the label table binds `name` to the offset of its first
definition. -/
theorem redefinition_reported (P : Program) (name : String)
    (hdup : 2 ≤ (definedLabels P.allLines).count name)
    (hothers : ∀ other ∈ definedLabels P.allLines, other ≠ name →
      (definedLabels P.allLines).count other ≤ 1) :
    ∃ r off pre l post, translate P.tokens P.eofRow = some r ∧ (status r).ok_ = false ∧
      P.allLines = pre ++ l :: post ∧ name ∈ l.labels ∧
      (name ∈ definedLabels pre ∨ 2 ≤ l.labels.count name) ∧
      (atRow (pre.length + 1) ++ " label \'" ++ name ++ "\' was redefined") ∈
        (status r).errors_ ∧
      P.labelOffset name = some off ∧ r.labels_.lookup name = some (off % 2 ^ 64) := by
  have hnn : ¬ (definedLabels P.allLines).Nodup := by
    intro hc
    have := List.nodup_iff_count_le_one.mp hc name
    omega
  obtain ⟨a0, name', b0, e0, hnd, hmem⟩ := exists_first_dup _ hnn
  have hname : name' = name := by
    by_contra hne
    have hin : name' ∈ definedLabels P.allLines := by rw [e0]; simp
    have hle := hothers name' hin hne
    rw [e0, List.count_append, List.count_cons_self] at hle
    have : 0 < a0.count name' := List.count_pos_iff.mpr hmem
    omega
  subst hname
  obtain ⟨pre, l, post, a, b, e1, e2, e3⟩ := split_definedLabels _ a0 name' b0 e0
  subst e3
  obtain ⟨r, off, hr, herr, hmsg, hoff, hlook⟩ :=
    translate_dup P pre post l a b name' e1 e2 hnd hmem
  refine ⟨r, off, pre, l, post, hr, by simp [status, herr], e1, by rw [e2]; simp, ?_, hmsg,
    hoff, hlook⟩
  rcases List.mem_append.mp hmem with hm | hm
  · exact Or.inl hm
  · right
    rw [e2, List.count_append, List.count_cons_self]
    have : 0 < a.count name' := List.count_pos_iff.mpr hm
    omega

theorem label_target_bytes_witness :
    tokens "jmp end\nback: int 0\nend:\ncall back" =
        some (forwardBackward.tokens, forwardBackward.eofRow) ∧
      translate forwardBackward.tokens forwardBackward.eofRow = some forwardBackwardResult ∧
      (status forwardBackwardResult).ok_ = true ∧
      (∀ x ∈ referencedLabels (statementsOf forwardBackward.allLines),
        x ∈ definedLabels forwardBackward.allLines) ∧
      (Statement.jump 0 "end").target = some "end" ∧
      statementsOf forwardBackward.allLines =
        [] ++ Statement.jump 0 "end" :: [.int 0, .call "back"] ∧
      ∃ off, forwardBackward.labelOffset "end" = some off ∧
        forwardBackwardResult.labels_.lookup "end" = some (off % 2 ^ 64) ∧
        (forwardBackwardResult.fout.drop
          (totalLength [] + (Statement.jump 0 "end").targetAt)).take 8 = be8 off ∧
        beValue ((forwardBackwardResult.fout.drop
          (totalLength [] + (Statement.jump 0 "end").targetAt)).take 8) = off % 2 ^ 64 :=
  ⟨by decide, by decide, by decide, by decide, rfl, by decide,
    label_target_bytes forwardBackward forwardBackwardResult (by decide) (by decide)
      (by decide) [] [.int 0, .call "back"] (.jump 0 "end") "end" (by decide) rfl⟩

theorem bytes_written_eq_total_length_witness :
    (definedLabels forwardBackward.allLines).Nodup ∧
      (∀ x ∈ referencedLabels (statementsOf forwardBackward.allLines),
        x ∈ definedLabels forwardBackward.allLines) ∧
      ∃ r, translate forwardBackward.tokens forwardBackward.eofRow = some r ∧
        status r = { ok_ := true, errors_ := [] } ∧
        r.fout.length = totalLength (statementsOf forwardBackward.allLines) :=
  ⟨by decide, by decide,
    bytes_written_eq_total_length forwardBackward (by decide) (by decide)⟩

theorem redefinition_reported_witness :
    tokens "foo: ret\nfoo: ret" = some (fooRetTwice.tokens, fooRetTwice.eofRow) ∧
      2 ≤ (definedLabels fooRetTwice.allLines).count "foo" ∧
      (∀ other ∈ definedLabels fooRetTwice.allLines, other ≠ "foo" →
        (definedLabels fooRetTwice.allLines).count other ≤ 1) ∧
      ∃ r off pre l post, translate fooRetTwice.tokens fooRetTwice.eofRow = some r ∧
        (status r).ok_ = false ∧ fooRetTwice.allLines = pre ++ l :: post ∧ "foo" ∈ l.labels ∧
        ("foo" ∈ definedLabels pre ∨ 2 ≤ l.labels.count "foo") ∧
        (atRow (pre.length + 1) ++ " label \'" ++ "foo" ++ "\' was redefined") ∈
          (status r).errors_ ∧
        fooRetTwice.labelOffset "foo" = some off ∧
        r.labels_.lookup "foo" = some (off % 2 ^ 64) :=
  ⟨by decide, by decide, by decide,
    redefinition_reported fooRetTwice "foo" (by decide) (by decide)⟩

end Rasm

namespace Rasm

/-- C22 (counterexample): the output for `jmp end` / `int 0` / `end:` / `int 3` has fourteen
bytes; the bytes at the offsets 2..9 are not the big-endian bytes of 11, and the bytes
from offset 11 on are the operand of `int 0` followed by `int 3`, not `int 3`. -/
theorem jmp_end_scenario_counterexample :
    (translateSource "jmp end\nint 0\nend:\nint 3").map (fun r => r.fout) =
        some [9, 0, 0, 0, 0, 0, 0, 0, 0, 12, 12, 0, 12, 3] ∧
      ¬ ∃ r, translateSource "jmp end\nint 0\nend:\nint 3" = some r ∧
        ((r.fout.drop 2).take 8 = be8 11 ∨ r.fout.drop 11 = [12, 3]) := by
  refine ⟨by decide, ?_⟩
  rintro ⟨r, hr, h⟩
  have h2 : translateSource "jmp end\nint 0\nend:\nint 3" = some jmpEndResult := by decide
  rw [h2] at hr
  cases hr
  revert h
  decide

/-- C22 (amended): assembling `jmp end` / `int 0` / `end:` / `int 3` succeeds and yields
fourteen bytes; the bytes at the offsets 2..9 are the big-endian bytes of 12, the label
table binds `end` to 12, and 12 is the offset of the `int 3` instruction (the bytes
`0C 03`, which end the output). -/
theorem jmp_end_scenario :
    ∃ r, translateSource "jmp end\nint 0\nend:\nint 3" = some r ∧
      status r = { ok_ := true, errors_ := [] } ∧
      r.fout = [9, 0] ++ be8 12 ++ [12, 0] ++ [12, 3] ∧
      (r.fout.drop 2).take 8 = be8 12 ∧ beValue ((r.fout.drop 2).take 8) = 12 ∧
      r.labels_.lookup "end" = some 12 ∧ r.fout.drop 12 = [12, 3] :=
  ⟨jmpEndResult, by decide, by decide, by decide, by decide, by decide, by decide, by decide⟩

/-- C24 (failing input): the source `add` / `add` has the same error on its rows 1 and 2, and
the lexer yields the tokens of both rows; yet only the diagnostic of row 1 is logged,
because the recovery that follows it takes the tokens of row 2 from the stream (the line
of row 1 was read to its `Eol` before its handler ran).  The error of row 2 alone is
reported (`ret` / `add`), both errors are reported with a blank line between them
(`add` / blank / `add`), and a label on the line after an erroneous one is lost
(`add` / `foo: ret` binds no label and emits nothing). -/
theorem consecutive_errors_failing_input :
    tokens "add\nadd" = some ([.BinaryOperator 1 0, .Eol 2, .BinaryOperator 2 0], 2) ∧
      (translateSource "add\nadd").map status =
        some { ok_ := false,
               errors_ := ["at row 1 expected register after binary operator"] } ∧
      (translateSource "ret\nadd").map status =
        some { ok_ := false,
               errors_ := ["at row 2 expected register after binary operator"] } ∧
      (translateSource "add\n\nadd").map status =
        some { ok_ := false,
               errors_ := ["at row 1 expected register after binary operator",
                           "at row 3 expected register after binary operator"] } ∧
      (translateSource "add\nfoo: ret").map (fun r => (r.labels_, r.curr_ip_)) =
        some ([], 0) := by
  refine ⟨by decide, by decide, by decide, by decide, by decide⟩

/-- C25 (counterexample): the source `jmp a` / `jmp nowhere` / `a:` conforms to the line
grammar, defines no label twice and never defines `nowhere`; `translate` returns an ok
status without diagnostics, and writes no byte at all, although the statement `jmp a`
stands before the first reference to a label that is never defined. -/
theorem dangling_reference_counterexample :
    tokens "jmp a\njmp nowhere\na:" =
        some (danglingAfterForward.tokens, danglingAfterForward.eofRow) ∧
      statementsOf danglingAfterForward.allLines =
        [Statement.jump 0 "a"] ++ Statement.jump 0 "nowhere" :: [] ∧
      "nowhere" ∉ definedLabels danglingAfterForward.allLines ∧
      (translateSource "jmp a\njmp nowhere\na:").map status =
        some { ok_ := true, errors_ := [] } ∧
      (translateSource "jmp a\njmp nowhere\na:").map (fun r => r.fout) = some [] ∧
      totalLength [Statement.jump 0 "a"] = 10 := by
  refine ⟨by decide, by decide, by decide, by decide, by decide, by decide⟩

/-- C25 (amended): for a program that conforms to the line grammar and defines no label twice,
in which the statement `st` (after the statements `pre`) references a label that has no
definition, `translate` returns an ok status without diagnostics, and the bytes written
are those of a leading part of `pre` only: no byte of `st` or of a later statement is
written. -/
theorem dangling_reference_silent (P : Program) (hnd : (definedLabels P.allLines).Nodup)
    (pre post : List Statement) (st : Statement) (label : String)
    (hst : statementsOf P.allLines = pre ++ st :: post) (ht : st.target = some label)
    (hundef : label ∉ definedLabels P.allLines) :
    ∃ r f, translate P.tokens P.eofRow = some r ∧ status r = { ok_ := true, errors_ := [] } ∧
      f <+: pre ∧ r.fout = assemble r.labels_ f ∧ r.fout.length = totalLength f ∧
      r.fout.length ≤ totalLength pre := by
  obtain ⟨r, f, p, hr, hinv, hfp, htab, _⟩ := translate_good P hnd
  have hnone : r.labels_.lookup label = none := by
    rw [htab, lookup_tableOf, lookup_none_of_not_mem _ _ (by rw [labelOffsets_fst]; exact hundef)]
    rfl
  have hnot : st ∉ f := by
    intro hmem
    have hl : label ∈ referencedLabels f := by
      obtain ⟨a, b, e⟩ := List.append_of_mem hmem
      rw [e, referencedLabels_append, referencedLabels_cons, ht]
      simp
    have := hinv.resolved label hl
    rw [hnone] at this
    cases this
  have hpre : f <+: pre := prefix_of_not_mem f p pre post st (hfp.trans hst) hnot
  have hlen : r.fout.length = totalLength f := by rw [hinv.fout_eq, assemble_length]
  refine ⟨r, f, hr, ?_, hpre, hinv.fout_eq, hlen, ?_⟩
  · simp [status, hinv.no_errors, hinv.errors_nil]
  · obtain ⟨t, e⟩ := hpre
    rw [hlen, ← e]
    simp [totalLength]

/-- C27: the classification of a lexeme ignores letter case for keywords only.  A lexeme whose
lower-case form is a keyword (a key of the tables `registers_`, `binary_operators_`,
`jumps_`, `others_`, `sizes_`) yields the token of that keyword, which is not a `Label`:
a `Register`, `BinaryOperator`, `Jump`, `mov`/`push`/`pop`/`call`/`ret`/`int`/`test` or
`Size` token with the payload that the table holds for the lower-case spelling.  Every
other lexeme yields a `Label` whose payload is the lexeme itself, so two such lexemes
that differ (if only in case) yield different tokens. -/
theorem classify_case (lex : List Char) :
    (∀ k ∈ keywords, lex.map Char.toLower = k.data →
      classify lex = classify k.data ∧ (classify lex).type ≠ .Label) ∧
    ((∀ k ∈ keywords, lex.map Char.toLower ≠ k.data) →
      classify lex = .Label 0 (String.mk lex) ∧
      ∀ other : List Char, (∀ k ∈ keywords, other.map Char.toLower ≠ k.data) →
        other ≠ lex → classify other ≠ classify lex) ∧
    (∀ kv ∈ registers_, classify kv.1.data = .Register 0 kv.2) ∧
    (∀ kv ∈ binary_operators_, classify kv.1.data = .BinaryOperator 0 kv.2) ∧
    (∀ kv ∈ jumps_, classify kv.1.data = .Jump 0 9 kv.2) ∧
    (∀ kv ∈ others_, classify kv.1.data = otherToken kv.2.1 kv.2.2 ∧
      (otherToken kv.2.1 kv.2.2).type = kv.2.1) ∧
    (∀ kv ∈ sizes_, classify kv.1.data = .Size 0 kv.2) := by
  have hlabel : ∀ l : List Char, (∀ k ∈ keywords, l.map Char.toLower ≠ k.data) →
      classify l = .Label 0 (String.mk l) := by
    intro l h
    unfold classify
    rw [ciFind_miss registers_ l (by decide) h, ciFind_miss binary_operators_ l (by decide) h,
      ciFind_miss jumps_ l (by decide) h, ciFind_miss others_ l (by decide) h,
      ciFind_miss sizes_ l (by decide) h]
  refine ⟨?_, ?_, by decide, by decide, by decide, by decide, by decide⟩
  · intro k hk h
    have h' : lex.map Char.toLower = k.data.map Char.toLower := by
      rw [keywords_lower k hk]; exact h
    have hkw := classify_keyword k hk
    have e : classify lex = classify k.data := by
      rcases classify_congr lex k.data h' with e | ⟨_, e⟩
      · exact e
      · rw [e] at hkw
        exact absurd rfl hkw
    refine ⟨e, ?_⟩
    rw [e]
    exact hkw
  · intro h
    refine ⟨hlabel lex h, ?_⟩
    intro other ho hne e
    rw [hlabel lex h, hlabel other ho] at e
    exact hne (congrArg String.data (token_t.Label.inj e).2)

/-- C28 (failing input): on the input `; x`, which ends inside a comment without a line feed,
the first call of `getNextToken` does not return; the same holds for `$`, which ends
inside a run of unknown characters, and for the call on ` $` (what the first call leaves
of `ret $`).  No token stream exists for these inputs, while with a line feed at the end
the same inputs are read to their `Eof`. -/
theorem lexer_eof_failing_input :
    getNextToken { fin_ := "; x".data } = LexResult.diverges ∧
      getNextToken { fin_ := "$".data } = LexResult.diverges ∧
      getNextToken { fin_ := " $".data, row_ := 1 } = LexResult.diverges ∧
      tokens "; x" = none ∧ tokens "$" = none ∧ tokens "ret $" = none ∧
      tokens "; x\n" = some ([.Eol 2], 2) ∧
      tokens "ret $\n" = some ([.Ret 1 11, .Unknown 1 "$", .Eol 2], 2) := by
  refine ⟨rfl, rfl, rfl, by decide, by decide, by decide, by decide, by decide⟩

/-- C30: in every translator `s` that the loop of `translate` reaches after some rounds on a
token stream, every pending fixup offset `o` has `o + 8 ≤ byte_code_buffer_.size()`, the
eight bytes at `[o, o + 8)` are the zero bytes of a target placeholder, and the ranges of
the pending fixups do not overlap (`Fixups s`).  The same holds within the next round: in
every translator in which `handle_new_labels_` calls `try_resolve_label_` (where the call
keeps the length of the buffer and changes no byte outside the ranges of the fixups of
its label), after the label definitions, and after the handler of the statement, before
the buffer is written. -/
theorem fixups_in_buffer (toks : List token_t) (eofRow n : Nat) (s : RasmTranslator)
    (done : Bool) (h : roundsFrom n { lexer_ := toks, eofRow_ := eofRow } = some (s, done)) :
    Fixups s ∧
      ∀ line s1, readLine (s.lexer_.length + 1) s [] = some (line, s1) →
        (∀ c ∈ resolveCalls s1 line, Fixups c.1 ∧
          (try_resolve_label_ c.1 c.2.1 c.2.2).byte_code_buffer_.length =
            c.1.byte_code_buffer_.length ∧
          ∀ i, (∀ kv ∈ c.1.unresolved_labels_, kv.1 = c.2.1 → i < kv.2 ∨ kv.2 + 8 ≤ i) →
            (try_resolve_label_ c.1 c.2.1 c.2.2).byte_code_buffer_[i]? =
              c.1.byte_code_buffer_[i]?) ∧
        Fixups (handle_new_labels_ s1 line).1 ∧
        Fixups (dispatch (handle_new_labels_ s1 line).1 (handle_new_labels_ s1 line).2).1 := by
  have hs : Fixups s := roundsFrom_carries n _ s done h (fixups_start toks eofRow)
  refine ⟨hs, ?_⟩
  intro line s1 hl
  have h1 : Fixups s1 := readLine_carries _ _ _ _ _ hl hs
  have h2 : Fixups (handle_new_labels_ s1 line).1 := handle_new_labels_carries s1 line h1
  refine ⟨?_, h2, dispatch_carries _ _ h2⟩
  intro c hc
  exact ⟨resolveCalls_fixups s1 line h1 c hc, try_resolve_length _ _ _,
    fun i hi => try_resolve_out _ _ _ i hi⟩

theorem dangling_reference_silent_witness :
    tokens "ret\njmp nowhere\nret" = some (retDanglingRet.tokens, retDanglingRet.eofRow) ∧
      (definedLabels retDanglingRet.allLines).Nodup ∧
      statementsOf retDanglingRet.allLines =
        [Statement.ret] ++ Statement.jump 0 "nowhere" :: [.ret] ∧
      (Statement.jump 0 "nowhere").target = some "nowhere" ∧
      "nowhere" ∉ definedLabels retDanglingRet.allLines ∧
      (translateSource "ret\njmp nowhere\nret").map (fun r => r.fout) = some [11] ∧
      ∃ r f, translate retDanglingRet.tokens retDanglingRet.eofRow = some r ∧
        status r = { ok_ := true, errors_ := [] } ∧
        f <+: [Statement.ret] ∧ r.fout = assemble r.labels_ f ∧
        r.fout.length = totalLength f ∧ r.fout.length ≤ totalLength [Statement.ret] :=
  ⟨by decide, by decide, by decide, rfl, by decide, by decide,
    dangling_reference_silent retDanglingRet (by decide) [.ret] [.ret] (.jump 0 "nowhere")
      "nowhere" (by decide) rfl (by decide)⟩

theorem classify_case_witness :
    "MoV".data.map Char.toLower = "mov".data ∧ classify "MoV".data = .Mov 0 6 ∧
      classify "Loop".data = .Label 0 "Loop" ∧ classify "loop".data = .Label 0 "loop" ∧
      (classify "MoV".data = classify "mov".data ∧ (classify "MoV".data).type ≠ .Label) ∧
      (classify "Loop".data = .Label 0 (String.mk "Loop".data) ∧
        ∀ other : List Char, (∀ k ∈ keywords, other.map Char.toLower ≠ k.data) →
          other ≠ "Loop".data → classify other ≠ classify "Loop".data) :=
  ⟨by decide, by decide, by decide, by decide,
    (classify_case "MoV".data).1 "mov" (by decide) (by decide),
    (classify_case "Loop".data).2.1 (by decide)⟩

theorem fixups_in_buffer_witness :
    tokens "jmp end\nend:" = some (jmpEndTokens, 2) ∧
      roundsFrom 1 { lexer_ := jmpEndTokens, eofRow_ := 2 } = some (jmpEndPending, false) ∧
      resolveCalls { jmpEndPending with lexer_ := [] } [.Label 2 "end", .Colon 2, .Eof 2] =
        [({ jmpEndPending with lexer_ := [], labels_ := [("end", 10)] }, "end", 10)] ∧
      (Fixups jmpEndPending ∧
        ∀ line s1, readLine (jmpEndPending.lexer_.length + 1) jmpEndPending [] =
            some (line, s1) →
          (∀ c ∈ resolveCalls s1 line, Fixups c.1 ∧
            (try_resolve_label_ c.1 c.2.1 c.2.2).byte_code_buffer_.length =
              c.1.byte_code_buffer_.length ∧
            ∀ i, (∀ kv ∈ c.1.unresolved_labels_, kv.1 = c.2.1 → i < kv.2 ∨ kv.2 + 8 ≤ i) →
              (try_resolve_label_ c.1 c.2.1 c.2.2).byte_code_buffer_[i]? =
                c.1.byte_code_buffer_[i]?) ∧
          Fixups (handle_new_labels_ s1 line).1 ∧
          Fixups (dispatch (handle_new_labels_ s1 line).1
            (handle_new_labels_ s1 line).2).1) :=
  ⟨by decide, by decide, by decide,
    fixups_in_buffer jmpEndTokens 2 1 jmpEndPending false (by decide)⟩

end Rasm

namespace RVM

/-! ## Properties of the machine -/

theorem bind_ok_iff {α β : Type} (x : Exec α) (f : α → Exec β) (b : β) :
    (x >>= f) = .ok b ↔ ∃ a, x = .ok a ∧ f a = .ok b := by
  cases x <;> simp [bind, Except.bind]

theorem sat_bind {α β : Type} {x : Exec α} {f : α → Exec β} {P : β → Prop} {Q : Rvm → Prop}
    (R : α → Prop) (hx : Sat x R Q) (hf : ∀ a, R a → Sat (f a) P Q) : Sat (x >>= f) P Q := by
  cases x with
  | ok a => exact hf a hx
  | error e =>
    cases e with
    | fault vm m => exact hx
    | undefined => trivial

theorem sat_pure {α : Type} {a : α} {P : α → Prop} {Q : Rvm → Prop} (h : P a) :
    Sat (pure a : Exec α) P Q := h

theorem sat_ok {α : Type} {a : α} {P : α → Prop} {Q : Rvm → Prop} (h : P a) :
    Sat (Except.ok a : Exec α) P Q := h

theorem sat_mono {α : Type} {x : Exec α} {P P' : α → Prop} {Q Q' : Rvm → Prop}
    (h : Sat x P Q) (hP : ∀ a, P a → P' a) (hQ : ∀ vm, Q vm → Q' vm) : Sat x P' Q' := by
  cases x with
  | ok a => exact hP a h
  | error e =>
    cases e with
    | fault vm m => exact hQ vm h
    | undefined => trivial

theorem sat_of_ok {α : Type} {x : Exec α} {P : α → Prop} {Q : Rvm → Prop} {a : α}
    (h : Sat x P Q) (hx : x = .ok a) : P a := by
  subst hx; exact h

theorem sat_of_fault {α : Type} {x : Exec α} {P : α → Prop} {Q : Rvm → Prop} {vm : Rvm}
    {m : String} (h : Sat x P Q) (hx : x = .error (.fault vm m)) : Q vm := by
  subst hx; exact h

@[simp] theorem setReg_regs (vm : Rvm) (r v q : Nat) :
    (setReg vm r v).registers_ q = if q = r then v else vm.registers_ q := by
  simp [setReg, Function.update_apply]

@[simp] theorem addIp_regs (vm : Rvm) (n q : Nat) :
    (addIp vm n).registers_ q =
      if q = Ip then (vm.registers_ Ip + n) % 2 ^ 64 else vm.registers_ q := by
  simp [addIp]

theorem update_flags_isFlag (vm : Rvm) (x : Nat) :
    isFlag ((update_flags_ vm x).registers_ Fg) := by
  unfold update_flags_ isFlag
  split_ifs <;> simp

theorem readMem_sat (vm : Rvm) (a : Nat) (Q : Rvm → Prop) :
    Sat (readMem vm a) (fun _ => True) Q := by
  unfold readMem; split <;> trivial

theorem writeMem_sat (vm : Rvm) (a b : Nat) (Q : Rvm → Prop) :
    Sat (writeMem vm a b) (fun vm' => vm'.registers_ = vm.registers_) Q := by
  unfold writeMem; split_ifs
  · exact sat_ok rfl
  · trivial

theorem get_num_sat (vm : Rvm) (size a : Nat) (Q : Rvm → Prop) :
    Sat (get_num_ vm size a) (fun _ => True) Q := by
  unfold get_num_
  split_ifs <;>
    repeat (first | exact sat_pure trivial
                  | refine sat_bind (fun _ => True) (readMem_sat _ _ _) (fun _ _ => ?_))

theorem load_num_sat (vm : Rvm) (size a x : Nat) (Q : Rvm → Prop) :
    Sat (load_num_ vm size a x) (fun vm' => vm'.registers_ = vm.registers_) Q := by
  have key : ∀ (vm1 : Rvm) (a b : Nat), vm1.registers_ = vm.registers_ →
      Sat (writeMem vm1 a b) (fun vm' => vm'.registers_ = vm.registers_) Q := by
    intro vm1 a b h
    exact sat_mono (writeMem_sat vm1 a b Q) (fun _ h' => h'.trans h) (fun _ h' => h')
  unfold load_num_
  split_ifs <;>
    repeat (first | exact key _ _ _ (by assumption)
                  | exact key _ _ _ rfl
                  | refine sat_bind (fun vm' => vm'.registers_ = vm.registers_)
                      (key _ _ _ (by first | assumption | rfl)) (fun _ _ => ?_))

theorem expect_sat (vm : Rvm) (r : Nat) :
    Sat (EXPECT_REG_EXISTS vm r) (fun _ => r < RegSize) (fun vm' => vm' = vm) := by
  unfold EXPECT_REG_EXISTS
  split_ifs with h
  · exact (rfl : vm = vm)
  · exact sat_ok (by omega)

theorem expect_any (vm : Rvm) (r : Nat) (Q : Rvm → Prop) (hQ : Q vm) :
    Sat (EXPECT_REG_EXISTS vm r) (fun _ => True) Q :=
  sat_mono (expect_sat vm r) (fun _ _ => trivial) (fun _ h => by rw [h]; exact hQ)

theorem addIp_fg (vm : Rvm) (n : Nat) : (addIp vm n).registers_ Fg = vm.registers_ Fg := by
  simp

theorem push_sat (vm : Rvm) (x size : Nat) (Q : Rvm → Prop) :
    Sat (push_ vm x size) (fun vm' => ∀ q, q ≠ Sp → vm'.registers_ q = vm.registers_ q) Q := by
  unfold push_
  refine sat_bind (fun vm' => vm'.registers_ = vm.registers_) (load_num_sat _ _ _ _ _)
    (fun vm1 h1 => ?_)
  exact sat_pure (fun q hq => by simp [h1, hq])

theorem pop_sat (vm : Rvm) (size : Nat) (Q : Rvm → Prop) :
    Sat (pop_ vm size) (fun p => ∀ q, q ≠ Sp → p.2.registers_ q = vm.registers_ q) Q := by
  unfold pop_
  refine sat_bind (fun _ => True) (get_num_sat _ _ _ _) (fun x _ => ?_)
  exact sat_pure (fun q hq => by simp [hq])

theorem run_interrupt_sat (vm : Rvm) (i : Nat) (Q : Rvm → Prop) :
    Sat (run_interrupt_ vm i) (fun vm' => ∀ q, q ≠ Ir → vm'.registers_ q = vm.registers_ q) Q := by
  unfold run_interrupt_
  split_ifs
  · exact sat_ok (fun _ _ => rfl)
  · split
    · exact sat_ok (fun _ _ => rfl)
    · trivial
  · split
    · exact sat_ok (fun q hq => by simp [hq])
    · exact sat_ok (fun q hq => by simp [hq])
  · exact sat_ok (fun _ _ => rfl)

theorem fgSpec_flags (vm vm1 : Rvm) (x : Nat) (b : Bool) :
    (b = true → isFlag ((update_flags_ vm1 x).registers_ Fg)) ∧
      ((update_flags_ vm1 x).registers_ Fg = vm.registers_ Fg ∨
        isFlag ((update_flags_ vm1 x).registers_ Fg)) :=
  ⟨fun _ => update_flags_isFlag _ _, Or.inr (update_flags_isFlag _ _)⟩

theorem fgSpec_flags_addIp (vm vm1 : Rvm) (x n : Nat) (b : Bool) :
    (b = true → isFlag ((addIp (update_flags_ vm1 x) n).registers_ Fg)) ∧
      ((addIp (update_flags_ vm1 x) n).registers_ Fg = vm.registers_ Fg ∨
        isFlag ((addIp (update_flags_ vm1 x) n).registers_ Fg)) := by
  rw [addIp_fg]; exact fgSpec_flags _ _ _ _

theorem execArith_fg (vm : Rvm) (opCode : Nat) : FgSpec vm true (execArith vm opCode) := by
  unfold execArith FgSpec
  refine sat_bind (fun _ => True) (readMem_sat _ _ _) (fun b _ => ?_)
  refine sat_bind (fun _ => True) (expect_any _ _ _ rfl) (fun _ _ => ?_)
  refine sat_bind (fun _ => True) (expect_any _ _ _ rfl) (fun _ _ => ?_)
  exact sat_pure (fgSpec_flags_addIp _ _ _ _ _)

theorem execMov_fg (vm : Rvm) : FgSpec vm true (execMov vm) := by
  unfold execMov FgSpec
  refine sat_bind (fun _ => True) (readMem_sat _ _ _) (fun b _ => ?_)
  refine sat_bind (fun _ => True) (expect_any _ _ _ (addIp_fg _ _)) (fun _ _ => ?_)
  split_ifs
  · refine sat_bind (fun _ => True) (get_num_sat _ _ _ _) (fun x _ => ?_)
    exact sat_pure (fgSpec_flags _ _ _ _)
  · refine sat_bind (fun _ => True) (readMem_sat _ _ _) (fun b _ => ?_)
    refine sat_bind (fun _ => True) (expect_any _ _ _ (by simp)) (fun _ _ => ?_)
    exact sat_pure (fgSpec_flags _ _ _ _)
  · refine sat_bind (fun _ => True) (readMem_sat _ _ _) (fun b _ => ?_)
    refine sat_bind (fun _ => True) (expect_any _ _ _ (addIp_fg _ _)) (fun _ _ => ?_)
    refine sat_bind (fun _ => True) (get_num_sat _ _ _ _) (fun x _ => ?_)
    refine sat_bind (fun _ => True) (readMem_sat _ _ _) (fun b _ => ?_)
    refine sat_bind (fun _ => True) (get_num_sat _ _ _ _) (fun x _ => ?_)
    exact sat_pure (fgSpec_flags _ _ _ _)
  · refine sat_bind (fun _ => True) (readMem_sat _ _ _) (fun b _ => ?_)
    refine sat_bind (fun _ => True) (expect_any _ _ _ (by simp)) (fun _ _ => ?_)
    refine sat_bind (fun _ => True) (get_num_sat _ _ _ _) (fun x _ => ?_)
    refine sat_bind (fun _ => True) (sat_mono (load_num_sat _ _ _ _ _) (fun _ _ => trivial)
      (fun _ h => h)) (fun vm1 _ => ?_)
    refine sat_bind (fun _ => True) (get_num_sat _ _ _ _) (fun x _ => ?_)
    exact sat_pure (fgSpec_flags _ _ _ _)

theorem execPush_fg (vm : Rvm) : FgSpec vm false (execPush vm) := by
  unfold execPush FgSpec
  refine sat_bind (fun _ => True) (readMem_sat _ _ _) (fun b _ => ?_)
  refine sat_bind (fun _ => True) (expect_any _ _ _ rfl) (fun _ _ => ?_)
  refine sat_mono (push_sat _ _ _ _) (fun vm' h => ?_) (fun _ h => h)
  exact ⟨by simp, Or.inl (by rw [h Fg (by decide)]; simp)⟩

theorem execPop_fg (vm : Rvm) : FgSpec vm true (execPop vm) := by
  unfold execPop FgSpec
  refine sat_bind (fun _ => True) (readMem_sat _ _ _) (fun b _ => ?_)
  refine sat_bind (fun _ => True) (expect_any _ _ _ rfl) (fun _ _ => ?_)
  refine sat_bind (fun _ => True) (sat_mono (pop_sat _ _ _) (fun _ _ => trivial)
    (fun _ h => h)) (fun p _ => ?_)
  exact sat_pure (fgSpec_flags _ _ _ _)

theorem execJmp_fg (vm : Rvm) : FgSpec vm false (execJmp vm) := by
  unfold execJmp FgSpec
  refine sat_bind (fun _ => True) (readMem_sat _ _ _) (fun b _ => ?_)
  refine sat_bind (fun _ => True) (get_num_sat _ _ _ _) (fun x _ => ?_)
  split_ifs <;> exact sat_pure ⟨by simp, Or.inl (by simp)⟩

theorem execCall_fg (vm : Rvm) : FgSpec vm false (execCall vm) := by
  unfold execCall FgSpec
  refine sat_bind (fun _ => True) (get_num_sat _ _ _ _) (fun x _ => ?_)
  refine sat_bind (fun vm' => vm'.registers_ Fg = vm.registers_ Fg)
    (sat_mono (push_sat _ _ _ _) (fun vm' h => by rw [h Fg (by decide)]; simp) (fun _ h => h))
    (fun vm1 h1 => ?_)
  exact sat_pure ⟨by simp, Or.inl (by simp [h1])⟩

theorem execRet_fg (vm : Rvm) : FgSpec vm false (execRet vm) := by
  unfold execRet FgSpec
  refine sat_bind (fun p => p.2.registers_ Fg = vm.registers_ Fg)
    (sat_mono (pop_sat _ _ _) (fun p h => h Fg (by decide)) (fun _ h => h)) (fun p hp => ?_)
  exact sat_pure ⟨by simp, Or.inl (by simp [hp])⟩

theorem execInt_fg (vm : Rvm) : FgSpec vm false (execInt vm) := by
  unfold execInt FgSpec
  refine sat_bind (fun _ => True) (readMem_sat _ _ _) (fun b _ => ?_)
  split_ifs
  · exact addIp_fg _ _
  · refine sat_mono (run_interrupt_sat _ _ _) (fun vm' h => ?_) (fun _ h => h)
    exact ⟨by simp, Or.inl (by rw [h Fg (by decide)]; simp)⟩

theorem execCmp_fg (vm : Rvm) : FgSpec vm true (execCmp vm) := by
  unfold execCmp FgSpec
  refine sat_bind (fun _ => True) (readMem_sat _ _ _) (fun b _ => ?_)
  refine sat_bind (fun _ => True) (expect_any _ _ _ rfl) (fun _ _ => ?_)
  refine sat_bind (fun _ => True) (expect_any _ _ _ (addIp_fg _ _)) (fun _ _ => ?_)
  exact sat_pure (fgSpec_flags _ _ _ _)

theorem execTest_fg (vm : Rvm) : FgSpec vm true (execTest vm) := by
  unfold execTest FgSpec
  refine sat_bind (fun _ => True) (readMem_sat _ _ _) (fun b _ => ?_)
  refine sat_bind (fun _ => True) (expect_any _ _ _ (addIp_fg _ _)) (fun _ _ => ?_)
  exact sat_pure (fgSpec_flags _ _ _ _)

theorem fgSpec_addIp {vm : Rvm} {n : Nat} {b b' : Bool} {x : Exec Rvm}
    (h : FgSpec (addIp vm n) b x) (hb : b' = true → b = true) : FgSpec vm b' x := by
  unfold FgSpec at *
  refine sat_mono h (fun vm' h' => ⟨fun hb' => h'.1 (hb hb'), ?_⟩) (fun vm' h' => ?_)
  · rw [← addIp_fg vm n]; exact h'.2
  · rw [← addIp_fg vm n]; exact h'

theorem ok_bind {α β : Type} (a : α) (f : α → Exec β) : ((Except.ok a : Exec α) >>= f) = f a :=
  rfl

theorem step_eq (vm : Rvm) (opCode : Nat) (hop : readMem vm (vm.registers_ Ip) = .ok opCode) :
    step vm =
      if opCode ≤ 5 then execArith (addIp vm 1) opCode
      else if opCode = 6 then execMov (addIp vm 1)
      else if opCode = 7 then execPush (addIp vm 1)
      else if opCode = 8 then execPop (addIp vm 1)
      else if opCode = 9 then execJmp (addIp vm 1)
      else if opCode = 10 then execCall (addIp vm 1)
      else if opCode = 11 then execRet (addIp vm 1)
      else if opCode = 12 then execInt (addIp vm 1)
      else if opCode = 13 then execCmp (addIp vm 1)
      else if opCode = 14 then execTest (addIp vm 1)
      else .error (.fault (addIp vm 1)
        ("invalid opcode at " ++ toString ((addIp vm 1).registers_ Ip))) := by
  unfold step
  rw [hop, ok_bind]

theorem step_fg (vm : Rvm) (opCode : Nat) (hop : readMem vm (vm.registers_ Ip) = .ok opCode) :
    FgSpec vm (updatesFlags opCode) (step vm) := by
  rw [step_eq vm opCode hop]
  by_cases h0 : opCode ≤ 5
  · rw [if_pos h0]
    exact fgSpec_addIp (execArith_fg _ _) (fun _ => rfl)
  rw [if_neg h0]
  by_cases h1 : opCode = 6
  · rw [if_pos h1]
    exact fgSpec_addIp (execMov_fg _) (fun _ => rfl)
  rw [if_neg h1]
  by_cases h2 : opCode = 7
  · rw [if_pos h2]
    exact fgSpec_addIp (execPush_fg _) (fun hb => by subst h2; simp [updatesFlags] at hb)
  rw [if_neg h2]
  by_cases h3 : opCode = 8
  · rw [if_pos h3]
    exact fgSpec_addIp (execPop_fg _) (fun _ => rfl)
  rw [if_neg h3]
  by_cases h4 : opCode = 9
  · rw [if_pos h4]
    exact fgSpec_addIp (execJmp_fg _) (fun hb => by subst h4; simp [updatesFlags] at hb)
  rw [if_neg h4]
  by_cases h5 : opCode = 10
  · rw [if_pos h5]
    exact fgSpec_addIp (execCall_fg _) (fun hb => by subst h5; simp [updatesFlags] at hb)
  rw [if_neg h5]
  by_cases h6 : opCode = 11
  · rw [if_pos h6]
    exact fgSpec_addIp (execRet_fg _) (fun hb => by subst h6; simp [updatesFlags] at hb)
  rw [if_neg h6]
  by_cases h7 : opCode = 12
  · rw [if_pos h7]
    exact fgSpec_addIp (execInt_fg _) (fun hb => by subst h7; simp [updatesFlags] at hb)
  rw [if_neg h7]
  by_cases h8 : opCode = 13
  · rw [if_pos h8]
    exact fgSpec_addIp (execCmp_fg _) (fun _ => rfl)
  rw [if_neg h8]
  by_cases h9 : opCode = 14
  · rw [if_pos h9]
    exact fgSpec_addIp (execTest_fg _) (fun _ => rfl)
  rw [if_neg h9]
  exact addIp_fg _ _

theorem step_reads {b : Rvm} {r : Except Abort Rvm} (hstep : step b = r)
    (hr : r ≠ .error .undefined) : ∃ opCode, readMem b (b.registers_ Ip) = .ok opCode := by
  unfold readMem at *
  cases hm : b.stack_[b.registers_ Ip]? with
  | some v => exact ⟨v, rfl⟩
  | none =>
    exfalso
    apply hr
    rw [← hstep]
    unfold step readMem
    rw [hm]
    rfl

theorem step_ok_fg {b c : Rvm} (hstep : step b = .ok c) :
    c.registers_ Fg = b.registers_ Fg ∨ isFlag (c.registers_ Fg) := by
  obtain ⟨opCode, hop⟩ := step_reads hstep (by simp)
  exact (sat_of_ok (step_fg b opCode hop) hstep).2

theorem step_fault_fg {b c : Rvm} {m : String} (hstep : step b = .error (.fault c m)) :
    c.registers_ Fg = b.registers_ Fg := by
  obtain ⟨opCode, hop⟩ := step_reads hstep (by simp)
  exact sat_of_fault (step_fg b opCode hop) hstep

theorem later_fg_isFlag {a b : Rvm} (h : Later a b) (ha : isFlag (a.registers_ Fg)) :
    isFlag (b.registers_ Fg) := by
  induction h with
  | refl => exact ha
  | stepped _ _ hstep ih =>
    rcases step_ok_fg hstep with h2 | h2
    · rw [h2]; exact ih
    · exact h2
  | faulted _ _ hstep ih =>
    rw [step_fault_fg hstep]; exact ih

theorem later_fg_zero_or_flag {a b : Rvm} (h : Later a b)
    (ha : a.registers_ Fg = 0 ∨ isFlag (a.registers_ Fg)) :
    b.registers_ Fg = 0 ∨ isFlag (b.registers_ Fg) := by
  induction h with
  | refl => exact ha
  | stepped _ _ hstep ih =>
    rcases step_ok_fg hstep with h2 | h2
    · rw [h2]; exact ih
    · exact Or.inr h2
  | faulted _ _ hstep ih =>
    rw [step_fault_fg hstep]; exact ih

theorem load_fg {stackSize : Nat} {cin program : List Nat} {vm0 : Rvm}
    (h : load (Rvm.new stackSize cin) program = some vm0) : vm0.registers_ Fg = 0 := by
  unfold load at h
  split_ifs at h
  injection h with h
  subst h
  simp [Rvm.new]

/-- **C7.** In every state that `run` reaches from a freshly constructed machine, for every
program and host input, `FG` is `0` or exactly one of `NEG = 1`, `ZERO = 2`, `POS = 4`;
and once an instruction that updates the flags (arithmetic/logic, `mov`, `pop`, `cmp`,
`test`) has completed, `FG` is exactly one of `1, 2, 4` in every later state, whatever
the destination register of the instructions is (`FG` included). -/
theorem fg_holds_one_flag (stackSize : Nat) (cin program : List Nat) (vm0 : Rvm)
    (hload : load (Rvm.new stackSize cin) program = some vm0) :
    (∀ vm, Later vm0 vm → vm.registers_ Fg = 0 ∨ isFlag (vm.registers_ Fg)) ∧
    (∀ vm vm1 vm2 opCode, Later vm0 vm → running vm = true →
      readMem vm (vm.registers_ Ip) = .ok opCode → updatesFlags opCode = true →
      step vm = .ok vm1 → Later vm1 vm2 → isFlag (vm2.registers_ Fg)) := by
  refine ⟨fun vm h => later_fg_zero_or_flag h (Or.inl (load_fg hload)), ?_⟩
  intro vm vm1 vm2 opCode _ _ hop hupd hstep hlater
  exact later_fg_isFlag hlater ((sat_of_ok (step_fg vm opCode hop) hstep).1 hupd)

theorem nibbles_hi (d s : Nat) (hd : d < 16) (hs : s < 16) : (d * 16 + s) >>> 4 &&& 0xF = d := by
  have h : (0xF : Nat) = 2 ^ 4 - 1 := by norm_num
  rw [h, Nat.and_pow_two_sub_one_eq_mod, Nat.shiftRight_eq_div_pow]
  omega

theorem nibbles_lo (d s : Nat) (hs : s < 16) : (d * 16 + s) &&& 0xF = s := by
  have h : (0xF : Nat) = 2 ^ 4 - 1 := by norm_num
  rw [h, Nat.and_pow_two_sub_one_eq_mod]
  omega

@[simp] theorem readMem_addIp (vm : Rvm) (n a : Nat) : readMem (addIp vm n) a = readMem vm a := rfl

@[simp] theorem addIp_stack (vm : Rvm) (n : Nat) : (addIp vm n).stack_ = vm.stack_ := rfl

@[simp] theorem setReg_stack (vm : Rvm) (r v : Nat) : (setReg vm r v).stack_ = vm.stack_ := rfl

@[simp] theorem update_flags_stack (vm : Rvm) (x : Nat) : (update_flags_ vm x).stack_ = vm.stack_ := by
  unfold update_flags_; split_ifs <;> rfl

theorem update_flags_regs (vm : Rvm) (x q : Nat) (hx : x < 2 ^ 64) :
    (update_flags_ vm x).registers_ q = if q = Fg then flagOf x else vm.registers_ q := by
  have hbit : (x >>> 63 ≠ 0) ↔ x.testBit 63 = true := by
    rw [Nat.shiftRight_eq_div_pow, Nat.testBit_to_div_mod]
    simp only [decide_eq_true_eq]
    omega
  unfold update_flags_ flagOf
  by_cases h0 : x = 0
  · simp [h0]
  · by_cases h1 : x >>> 63 ≠ 0
    · rw [if_neg h0, if_pos h1, if_neg h0, if_pos (hbit.mp h1)]; simp
    · rw [if_neg h0, if_neg h1, if_neg h0, if_neg (fun h => h1 (hbit.mpr h))]; simp

theorem expect_ok (vm : Rvm) (r : Nat) (h : r < 13) : EXPECT_REG_EXISTS vm r = .ok () := by
  unfold EXPECT_REG_EXISTS
  rw [if_neg (by simp [RegSize]; omega)]

theorem not64_lt (x : Nat) : not64 x < 2 ^ 64 := by unfold not64; omega

/-- The value that the arithmetic/logic case computes for the destination. -/
theorem execArith_eq (vm : Rvm) (opCode d s : Nat) (hd : d < 13) (hs : s < 13)
    (hb : readMem vm (vm.registers_ Ip) = .ok (d * 16 + s)) :
    execArith vm opCode =
      .ok (addIp (update_flags_
        (setReg vm d
          (if opCode = 0 then (vm.registers_ d + vm.registers_ s) % 2 ^ 64
           else if opCode = 1 then
            (vm.registers_ d + (not64 (vm.registers_ s) + 1) % 2 ^ 64) % 2 ^ 64
           else if opCode = 2 then vm.registers_ d &&& vm.registers_ s
           else if opCode = 3 then vm.registers_ d ||| vm.registers_ s
           else if opCode = 4 then vm.registers_ d ^^^ vm.registers_ s
           else not64 (vm.registers_ s)))
        (if opCode = 0 then (vm.registers_ d + vm.registers_ s) % 2 ^ 64
           else if opCode = 1 then
            (vm.registers_ d + (not64 (vm.registers_ s) + 1) % 2 ^ 64) % 2 ^ 64
           else if opCode = 2 then vm.registers_ d &&& vm.registers_ s
           else if opCode = 3 then vm.registers_ d ||| vm.registers_ s
           else if opCode = 4 then vm.registers_ d ^^^ vm.registers_ s
           else not64 (vm.registers_ s))) 1) := by
  unfold execArith
  rw [hb, ok_bind]
  simp only [nibbles_hi d s (by omega) (by omega), nibbles_lo d s (by omega)]
  rw [expect_ok vm d hd, ok_bind, expect_ok vm s hs, ok_bind]
  simp [pure, Except.pure]

theorem arith_value_eq (opCode a b : Nat) (ha : a < 2 ^ 64) (hb : b < 2 ^ 64) :
    (if opCode = 0 then (a + b) % 2 ^ 64
     else if opCode = 1 then (a + (not64 b + 1) % 2 ^ 64) % 2 ^ 64
     else if opCode = 2 then a &&& b
     else if opCode = 3 then a ||| b
     else if opCode = 4 then a ^^^ b
     else not64 b) = arithValue opCode a b ∧ arithValue opCode a b < 2 ^ 64 := by
  unfold arithValue not64
  split_ifs
  · exact ⟨rfl, Nat.mod_lt _ (by norm_num)⟩
  · constructor <;> omega
  · exact ⟨rfl, Nat.and_lt_two_pow _ hb⟩
  · exact ⟨rfl, Nat.or_lt_two_pow ha hb⟩
  · exact ⟨rfl, Nat.xor_lt_two_pow ha hb⟩
  · constructor <;> omega

/-- **C8 (amended).** For every arithmetic/logic instruction (opcode `0 .. 5`) with operand
byte `dddd ssss`, both ids below 13 and the destination neither `FG` nor `IP`, one step
sets `reg[dst]` to the value the spec gives (`Add`: sum mod 2^64, `Sub`: difference mod
2^64, `And` / `Or` / `Xor`: bitwise, `Not`: complement of the source), where the source
value is `reg[src]`, except that for `src = IP` it is the address of the operand byte
(the `IP` of before the step plus one); it then sets `FG` to `ZERO` if the new `reg[dst]` is
`0`, to `NEG` if its bit 63 is set and to `POS` otherwise, and changes no other register
except `IP` and no memory byte. -/
theorem arith_step (vm : Rvm) (opCode dst src : Nat)
    (hregs : ∀ q, vm.registers_ q < 2 ^ 64)
    (hop : readMem vm (vm.registers_ Ip) = .ok opCode) (h5 : opCode ≤ 5)
    (hb : readMem vm ((vm.registers_ Ip + 1) % 2 ^ 64) = .ok (dst * 16 + src))
    (hd : dst < 13) (hs : src < 13) (hfg : dst ≠ Fg) (hip : dst ≠ Ip) :
    ∃ vm', step vm = .ok vm' ∧
      vm'.registers_ dst = arithValue opCode (vm.registers_ dst)
        (if src = Ip then (vm.registers_ Ip + 1) % 2 ^ 64 else vm.registers_ src) ∧
      vm'.registers_ Fg = flagOf (vm'.registers_ dst) ∧
      (∀ q, q ≠ dst → q ≠ Fg → q ≠ Ip → vm'.registers_ q = vm.registers_ q) ∧
      vm'.stack_ = vm.stack_ := by
  have hsrc : (addIp vm 1).registers_ src =
      (if src = Ip then (vm.registers_ Ip + 1) % 2 ^ 64 else vm.registers_ src) := by simp
  have hdst : (addIp vm 1).registers_ dst = vm.registers_ dst := by simp [hip]
  have hsv : (if src = Ip then (vm.registers_ Ip + 1) % 2 ^ 64 else vm.registers_ src) < 2 ^ 64 := by
    split_ifs
    · exact Nat.mod_lt _ (by norm_num)
    · exact hregs src
  obtain ⟨hval, hlt⟩ := arith_value_eq opCode (vm.registers_ dst) _ (hregs dst) hsv
  have hexec := execArith_eq (addIp vm 1) opCode dst src hd hs
    (by rw [readMem_addIp]; simpa using hb)
  rw [hsrc, hdst, hval] at hexec
  have hstep := step_eq vm opCode hop
  rw [if_pos h5, hexec] at hstep
  clear hexec hval
  generalize arithValue opCode (vm.registers_ dst)
    (if src = Ip then (vm.registers_ Ip + 1) % 2 ^ 64 else vm.registers_ src) = v at hstep hlt ⊢
  have hF : ∀ q, (addIp (update_flags_ (setReg (addIp vm 1) dst v) v) 1).registers_ q =
      if q = Ip then (vm.registers_ Ip + 1 + 1) % 2 ^ 64
      else if q = Fg then flagOf v else if q = dst then v else vm.registers_ q := by
    intro q
    rw [addIp_regs, update_flags_regs _ _ _ hlt, update_flags_regs _ _ _ hlt, setReg_regs,
      setReg_regs, addIp_regs, addIp_regs]
    by_cases h1 : q = Ip
    · subst h1
      have hne : ¬ (Ip = dst) := fun h => hip h.symm
      simp [hne]
    · simp [h1]
  refine ⟨_, hstep, ?_, ?_, ?_, ?_⟩
  · rw [hF]; simp [hip, hfg]
  · rw [hF, hF]; simp [hip, hfg]
  · intro q h1 h2 h3
    rw [hF]; simp [h1, h2, h3]
  · simp

/-- **C8 (as stated) fails.** The program `add r0, ip` (bytes `00 0A`) on a fresh machine:
both ids are below 13 and the destination `r0` is neither `FG` nor `IP`; `reg[r0]` and
`reg[IP]` are `0` before the step, so the claim gives `reg[r0] = (0 + 0) mod 2^64 = 0` and
`FG = ZERO = 2`, but the step leaves `reg[r0] = 1` and `FG = POS = 4`. -/
theorem arith_src_ip_counterexample :
    readMem (loaded 16 [0, 0x0A]) 0 = .ok 0 ∧
    readMem (loaded 16 [0, 0x0A]) 1 = .ok (0 * 16 + 10) ∧
    (loaded 16 [0, 0x0A]).registers_ 0 = 0 ∧ (loaded 16 [0, 0x0A]).registers_ Ip = 0 ∧
    arithValue 0 ((loaded 16 [0, 0x0A]).registers_ 0) ((loaded 16 [0, 0x0A]).registers_ Ip) = 0 ∧
    (dump (step (loaded 16 [0, 0x0A]))).map Prod.fst =
      some [1, 0, 0, 0, 0, 0, 0, 0, 0, 4, 2, 2, 2] :=
  ⟨rfl, rfl, rfl, rfl, by decide, by decide⟩

theorem arith_step_witness :
    ∃ vm', step (loaded 16 [1, 0x12]) = .ok vm' ∧
      vm'.registers_ 1 = arithValue 1 ((loaded 16 [1, 0x12]).registers_ 1)
        (if 2 = Ip then ((loaded 16 [1, 0x12]).registers_ Ip + 1) % 2 ^ 64
          else (loaded 16 [1, 0x12]).registers_ 2) ∧
      vm'.registers_ Fg = flagOf (vm'.registers_ 1) ∧
      (∀ q, q ≠ 1 → q ≠ Fg → q ≠ Ip → vm'.registers_ q = (loaded 16 [1, 0x12]).registers_ q) ∧
      vm'.stack_ = (loaded 16 [1, 0x12]).stack_ :=
  arith_step (loaded 16 [1, 0x12]) 1 1 2
    (by intro q; simp only [loaded, setReg_regs, Rvm.new]; split_ifs <;> norm_num)
    rfl (by decide) rfl (by decide) (by decide) (by decide) (by decide)

/-- **C9 (the code at a failing input).** The instruction `mov r0, byte [r0 + 1]`, assembled as
`06 80 00` followed by the offset `00 00 00 00 00 00 00 01`, on a fresh machine.  The
claim gives `addr = (reg[r0] + 1) mod 2^64 = 1` and `reg[r0] = memory[1] = 0x80` with
`FG = POS`.  The step reads the 8-byte offset from the source byte on (`IP` is not moved
past it), which gives `0`, takes the byte `memory[0] = 6` as the address, and loads
`memory[6] = 0`: it leaves `reg[r0] = 0`, `FG = ZERO = 2` and `IP = 10`. -/
theorem mov_load_failing_input :
    (Rasm.translateSource "mov r0, byte [r0 + 1]").map (fun t => t.fout) =
      some [6, 0x80, 0x00, 0, 0, 0, 0, 0, 0, 0, 1] ∧
    (loaded 32 [6, 0x80, 0x00, 0, 0, 0, 0, 0, 0, 0, 1]).registers_ 0 = 0 ∧
    readMem (loaded 32 [6, 0x80, 0x00, 0, 0, 0, 0, 0, 0, 0, 1]) ((0 + 1) % 2 ^ 64) = .ok 0x80 ∧
    (dump (step (loaded 32 [6, 0x80, 0x00, 0, 0, 0, 0, 0, 0, 0, 1]))).map Prod.fst =
      some [0, 0, 0, 0, 0, 0, 0, 0, 0, 2, 10, 11, 11] :=
  ⟨by decide, rfl, rfl, by decide⟩

/-- **C10 (the code at a failing input).** The instruction `mov r1, byte [r0]`, assembled as the
eleven bytes `06 81 00 00 00 00 00 00 00 00 00`, completes without fault on a fresh
machine, transfers no control and has `r1` as destination; the claim gives `IP = 11`
after the step, the step leaves `IP = 10`. -/
theorem mov_load_ip_failing_input :
    (Rasm.translateSource "mov r1, byte [r0]").map (fun t => t.fout) =
      some [6, 0x81, 0x00, 0, 0, 0, 0, 0, 0, 0, 0] ∧
    (loaded 32 [6, 0x81, 0x00, 0, 0, 0, 0, 0, 0, 0, 0]).registers_ Ip = 0 ∧
    (dump (step (loaded 32 [6, 0x81, 0x00, 0, 0, 0, 0, 0, 0, 0, 0]))).map Prod.fst =
      some [0, 0, 0, 0, 0, 0, 0, 0, 0, 2, 10, 11, 11] :=
  ⟨by decide, rfl, by decide⟩

theorem fg_holds_one_flag_witness :
    load (Rvm.new 16 []) [14, 0] = some (loaded 16 [14, 0]) ∧
    ((∀ vm, Later (loaded 16 [14, 0]) vm → vm.registers_ Fg = 0 ∨ isFlag (vm.registers_ Fg)) ∧
    (∀ vm vm1 vm2 opCode, Later (loaded 16 [14, 0]) vm → running vm = true →
      readMem vm (vm.registers_ Ip) = .ok opCode → updatesFlags opCode = true →
      step vm = .ok vm1 → Later vm1 vm2 → isFlag (vm2.registers_ Fg))) :=
  ⟨rfl, fg_holds_one_flag 16 [] [14, 0] (loaded 16 [14, 0]) rfl⟩

end RVM

namespace RVM

theorem byte_testBit (num k i : Nat) :
    ((((num >>> k) &&& 0xFF) <<< k).testBit i) = (decide (k ≤ i ∧ i < k + 8) && num.testBit i) := by
  have h : (0xFF : Nat) = 2 ^ 8 - 1 := by norm_num
  rw [h, Nat.testBit_shiftLeft, Nat.testBit_and, Nat.testBit_shiftRight,
    Nat.testBit_two_pow_sub_one]
  by_cases hk : k ≤ i
  · have e : k + (i - k) = i := by omega
    rw [e]
    cases num.testBit i <;> simp [hk]
    omega
  · simp [hk]

theorem low_byte_testBit (num i : Nat) :
    ((num &&& 0xFF).testBit i) = (decide (i < 8) && num.testBit i) := by
  have h : (0xFF : Nat) = 2 ^ 8 - 1 := by norm_num
  rw [h, Nat.testBit_and, Nat.testBit_two_pow_sub_one]
  cases num.testBit i <;> simp

theorem join8 (num : Nat) :
    (((num >>> 56) &&& 0xFF) <<< 56 ||| ((num >>> 48) &&& 0xFF) <<< 48
      ||| ((num >>> 40) &&& 0xFF) <<< 40 ||| ((num >>> 32) &&& 0xFF) <<< 32
      ||| ((num >>> 24) &&& 0xFF) <<< 24 ||| ((num >>> 16) &&& 0xFF) <<< 16
      ||| ((num >>> 8) &&& 0xFF) <<< 8 ||| (num &&& 0xFF)) = num % 2 ^ 64 := by
  apply Nat.eq_of_testBit_eq
  intro i
  simp only [Nat.testBit_or, byte_testBit, low_byte_testBit, Nat.testBit_mod_two_pow]
  cases num.testBit i
  · simp
  · simp only [Bool.and_true, ← Bool.decide_or, decide_eq_decide]
    omega

theorem join4 (num : Nat) :
    (((num >>> 24) &&& 0xFF) <<< 24 ||| ((num >>> 16) &&& 0xFF) <<< 16
      ||| ((num >>> 8) &&& 0xFF) <<< 8 ||| (num &&& 0xFF)) = num % 2 ^ 32 := by
  apply Nat.eq_of_testBit_eq
  intro i
  simp only [Nat.testBit_or, byte_testBit, low_byte_testBit, Nat.testBit_mod_two_pow]
  cases num.testBit i
  · simp
  · simp only [Bool.and_true, ← Bool.decide_or, decide_eq_decide]
    omega

theorem join2 (num : Nat) :
    (((num >>> 8) &&& 0xFF) <<< 8 ||| (num &&& 0xFF)) = num % 2 ^ 16 := by
  apply Nat.eq_of_testBit_eq
  intro i
  simp only [Nat.testBit_or, byte_testBit, low_byte_testBit, Nat.testBit_mod_two_pow]
  cases num.testBit i
  · simp
  · simp only [Bool.and_true, ← Bool.decide_or, decide_eq_decide]
    omega

theorem join1 (num : Nat) : (num &&& 0xFF) = num % 2 ^ 8 := by
  have h : (0xFF : Nat) = 2 ^ 8 - 1 := by norm_num
  rw [h, Nat.and_pow_two_sub_one_eq_mod]

end RVM

namespace RVM

theorem width_pos (size : Nat) : 0 < width size := by
  unfold width; split_ifs <;> norm_num

theorem width_eq (size : Nat) (h : size ≤ 3) : width size = 2 ^ size := by
  interval_cases size <;> rfl

theorem shift_eq_width (size : Nat) (h : size ≤ 3) : 1 <<< size = width size := by
  interval_cases size <;> rfl

theorem sizeBytes_length (size num : Nat) : (sizeBytes size num).length = width size := by
  unfold sizeBytes width; split_ifs <;> rfl

theorem storeBytes_length (bs : List Nat) : ∀ (stack : List Nat) (adr : Nat),
    (storeBytes stack adr bs).length = stack.length := by
  induction bs with
  | nil => intro stack adr; rfl
  | cons b bs ih => intro stack adr; rw [storeBytes, ih, List.length_set]

theorem storeBytes_outside (bs : List Nat) : ∀ (stack : List Nat) (adr j : Nat),
    (j < adr ∨ adr + bs.length ≤ j) → (storeBytes stack adr bs)[j]? = stack[j]? := by
  induction bs with
  | nil => intro stack adr j _; rfl
  | cons b bs ih =>
    intro stack adr j h
    rw [storeBytes, ih _ _ _ (by simp only [List.length_cons] at h; omega),
      List.getElem?_set_ne (by simp only [List.length_cons] at h; omega)]

theorem storeBytes_inside (bs : List Nat) : ∀ (stack : List Nat) (adr k : Nat),
    adr + bs.length ≤ stack.length → k < bs.length →
    (storeBytes stack adr bs)[adr + k]? = bs[k]? := by
  induction bs with
  | nil => intro stack adr k _ hk; simp at hk
  | cons b bs ih =>
    intro stack adr k hlen hk
    simp only [List.length_cons] at hlen hk
    rw [storeBytes]
    cases k with
    | zero =>
      show (storeBytes (stack.set adr b) (adr + 1) bs)[adr]? = _
      rw [storeBytes_outside bs (stack.set adr b) (adr + 1) adr (Or.inl (by omega)),
        List.getElem?_set_eq_of_lt _ (by omega)]
      simp
    | succ k =>
      have e : adr + (k + 1) = adr + 1 + k := by omega
      rw [e, ih _ _ _ (by rw [List.length_set]; omega) (by omega), List.getElem?_cons_succ]

theorem storeBytes_take (bs stack : List Nat) (adr : Nat) (h : adr + bs.length ≤ stack.length) :
    ((storeBytes stack adr bs).drop adr).take bs.length = bs := by
  apply List.ext_getElem?
  intro k
  by_cases hk : k < bs.length
  · rw [List.getElem?_take_of_lt hk, List.getElem?_drop, storeBytes_inside _ _ _ _ h hk]
  · rw [List.getElem?_eq_none (by simp; omega), List.getElem?_eq_none (by omega)]

theorem writeMem_eq (vm : Rvm) (adr b : Nat) (h : adr < vm.stack_.length) :
    writeMem vm adr b = .ok { vm with stack_ := vm.stack_.set adr b } := by
  unfold writeMem; rw [if_pos h]

theorem writeMem_out (vm : Rvm) (adr b : Nat) (h : ¬ adr < vm.stack_.length) :
    writeMem vm adr b = .error .undefined := by
  unfold writeMem; rw [if_neg h]

theorem readMem_eq (vm : Rvm) (adr b : Nat) (h : vm.stack_[adr]? = some b) :
    readMem vm adr = .ok b := by
  unfold readMem; rw [h]

theorem readMem_out (vm : Rvm) (adr : Nat) (h : ¬ adr < vm.stack_.length) :
    readMem vm adr = .error .undefined := by
  unfold readMem; rw [List.getElem?_eq_none (by omega)]

theorem readMem_ok_iff (vm : Rvm) (adr b : Nat) :
    readMem vm adr = .ok b ↔ vm.stack_[adr]? = some b := by
  unfold readMem
  cases h : vm.stack_[adr]? <;> simp

/-- The method `load_num_` with the range inside the memory: the bytes of `sizeBytes` are
written from `adr` on. -/
theorem load_num_eq (vm : Rvm) (size adr num : Nat) (h : adr + width size ≤ vm.stack_.length) :
    load_num_ vm size adr num =
      .ok { vm with stack_ := storeBytes vm.stack_ adr (sizeBytes size num) } := by
  unfold load_num_ sizeBytes
  unfold width at h
  split_ifs at h ⊢
  · rw [writeMem_eq _ _ _ (by omega), ok_bind]
    rw [writeMem_eq _ _ _ (by first | omega | (simp only [List.length_set]; omega)), ok_bind]
    rw [writeMem_eq _ _ _ (by first | omega | (simp only [List.length_set]; omega)), ok_bind]
    rw [writeMem_eq _ _ _ (by first | omega | (simp only [List.length_set]; omega)), ok_bind]
    rw [writeMem_eq _ _ _ (by first | omega | (simp only [List.length_set]; omega)), ok_bind]
    rw [writeMem_eq _ _ _ (by first | omega | (simp only [List.length_set]; omega)), ok_bind]
    rw [writeMem_eq _ _ _ (by first | omega | (simp only [List.length_set]; omega)), ok_bind]
    rw [writeMem_eq _ _ _ (by first | omega | (simp only [List.length_set]; omega))]
    rfl
  · rw [writeMem_eq _ _ _ (by omega), ok_bind]
    rw [writeMem_eq _ _ _ (by first | omega | (simp only [List.length_set]; omega)), ok_bind]
    rw [writeMem_eq _ _ _ (by first | omega | (simp only [List.length_set]; omega)), ok_bind]
    rw [writeMem_eq _ _ _ (by first | omega | (simp only [List.length_set]; omega))]
    rfl
  · rw [writeMem_eq _ _ _ (by omega), ok_bind]
    rw [writeMem_eq _ _ _ (by first | omega | (simp only [List.length_set]; omega))]
    rfl
  · rw [writeMem_eq _ _ _ (by omega)]
    rfl

end RVM

namespace RVM

theorem undefined_of {α : Type} (x : Exec α) (hs : Sat x (fun _ => True) (fun _ => False))
    (hok : ∀ a, x ≠ .ok a) : x = .error .undefined := by
  cases x with
  | ok a => exact absurd rfl (hok a)
  | error e =>
    cases e with
    | fault vm m => exact hs.elim
    | undefined => rfl

theorem readMem_lt (vm : Rvm) (adr b : Nat) (h : readMem vm adr = .ok b) :
    adr < vm.stack_.length := by
  by_contra hc
  rw [readMem_out vm adr hc] at h
  cases h

theorem writeMem_ok (vm vm1 : Rvm) (adr b : Nat) (h : writeMem vm adr b = .ok vm1) :
    adr < vm.stack_.length ∧ vm1.stack_.length = vm.stack_.length := by
  unfold writeMem at h
  split_ifs at h with hlt
  cases h
  exact ⟨hlt, by simp⟩

/-- The method `get_num_` reads outside the memory when its range is not inside it. -/
theorem get_num_out (vm : Rvm) (size adr : Nat) (h : ¬ adr + width size ≤ vm.stack_.length) :
    get_num_ vm size adr = .error .undefined := by
  apply undefined_of _ (get_num_sat vm size adr _)
  intro v hv
  unfold width at h
  unfold get_num_ at hv
  split_ifs at h hv
  · simp only [bind_ok_iff] at hv
    obtain ⟨_, _, _, _, _, _, _, _, _, _, _, _, _, _, b7, h7, _⟩ := hv
    have := readMem_lt _ _ _ h7
    omega
  · simp only [bind_ok_iff] at hv
    obtain ⟨_, _, _, _, _, _, b3, h3, _⟩ := hv
    have := readMem_lt _ _ _ h3
    omega
  · simp only [bind_ok_iff] at hv
    obtain ⟨_, _, b1, h1, _⟩ := hv
    have := readMem_lt _ _ _ h1
    omega
  · simp only [bind_ok_iff] at hv
    obtain ⟨b0, h0, _⟩ := hv
    have := readMem_lt _ _ _ h0
    omega

/-- The method `load_num_` writes outside the memory when its range is not inside it. -/
theorem load_num_out (vm : Rvm) (size adr num : Nat)
    (h : ¬ adr + width size ≤ vm.stack_.length) :
    load_num_ vm size adr num = .error .undefined := by
  apply undefined_of _ (sat_mono (load_num_sat vm size adr num _) (fun _ _ => trivial)
    (fun _ h => h))
  intro v hv
  unfold width at h
  unfold load_num_ at hv
  split_ifs at h hv
  · simp only [bind_ok_iff] at hv
    obtain ⟨v0, h0, v1, h1, v2, h2, v3, h3, v4, h4, v5, h5, v6, h6, h7⟩ := hv
    have a0 := writeMem_ok _ _ _ _ h0
    have a1 := writeMem_ok _ _ _ _ h1
    have a2 := writeMem_ok _ _ _ _ h2
    have a3 := writeMem_ok _ _ _ _ h3
    have a4 := writeMem_ok _ _ _ _ h4
    have a5 := writeMem_ok _ _ _ _ h5
    have a6 := writeMem_ok _ _ _ _ h6
    have a7 := writeMem_ok _ _ _ _ h7
    omega
  · simp only [bind_ok_iff] at hv
    obtain ⟨v0, h0, v1, h1, v2, h2, h3⟩ := hv
    have a0 := writeMem_ok _ _ _ _ h0
    have a1 := writeMem_ok _ _ _ _ h1
    have a2 := writeMem_ok _ _ _ _ h2
    have a3 := writeMem_ok _ _ _ _ h3
    omega
  · simp only [bind_ok_iff] at hv
    obtain ⟨v0, h0, h1⟩ := hv
    have a0 := writeMem_ok _ _ _ _ h0
    have a1 := writeMem_ok _ _ _ _ h1
    omega
  · have a0 := writeMem_ok _ _ _ _ hv
    omega

theorem get_num_congr (vm vm' : Rvm) (size adr : Nat)
    (h : ∀ k, k < width size → vm'.stack_[adr + k]? = vm.stack_[adr + k]?) :
    get_num_ vm' size adr = get_num_ vm size adr := by
  have hr : ∀ k, k < width size → readMem vm' (adr + k) = readMem vm (adr + k) := by
    intro k hk
    unfold readMem
    rw [h k hk]
  unfold width at hr
  unfold get_num_
  split_ifs at hr ⊢
  · have e0 := hr 0 (by omega)
    rw [Nat.add_zero] at e0
    rw [e0, hr 1 (by omega), hr 2 (by omega), hr 3 (by omega), hr 4 (by omega),
      hr 5 (by omega), hr 6 (by omega), hr 7 (by omega)]
  · have e0 := hr 0 (by omega)
    rw [Nat.add_zero] at e0
    rw [e0, hr 1 (by omega), hr 2 (by omega), hr 3 (by omega)]
  · have e0 := hr 0 (by omega)
    rw [Nat.add_zero] at e0
    rw [e0, hr 1 (by omega)]
  · have e0 := hr 0 (by omega)
    rw [Nat.add_zero] at e0
    rw [e0]

end RVM

namespace RVM

theorem readMem_stored (vm' : Rvm) (stack bs : List Nat) (adr k : Nat)
    (hs : vm'.stack_ = storeBytes stack adr bs) (hin : adr + bs.length ≤ stack.length)
    (hk : k < bs.length) : readMem vm' (adr + k) = .ok (bs.get ⟨k, hk⟩) := by
  apply readMem_eq
  rw [hs, storeBytes_inside _ _ _ _ hin hk, List.getElem?_eq_getElem hk]
  rfl

theorem get_num_bytes8 (vm' : Rvm) (adr b0 b1 b2 b3 b4 b5 b6 b7 : Nat)
    (h : ∀ k (hk : k < 8), readMem vm' (adr + k) =
      .ok ([b0, b1, b2, b3, b4, b5, b6, b7].get ⟨k, hk⟩)) :
    get_num_ vm' 3 adr = .ok (b0 <<< 56 ||| b1 <<< 48 ||| b2 <<< 40 ||| b3 <<< 32
      ||| b4 <<< 24 ||| b5 <<< 16 ||| b6 <<< 8 ||| b7) := by
  have e0 := h 0 (by omega)
  rw [Nat.add_zero] at e0
  unfold get_num_
  rw [if_pos rfl, e0, ok_bind, h 1 (by omega), ok_bind, h 2 (by omega), ok_bind,
    h 3 (by omega), ok_bind, h 4 (by omega), ok_bind, h 5 (by omega), ok_bind,
    h 6 (by omega), ok_bind, h 7 (by omega), ok_bind]
  simp only [extend_byte_logical_, Nat.zero_or, pure, Except.pure]
  rfl

theorem get_num_bytes4 (vm' : Rvm) (adr b0 b1 b2 b3 : Nat)
    (h : ∀ k (hk : k < 4), readMem vm' (adr + k) = .ok ([b0, b1, b2, b3].get ⟨k, hk⟩)) :
    get_num_ vm' 2 adr = .ok (b0 <<< 24 ||| b1 <<< 16 ||| b2 <<< 8 ||| b3) := by
  have e0 := h 0 (by omega)
  rw [Nat.add_zero] at e0
  unfold get_num_
  rw [if_neg (by decide), if_pos rfl, e0, ok_bind, h 1 (by omega), ok_bind, h 2 (by omega),
    ok_bind, h 3 (by omega), ok_bind]
  simp only [extend_byte_logical_, Nat.zero_or, pure, Except.pure]
  rfl

theorem get_num_bytes2 (vm' : Rvm) (adr b0 b1 : Nat)
    (h : ∀ k (hk : k < 2), readMem vm' (adr + k) = .ok ([b0, b1].get ⟨k, hk⟩)) :
    get_num_ vm' 1 adr = .ok (b0 <<< 8 ||| b1) := by
  have e0 := h 0 (by omega)
  rw [Nat.add_zero] at e0
  unfold get_num_
  rw [if_neg (by decide), if_neg (by decide), if_pos rfl, e0, ok_bind, h 1 (by omega), ok_bind]
  simp [extend_byte_logical_, pure, Except.pure]

theorem get_num_bytes1 (vm' : Rvm) (size adr b0 : Nat) (h3 : size ≠ 3) (h2 : size ≠ 2)
    (h1 : size ≠ 1) (h : readMem vm' adr = .ok b0) :
    get_num_ vm' size adr = .ok b0 := by
  unfold get_num_
  rw [if_neg h3, if_neg h2, if_neg h1, h, ok_bind]
  simp [extend_byte_logical_, pure, Except.pure]

/-- Reading back with `get_num_` what `load_num_` has written at the same address with the same
size yields the value reduced to that size. -/
theorem get_num_stored (vm' : Rvm) (stack : List Nat) (size adr num : Nat)
    (hs : vm'.stack_ = storeBytes stack adr (sizeBytes size num))
    (hin : adr + width size ≤ stack.length) :
    get_num_ vm' size adr = .ok (num % 2 ^ (8 * width size)) := by
  by_cases h3 : size = 3
  · subst h3
    rw [get_num_bytes8 vm' adr _ _ _ _ _ _ _ _
      (fun k hk => readMem_stored vm' stack (sizeBytes 3 num) adr k hs hin hk), join8]
    rfl
  by_cases h2 : size = 2
  · subst h2
    rw [get_num_bytes4 vm' adr _ _ _ _
      (fun k hk => readMem_stored vm' stack (sizeBytes 2 num) adr k hs hin hk), join4]
    rfl
  by_cases h1 : size = 1
  · subst h1
    rw [get_num_bytes2 vm' adr _ _
      (fun k hk => readMem_stored vm' stack (sizeBytes 1 num) adr k hs hin hk), join2]
    rfl
  · have hb : sizeBytes size num = [num &&& 0xFF] := by
      unfold sizeBytes; rw [if_neg h3, if_neg h2, if_neg h1]
    have hw : width size = 1 := by unfold width; rw [if_neg h3, if_neg h2, if_neg h1]
    rw [hb] at hs
    have e0 := readMem_stored vm' stack [num &&& 0xFF] adr 0 hs (by rw [hw] at hin; exact hin)
      (by simp)
    rw [Nat.add_zero] at e0
    rw [get_num_bytes1 vm' size adr _ h3 h2 h1 e0, hw]
    show Except.ok (num &&& 0xFF) = _
    rw [join1]

theorem or_step (a b k : Nat) (hb : b < 2 ^ k) : a <<< k ||| b = a * 2 ^ k + b := by
  rw [Nat.shiftLeft_eq, Nat.mul_comm, Nat.mul_add_lt_is_or hb]

theorem join_value (b0 b1 b2 b3 b4 b5 b6 b7 : Nat) (h1 : b1 < 256) (h2 : b2 < 256)
    (h3 : b3 < 256) (h4 : b4 < 256) (h5 : b5 < 256) (h6 : b6 < 256) (h7 : b7 < 256) :
    (b0 <<< 56 ||| b1 <<< 48 ||| b2 <<< 40 ||| b3 <<< 32 ||| b4 <<< 24 ||| b5 <<< 16
      ||| b6 <<< 8 ||| b7) = Rasm.beValue [b0, b1, b2, b3, b4, b5, b6, b7] := by
  simp only [Nat.or_assoc]
  have e6 : b6 <<< 8 ||| b7 = b6 * 2 ^ 8 + b7 := or_step _ _ _ (by omega)
  have e5 : b5 <<< 16 ||| (b6 * 2 ^ 8 + b7) = b5 * 2 ^ 16 + (b6 * 2 ^ 8 + b7) :=
    or_step _ _ _ (by norm_num; omega)
  have e4 : b4 <<< 24 ||| (b5 * 2 ^ 16 + (b6 * 2 ^ 8 + b7)) =
      b4 * 2 ^ 24 + (b5 * 2 ^ 16 + (b6 * 2 ^ 8 + b7)) := or_step _ _ _ (by norm_num; omega)
  have e3 : b3 <<< 32 ||| (b4 * 2 ^ 24 + (b5 * 2 ^ 16 + (b6 * 2 ^ 8 + b7))) =
      b3 * 2 ^ 32 + (b4 * 2 ^ 24 + (b5 * 2 ^ 16 + (b6 * 2 ^ 8 + b7))) :=
    or_step _ _ _ (by norm_num; omega)
  have e2 : b2 <<< 40 ||| (b3 * 2 ^ 32 + (b4 * 2 ^ 24 + (b5 * 2 ^ 16 + (b6 * 2 ^ 8 + b7)))) =
      b2 * 2 ^ 40 + (b3 * 2 ^ 32 + (b4 * 2 ^ 24 + (b5 * 2 ^ 16 + (b6 * 2 ^ 8 + b7)))) :=
    or_step _ _ _ (by norm_num; omega)
  have e1 : b1 <<< 48 |||
      (b2 * 2 ^ 40 + (b3 * 2 ^ 32 + (b4 * 2 ^ 24 + (b5 * 2 ^ 16 + (b6 * 2 ^ 8 + b7))))) =
      b1 * 2 ^ 48 +
        (b2 * 2 ^ 40 + (b3 * 2 ^ 32 + (b4 * 2 ^ 24 + (b5 * 2 ^ 16 + (b6 * 2 ^ 8 + b7))))) :=
    or_step _ _ _ (by norm_num; omega)
  have e0 : b0 <<< 56 ||| (b1 * 2 ^ 48 +
        (b2 * 2 ^ 40 + (b3 * 2 ^ 32 + (b4 * 2 ^ 24 + (b5 * 2 ^ 16 + (b6 * 2 ^ 8 + b7)))))) =
      b0 * 2 ^ 56 + (b1 * 2 ^ 48 +
        (b2 * 2 ^ 40 + (b3 * 2 ^ 32 + (b4 * 2 ^ 24 + (b5 * 2 ^ 16 + (b6 * 2 ^ 8 + b7)))))) :=
    or_step _ _ _ (by norm_num; omega)
  rw [e6, e5, e4, e3, e2, e1, e0]
  simp only [Rasm.beValue, List.foldl]
  norm_num
  omega

end RVM

namespace RVM

theorem list8 (l : List Nat) (h : l.length = 8) :
    ∃ b0 b1 b2 b3 b4 b5 b6 b7, l = [b0, b1, b2, b3, b4, b5, b6, b7] := by
  rcases l with _ | ⟨b0, _ | ⟨b1, _ | ⟨b2, _ | ⟨b3, _ | ⟨b4, _ | ⟨b5, _ | ⟨b6, _ | ⟨b7, _ | ⟨b8, l⟩⟩⟩⟩⟩⟩⟩⟩⟩
  all_goals first
    | exact ⟨_, _, _, _, _, _, _, _, rfl⟩
    | (exfalso; simp only [List.length_cons, List.length_nil] at h; omega)

theorem get_num_stack (vm vm' : Rvm) (size adr : Nat) (h : vm'.stack_ = vm.stack_) :
    get_num_ vm' size adr = get_num_ vm size adr :=
  get_num_congr vm vm' size adr (fun _ _ => by rw [h])

/-- The method `get_num_` with `Qword` reads the big-endian value of the eight bytes at
`adr`. -/
theorem get_num_qword (vm : Rvm) (adr : Nat) (hin : adr + 8 ≤ vm.stack_.length)
    (hbytes : ∀ x ∈ vm.stack_, x < 256) :
    get_num_ vm 3 adr = .ok (Rasm.beValue ((vm.stack_.drop adr).take 8)) := by
  have hlen : ((vm.stack_.drop adr).take 8).length = 8 := by
    rw [List.length_take, List.length_drop]; omega
  obtain ⟨b0, b1, b2, b3, b4, b5, b6, b7, hbs⟩ := list8 _ hlen
  have hmem : ∀ x ∈ [b0, b1, b2, b3, b4, b5, b6, b7], x < 256 := by
    intro x hx
    rw [← hbs] at hx
    exact hbytes x (List.mem_of_mem_drop (List.mem_of_mem_take hx))
  have hr : ∀ k (hk : k < 8), readMem vm (adr + k) =
      .ok ([b0, b1, b2, b3, b4, b5, b6, b7].get ⟨k, hk⟩) := by
    intro k hk
    apply readMem_eq
    have e : ((vm.stack_.drop adr).take 8)[k]? = vm.stack_[adr + k]? := by
      rw [List.getElem?_take_of_lt hk, List.getElem?_drop]
    rw [← e, hbs, List.getElem?_eq_getElem (by simpa using hk)]
    rfl
  rw [get_num_bytes8 vm adr _ _ _ _ _ _ _ _ hr, hbs,
    join_value b0 b1 b2 b3 b4 b5 b6 b7 (hmem _ (by simp)) (hmem _ (by simp)) (hmem _ (by simp))
      (hmem _ (by simp)) (hmem _ (by simp)) (hmem _ (by simp)) (hmem _ (by simp))]

theorem jmpMode_header (n : Bool) (mm low : Nat) (hmm : mm < 4) (hlow : low < 32) :
    jmpMode (n.toNat * 128 + mm * 32 + low) = mm := by
  unfold jmpMode
  have h : (0x3 : Nat) = 2 ^ 2 - 1 := by norm_num
  rw [h, Nat.and_pow_two_sub_one_eq_mod, Nat.shiftRight_eq_div_pow]
  cases n <;> simp only [Bool.toNat_false, Bool.toNat_true] <;> omega

theorem jmpNeg_header (n : Bool) (mm low : Nat) (hmm : mm < 4) (hlow : low < 32) :
    jmpNeg (n.toNat * 128 + mm * 32 + low) = n := by
  unfold jmpNeg
  rw [Nat.and_one_is_mod, Nat.shiftRight_eq_div_pow]
  cases n <;> simp only [Bool.toNat_false, Bool.toNat_true, ne_eq, decide_not] <;>
    simp <;> omega

theorem logicXor_eq (a b : Bool) : logicXor a b = Bool.xor a b := by
  cases a <;> cases b <;> rfl

theorem step_jmp (vm : Rvm) (hop : readMem vm (vm.registers_ Ip) = .ok 9) :
    step vm = execJmp (addIp vm 1) := by
  rw [step_eq vm 9 hop]; rfl

end RVM

namespace RVM

theorem sameButIp_addIp (vm : Rvm) (n : Nat) : SameButIp vm (addIp vm n) :=
  ⟨fun q hq => by simp [hq], rfl, rfl, rfl, rfl, rfl⟩

theorem sameButIp_setIp (vm : Rvm) (v : Nat) : SameButIp vm (setReg vm Ip v) :=
  ⟨fun q hq => by simp [hq], rfl, rfl, rfl, rfl, rfl⟩

theorem SameButIp.then {a b c : Rvm} (h1 : SameButIp a b) (h2 : SameButIp b c) :
    SameButIp a c :=
  ⟨fun q hq => (h2.registers q hq).trans (h1.registers q hq), h2.stack.trans h1.stack,
    h2.stack_bottom.trans h1.stack_bottom, h2.halted.trans h1.halted, h2.cin.trans h1.cin,
    h2.cout.trans h1.cout⟩

theorem step_cmp (vm : Rvm) (hop : readMem vm (vm.registers_ Ip) = .ok 13) :
    step vm = execCmp (addIp vm 1) := by
  rw [step_eq vm 13 hop]; rfl

end RVM

namespace RVM

theorem sizeBytes_qword (x : Nat) : sizeBytes 3 x = Rasm.be8 x := by
  have h : (0xFF : Nat) = 2 ^ 8 - 1 := by norm_num
  rw [Rasm.be8_eq]
  simp only [sizeBytes, if_true, h, Nat.and_pow_two_sub_one_eq_mod, Nat.shiftRight_eq_div_pow]

theorem step_call (vm : Rvm) (hop : readMem vm (vm.registers_ Ip) = .ok 10) :
    step vm = execCall (addIp vm 1) := by
  rw [step_eq vm 10 hop]; rfl

theorem step_ret (vm : Rvm) (hop : readMem vm (vm.registers_ Ip) = .ok 11) :
    step vm = execRet (addIp vm 1) := by
  rw [step_eq vm 11 hop]; rfl

theorem getElem?_of_take (l l' : List Nat) (a n : Nat)
    (h : (l'.drop a).take n = (l.drop a).take n) (k : Nat) (hk : k < n) :
    l'[a + k]? = l[a + k]? := by
  have e : ∀ m : List Nat, ((m.drop a).take n)[k]? = m[a + k]? := by
    intro m
    rw [List.getElem?_take_of_lt hk, List.getElem?_drop]
  rw [← e l', ← e l, h]

/-- A memory that agrees on the range of a value with the memory in which `load_num_` has
written it reads back the value reduced to the size. -/
theorem get_num_kept (vm2 : Rvm) (stack : List Nat) (size adr num : Nat)
    (hin : adr + width size ≤ stack.length)
    (hk : ∀ k, k < width size →
      vm2.stack_[adr + k]? = (storeBytes stack adr (sizeBytes size num))[adr + k]?) :
    get_num_ vm2 size adr = .ok (num % 2 ^ (8 * width size)) := by
  let vmS : Rvm := { vm2 with stack_ := storeBytes stack adr (sizeBytes size num) }
  rw [get_num_congr vmS vm2 size adr hk]
  exact get_num_stored vmS stack size adr num rfl hin

end RVM

namespace RVM

theorem update_flags_other (vm : Rvm) (x q : Nat) (hq : q ≠ Fg) :
    (update_flags_ vm x).registers_ q = vm.registers_ q := by
  unfold update_flags_
  split_ifs <;> simp [hq]

theorem step_push (vm : Rvm) (hop : readMem vm (vm.registers_ Ip) = .ok 7) :
    step vm = execPush (addIp vm 1) := by
  rw [step_eq vm 7 hop]; rfl

theorem step_pop (vm : Rvm) (hop : readMem vm (vm.registers_ Ip) = .ok 8) :
    step vm = execPop (addIp vm 1) := by
  rw [step_eq vm 8 hop]; rfl

theorem size_le (b : Nat) : (b >>> 2) &&& 0x3 ≤ 3 := Nat.and_le_right

/-- The case `Push` with a valid register other than `IP` and the range inside the memory. -/
theorem push_effect (vm : Rvm) (b R S : Nat)
    (hop : readMem vm (vm.registers_ Ip) = .ok 7)
    (hb : readMem vm ((vm.registers_ Ip + 1) % 2 ^ 64) = .ok b)
    (hR : (b >>> 4) &&& 0xF = R) (hS : (b >>> 2) &&& 0x3 = S)
    (hr : R < 13) (hip : R ≠ Ip)
    (hin : vm.registers_ Sp + width S ≤ vm.stack_.length) :
    ∃ vm1, step vm = .ok vm1 ∧
      vm1.stack_ = storeBytes vm.stack_ (vm.registers_ Sp) (sizeBytes S (vm.registers_ R)) ∧
      vm1.registers_ Sp = (vm.registers_ Sp + width S) % 2 ^ 64 ∧
      (∀ q, q ≠ Sp → q ≠ Ip → vm1.registers_ q = vm.registers_ q) := by
  have hS3 : S ≤ 3 := by rw [← hS]; exact size_le b
  rw [step_push vm hop]
  unfold execPush
  rw [readMem_addIp, addIp_regs, if_pos rfl, hb, ok_bind]
  simp only [hR, hS]
  rw [expect_ok _ R hr, ok_bind]
  unfold push_
  have hsp : (addIp (addIp vm 1) 1).registers_ Sp = vm.registers_ Sp := by simp
  have hreg : (addIp (addIp vm 1) 1).registers_ R = vm.registers_ R := by simp [hip]
  rw [hsp, hreg, load_num_eq (addIp (addIp vm 1) 1) S _ _ hin, ok_bind]
  refine ⟨_, rfl, rfl, ?_, ?_⟩
  · rw [setReg_regs, if_pos rfl, shift_eq_width S hS3]
    rfl
  · intro q h1 h2
    rw [setReg_regs, if_neg h1]
    show (addIp (addIp vm 1) 1).registers_ q = _
    simp [h2]

/-- The case `Pop` with a valid register other than `FG` and `IP`, reading back bytes that
`load_num_` has written. -/
theorem pop_effect (vm1 : Rvm) (stack : List Nat) (b R S sp x : Nat)
    (hop : readMem vm1 (vm1.registers_ Ip) = .ok 8)
    (hb : readMem vm1 ((vm1.registers_ Ip + 1) % 2 ^ 64) = .ok b)
    (hR : (b >>> 4) &&& 0xF = R) (hS : (b >>> 2) &&& 0x3 = S)
    (hr : R < 13) (hfg : R ≠ Fg)
    (hsp : sp < 2 ^ 64) (hin : sp + width S ≤ stack.length)
    (hmem : vm1.stack_ = storeBytes stack sp (sizeBytes S x))
    (hsp1 : vm1.registers_ Sp = (sp + width S) % 2 ^ 64) :
    ∃ vm2, step vm1 = .ok vm2 ∧ vm2.registers_ R = x % 2 ^ (8 * width S) ∧
      (R ≠ Sp → vm2.registers_ Sp = sp) := by
  have hS3 : S ≤ 3 := by rw [← hS]; exact size_le b
  have hw : width S ≤ 8 := by interval_cases S <;> decide
  have hback : ((sp + width S) % 2 ^ 64 + 2 ^ 64 - 1 <<< S) % 2 ^ 64 = sp := by
    rw [shift_eq_width S hS3]
    omega
  rw [step_pop vm1 hop]
  unfold execPop
  rw [readMem_addIp, addIp_regs, if_pos rfl, hb, ok_bind]
  simp only [hR, hS]
  rw [expect_ok _ R hr, ok_bind]
  unfold pop_
  have hsp2 : (addIp (addIp vm1 1) 1).registers_ Sp = (sp + width S) % 2 ^ 64 := by
    rw [← hsp1]; simp
  simp only [hsp2, hback, setReg_regs, if_true]
  rw [get_num_stored (setReg (addIp (addIp vm1 1) 1) Sp sp) stack S sp x hmem hin, ok_bind]
  refine ⟨_, rfl, ?_, ?_⟩
  · rw [update_flags_other _ _ _ hfg, setReg_regs, if_pos rfl]
  · intro hne
    rw [update_flags_other _ _ _ (by decide), setReg_regs, if_neg (fun h => hne h.symm),
      setReg_regs, if_pos rfl]

end RVM

namespace RVM

theorem readMem_cases (vm : Rvm) (adr : Nat) :
    readMem vm adr = .error .undefined ∨ ∃ b, readMem vm adr = .ok b := by
  unfold readMem
  cases vm.stack_[adr]? with
  | none => exact Or.inl rfl
  | some b => exact Or.inr ⟨b, rfl⟩

theorem error_bind {α β : Type} (e : Abort) (f : α → Exec β) :
    ((Except.error e : Exec α) >>= f) = .error e := rfl

theorem expect_bad (vm : Rvm) (r : Nat) (h : 13 ≤ r) :
    EXPECT_REG_EXISTS vm r =
      .error (.fault vm ("invalid register at " ++ toString (vm.registers_ Ip))) := by
  unfold EXPECT_REG_EXISTS
  rw [if_pos (by simp [RegSize]; omega)]

theorem SameButIp.rfl' (vm : Rvm) : SameButIp vm vm :=
  ⟨fun _ _ => rfl, rfl, rfl, rfl, rfl, rfl⟩

theorem faultsWith_expect (vm0 vm : Rvm) (r : Nat) (h : 13 ≤ r) (hs : SameButIp vm0 vm)
    (f : Unit → Exec Rvm) :
    FaultsWith vm0 "invalid register at " (EXPECT_REG_EXISTS vm r >>= f) := by
  rw [expect_bad vm r h, error_bind]
  exact ⟨vm, rfl, hs⟩

theorem noFault_bind {α β : Type} {x : Exec α} {f : α → Exec β} (hx : NoFault x)
    (hf : ∀ a, NoFault (f a)) : NoFault (x >>= f) :=
  sat_bind (fun _ => True) hx (fun a _ => hf a)

theorem noFault_ok {α : Type} (a : α) : NoFault (Except.ok a : Exec α) := trivial

theorem noFault_pure {α : Type} (a : α) : NoFault (pure a : Exec α) := trivial

theorem noFault_readMem (vm : Rvm) (adr : Nat) : NoFault (readMem vm adr) :=
  readMem_sat vm adr _

theorem noFault_get_num (vm : Rvm) (size adr : Nat) : NoFault (get_num_ vm size adr) :=
  get_num_sat vm size adr _

theorem noFault_load_num (vm : Rvm) (size adr x : Nat) : NoFault (load_num_ vm size adr x) :=
  sat_mono (load_num_sat vm size adr x _) (fun _ _ => trivial) (fun _ h => h)

theorem noFault_push (vm : Rvm) (x size : Nat) : NoFault (push_ vm x size) :=
  sat_mono (push_sat vm x size _) (fun _ _ => trivial) (fun _ h => h)

theorem noFault_pop (vm : Rvm) (size : Nat) : NoFault (pop_ vm size) :=
  sat_mono (pop_sat vm size _) (fun _ _ => trivial) (fun _ h => h)

theorem noFault_interrupt (vm : Rvm) (i : Nat) : NoFault (run_interrupt_ vm i) :=
  sat_mono (run_interrupt_sat vm i _) (fun _ _ => trivial) (fun _ h => h)

theorem noFault_not_fault {α : Type} {x : Exec α} (h : NoFault x) (vm : Rvm) (m : String) :
    x ≠ .error (.fault vm m) := by
  intro e
  rw [e] at h
  exact h

theorem faultsWith_not_undefined {vm : Rvm} {text : String} {x : Exec Rvm}
    (h : FaultsWith vm text x) : x ≠ .error .undefined := by
  obtain ⟨vm', e, _⟩ := h
  rw [e]
  intro h'
  cases h'

/-! ### The instructions one by one -/

theorem execArith_bad (vm : Rvm) (opCode b : Nat) (hb : readMem vm (vm.registers_ Ip) = .ok b)
    (h : 13 ≤ (b >>> 4) &&& 0xF ∨ 13 ≤ b &&& 0xF) :
    FaultsWith vm "invalid register at " (execArith vm opCode) := by
  unfold execArith
  rw [hb, ok_bind]
  try dsimp only
  by_cases hd : 13 ≤ (b >>> 4) &&& 0xF
  · exact faultsWith_expect vm vm _ hd (SameButIp.rfl' vm) _
  · rw [expect_ok vm _ (by omega), ok_bind]
    try dsimp only
    exact faultsWith_expect vm vm _ (h.resolve_left hd) (SameButIp.rfl' vm) _

theorem execArith_good (vm : Rvm) (opCode b : Nat) (hb : readMem vm (vm.registers_ Ip) = .ok b)
    (hd : (b >>> 4) &&& 0xF < 13) (hs : b &&& 0xF < 13) : NoFault (execArith vm opCode) := by
  unfold execArith
  rw [hb, ok_bind]
  try dsimp only
  rw [expect_ok vm _ hd, ok_bind]
  try dsimp only
  rw [expect_ok vm _ hs, ok_bind]
  try dsimp only
  exact noFault_pure _

theorem execCmp_bad (vm : Rvm) (b : Nat) (hb : readMem vm (vm.registers_ Ip) = .ok b)
    (h : 13 ≤ (b >>> 4) &&& 0xF ∨ 13 ≤ b &&& 0xF) :
    FaultsWith vm "invalid register at " (execCmp vm) := by
  unfold execCmp
  rw [hb, ok_bind]
  try dsimp only
  by_cases hd : 13 ≤ (b >>> 4) &&& 0xF
  · exact faultsWith_expect vm vm _ hd (SameButIp.rfl' vm) _
  · rw [expect_ok vm _ (by omega), ok_bind]
    try dsimp only
    exact faultsWith_expect vm _ _ (h.resolve_left hd) (sameButIp_addIp vm 1) _

theorem execCmp_good (vm : Rvm) (b : Nat) (hb : readMem vm (vm.registers_ Ip) = .ok b)
    (hd : (b >>> 4) &&& 0xF < 13) (hs : b &&& 0xF < 13) : NoFault (execCmp vm) := by
  unfold execCmp
  rw [hb, ok_bind]
  try dsimp only
  rw [expect_ok vm _ hd, ok_bind]
  try dsimp only
  rw [expect_ok _ _ hs, ok_bind]
  try dsimp only
  exact noFault_pure _

theorem execPush_bad (vm : Rvm) (b : Nat) (hb : readMem vm (vm.registers_ Ip) = .ok b)
    (h : 13 ≤ (b >>> 4) &&& 0xF) : FaultsWith vm "invalid register at " (execPush vm) := by
  unfold execPush
  rw [hb, ok_bind]
  try dsimp only
  exact faultsWith_expect vm vm _ h (SameButIp.rfl' vm) _

theorem execPush_good (vm : Rvm) (b : Nat) (hb : readMem vm (vm.registers_ Ip) = .ok b)
    (h : (b >>> 4) &&& 0xF < 13) : NoFault (execPush vm) := by
  unfold execPush
  rw [hb, ok_bind]
  try dsimp only
  rw [expect_ok vm _ h, ok_bind]
  try dsimp only
  exact noFault_push _ _ _

theorem execPop_bad (vm : Rvm) (b : Nat) (hb : readMem vm (vm.registers_ Ip) = .ok b)
    (h : 13 ≤ (b >>> 4) &&& 0xF) : FaultsWith vm "invalid register at " (execPop vm) := by
  unfold execPop
  rw [hb, ok_bind]
  try dsimp only
  exact faultsWith_expect vm vm _ h (SameButIp.rfl' vm) _

theorem execPop_good (vm : Rvm) (b : Nat) (hb : readMem vm (vm.registers_ Ip) = .ok b)
    (h : (b >>> 4) &&& 0xF < 13) : NoFault (execPop vm) := by
  unfold execPop
  rw [hb, ok_bind]
  try dsimp only
  rw [expect_ok vm _ h, ok_bind]
  try dsimp only
  exact noFault_bind (noFault_pop _ _) (fun _ => noFault_pure _)

theorem execTest_bad (vm : Rvm) (b : Nat) (hb : readMem vm (vm.registers_ Ip) = .ok b)
    (h : 13 ≤ (b >>> 4) &&& 0xF) : FaultsWith vm "invalid register at " (execTest vm) := by
  unfold execTest
  rw [hb, ok_bind]
  try dsimp only
  exact faultsWith_expect vm _ _ h (sameButIp_addIp vm 1) _

theorem execTest_good (vm : Rvm) (b : Nat) (hb : readMem vm (vm.registers_ Ip) = .ok b)
    (h : (b >>> 4) &&& 0xF < 13) : NoFault (execTest vm) := by
  unfold execTest
  rw [hb, ok_bind]
  try dsimp only
  rw [expect_ok _ _ h, ok_bind]
  try dsimp only
  exact noFault_pure _

theorem execInt_bad (vm : Rvm) (b : Nat) (hb : readMem vm (vm.registers_ Ip) = .ok b)
    (h : 4 ≤ b) : FaultsWith vm "invalid interrupt id at " (execInt vm) := by
  unfold execInt
  rw [hb, ok_bind]
  try dsimp only
  simp only [IntSize, ge_iff_le, h, if_true]
  exact ⟨_, rfl, sameButIp_addIp vm 1⟩

theorem execInt_good (vm : Rvm) (b : Nat) (hb : readMem vm (vm.registers_ Ip) = .ok b)
    (h : b < 4) : NoFault (execInt vm) := by
  unfold execInt
  rw [hb, ok_bind]
  try dsimp only
  simp only [IntSize, ge_iff_le, show ¬ 4 ≤ b by omega, if_false]
  exact noFault_interrupt _ _

theorem execJmp_noFault (vm : Rvm) : NoFault (execJmp vm) := by
  unfold execJmp
  refine noFault_bind (noFault_readMem _ _) (fun b => ?_)
  refine noFault_bind (noFault_get_num _ _ _) (fun d => ?_)
  simp only []
  split_ifs <;> exact noFault_pure _

theorem execCall_noFault (vm : Rvm) : NoFault (execCall vm) := by
  unfold execCall
  refine noFault_bind (noFault_get_num _ _ _) (fun d => ?_)
  exact noFault_bind (noFault_push _ _ _) (fun _ => noFault_pure _)

theorem execRet_noFault (vm : Rvm) : NoFault (execRet vm) := by
  unfold execRet
  exact noFault_bind (noFault_pop _ _) (fun _ => noFault_pure _)

end RVM

namespace RVM

theorem mode_le (b : Nat) : (b >>> 6) &&& 0x3 ≤ 3 := Nat.and_le_right

theorem execMov_bad_dst (vm : Rvm) (b1 : Nat) (hb : readMem vm (vm.registers_ Ip) = .ok b1)
    (h : 13 ≤ b1 &&& 0xF) : FaultsWith vm "invalid register at " (execMov vm) := by
  unfold execMov
  rw [hb, ok_bind]
  try dsimp only
  exact faultsWith_expect vm _ _ h (sameButIp_addIp vm 1) _

theorem execMov_imm (vm : Rvm) (b1 : Nat) (hb : readMem vm (vm.registers_ Ip) = .ok b1)
    (hd : b1 &&& 0xF < 13) (hm : (b1 >>> 6) &&& 0x3 = 0) : NoFault (execMov vm) := by
  unfold execMov
  rw [hb, ok_bind]
  try dsimp only
  rw [expect_ok _ _ hd, ok_bind, if_pos hm]
  exact noFault_bind (noFault_get_num _ _ _) (fun _ => noFault_pure _)

theorem execMov_unread (vm : Rvm) (b1 : Nat) (hb : readMem vm (vm.registers_ Ip) = .ok b1)
    (hd : b1 &&& 0xF < 13) (hm : (b1 >>> 6) &&& 0x3 ≠ 0)
    (hb2 : readMem vm ((vm.registers_ Ip + 1) % 2 ^ 64) = .error .undefined) :
    execMov vm = .error .undefined := by
  have hr : readMem (addIp vm 1) ((addIp vm 1).registers_ Ip) = .error .undefined := by
    rw [readMem_addIp, addIp_regs, if_pos rfl, hb2]
  unfold execMov
  rw [hb, ok_bind]
  try dsimp only
  rw [expect_ok _ _ hd, ok_bind, if_neg hm]
  split_ifs <;> rw [hr] <;> rfl

theorem execMov_bad_src (vm : Rvm) (b1 b2 : Nat) (hb : readMem vm (vm.registers_ Ip) = .ok b1)
    (hd : b1 &&& 0xF < 13) (hm : (b1 >>> 6) &&& 0x3 ≠ 0)
    (hb2 : readMem vm ((vm.registers_ Ip + 1) % 2 ^ 64) = .ok b2)
    (hs : 13 ≤ (b2 >>> 4) &&& 0xF) : FaultsWith vm "invalid register at " (execMov vm) := by
  have hr : readMem (addIp vm 1) ((addIp vm 1).registers_ Ip) = .ok b2 := by
    rw [readMem_addIp, addIp_regs, if_pos rfl, hb2]
  unfold execMov
  rw [hb, ok_bind]
  try dsimp only
  rw [expect_ok _ _ hd, ok_bind, if_neg hm]
  split_ifs
  · rw [hr, ok_bind]
    exact faultsWith_expect vm _ _ hs ((sameButIp_addIp vm 1).then (sameButIp_addIp _ 1)) _
  · rw [hr, ok_bind]
    exact faultsWith_expect vm _ _ hs (sameButIp_addIp vm 1) _
  · rw [hr, ok_bind]
    exact faultsWith_expect vm _ _ hs ((sameButIp_addIp vm 1).then (sameButIp_addIp _ 1)) _

theorem execMov_good (vm : Rvm) (b1 b2 : Nat) (hb : readMem vm (vm.registers_ Ip) = .ok b1)
    (hd : b1 &&& 0xF < 13) (hm : (b1 >>> 6) &&& 0x3 ≠ 0)
    (hb2 : readMem vm ((vm.registers_ Ip + 1) % 2 ^ 64) = .ok b2)
    (hs : (b2 >>> 4) &&& 0xF < 13) : NoFault (execMov vm) := by
  have hr : readMem (addIp vm 1) ((addIp vm 1).registers_ Ip) = .ok b2 := by
    rw [readMem_addIp, addIp_regs, if_pos rfl, hb2]
  unfold execMov
  rw [hb, ok_bind]
  try dsimp only
  rw [expect_ok _ _ hd, ok_bind, if_neg hm]
  split_ifs
  · rw [hr, ok_bind]
    try dsimp only
    rw [expect_ok _ _ hs, ok_bind]
    exact noFault_pure _
  · rw [hr, ok_bind]
    try dsimp only
    rw [expect_ok _ _ hs, ok_bind]
    refine noFault_bind (noFault_get_num _ _ _) (fun _ => ?_)
    refine noFault_bind (noFault_readMem _ _) (fun _ => ?_)
    exact noFault_bind (noFault_get_num _ _ _) (fun _ => noFault_pure _)
  · rw [hr, ok_bind]
    try dsimp only
    rw [expect_ok _ _ hs, ok_bind]
    refine noFault_bind (noFault_get_num _ _ _) (fun _ => ?_)
    refine noFault_bind (noFault_load_num _ _ _ _) (fun _ => ?_)
    exact noFault_bind (noFault_get_num _ _ _) (fun _ => noFault_pure _)

theorem faultsWith_addIp {vm : Rvm} {n : Nat} {text : String} {x : Exec Rvm}
    (h : FaultsWith (addIp vm n) text x) : FaultsWith vm text x := by
  obtain ⟨vm', e, hs⟩ := h
  exact ⟨vm', e, (sameButIp_addIp vm n).then hs⟩

theorem readMem_next (vm : Rvm) (b : Exec Nat)
    (hb : readMem vm ((vm.registers_ Ip + 1) % 2 ^ 64) = b) :
    readMem (addIp vm 1) ((addIp vm 1).registers_ Ip) = b := by
  rw [readMem_addIp, addIp_regs, if_pos rfl, hb]

theorem readMem_next2 (vm : Rvm) (b : Exec Nat)
    (hb : readMem vm ((vm.registers_ Ip + 2) % 2 ^ 64) = b) :
    readMem (addIp vm 1) (((addIp vm 1).registers_ Ip + 1) % 2 ^ 64) = b := by
  rw [readMem_addIp, addIp_regs, if_pos rfl, ← hb]
  congr 1
  omega

end RVM

namespace RVM

theorem step_arith (vm : Rvm) (op : Nat) (hop : readMem vm (vm.registers_ Ip) = .ok op)
    (h5 : op ≤ 5) : step vm = execArith (addIp vm 1) op := by
  rw [step_eq vm op hop, if_pos h5]

theorem step_mov (vm : Rvm) (hop : readMem vm (vm.registers_ Ip) = .ok 6) :
    step vm = execMov (addIp vm 1) := by
  rw [step_eq vm 6 hop]; rfl

theorem step_int (vm : Rvm) (hop : readMem vm (vm.registers_ Ip) = .ok 12) :
    step vm = execInt (addIp vm 1) := by
  rw [step_eq vm 12 hop]; rfl

theorem step_test (vm : Rvm) (hop : readMem vm (vm.registers_ Ip) = .ok 14) :
    step vm = execTest (addIp vm 1) := by
  rw [step_eq vm 14 hop]; rfl

theorem step_bad_opcode (vm : Rvm) (op : Nat) (hop : readMem vm (vm.registers_ Ip) = .ok op)
    (h : 15 ≤ op) : FaultsWith vm "invalid opcode at " (step vm) := by
  rw [step_eq vm op hop]
  simp only [show ¬ op ≤ 5 by omega, show ¬ op = 6 by omega, show ¬ op = 7 by omega,
    show ¬ op = 8 by omega, show ¬ op = 9 by omega, show ¬ op = 10 by omega,
    show ¬ op = 11 by omega, show ¬ op = 12 by omega, show ¬ op = 13 by omega,
    show ¬ op = 14 by omega, if_false]
  exact ⟨_, rfl, sameButIp_addIp vm 1⟩

theorem mem_pair {f a b : Nat} (h : f ∈ [a, b]) : f = a ∨ f = b := by
  simpa using h

theorem mem_single {f a : Nat} (h : f ∈ [a]) : f = a := by
  simpa using h

end RVM

namespace RVM

theorem operand_of_read (vm : Rvm) (k b : Nat)
    (h : readMem vm ((vm.registers_ Ip + k) % 2 ^ 64) = .ok b) : operand vm k = b := by
  have h' := (readMem_ok_iff _ _ _).mp h
  unfold operand
  rw [List.getD_eq_getElem?_getD, h']
  rfl

theorem unread_arith (vm : Rvm) (op : Nat)
    (h : readMem vm (vm.registers_ Ip) = .error .undefined) :
    execArith vm op = .error .undefined := by
  unfold execArith; rw [h]; rfl

theorem unread_cmp (vm : Rvm) (h : readMem vm (vm.registers_ Ip) = .error .undefined) :
    execCmp vm = .error .undefined := by
  unfold execCmp; rw [h]; rfl

theorem unread_mov (vm : Rvm) (h : readMem vm (vm.registers_ Ip) = .error .undefined) :
    execMov vm = .error .undefined := by
  unfold execMov; rw [h]; rfl

theorem unread_push (vm : Rvm) (h : readMem vm (vm.registers_ Ip) = .error .undefined) :
    execPush vm = .error .undefined := by
  unfold execPush; rw [h]; rfl

theorem unread_pop (vm : Rvm) (h : readMem vm (vm.registers_ Ip) = .error .undefined) :
    execPop vm = .error .undefined := by
  unfold execPop; rw [h]; rfl

theorem unread_test (vm : Rvm) (h : readMem vm (vm.registers_ Ip) = .error .undefined) :
    execTest vm = .error .undefined := by
  unfold execTest; rw [h]; rfl

theorem unread_int (vm : Rvm) (h : readMem vm (vm.registers_ Ip) = .error .undefined) :
    execInt vm = .error .undefined := by
  unfold execInt; rw [h]; rfl

theorem step_unread (vm : Rvm) (h : readMem vm (vm.registers_ Ip) = .error .undefined) :
    step vm = .error .undefined := by
  unfold step; rw [h]; rfl

/-- The outcome of one round of the `run` loop that stays inside the memory: the fault that
the spec gives the instruction, with nothing but `IP` changed, or no fault at all. -/
theorem step_class (vm : Rvm) (hip : vm.registers_ Ip < 2 ^ 64)
    (hdef : step vm ≠ .error .undefined) :
    match faultText vm with
    | some text => FaultsWith vm text (step vm)
    | none => NoFault (step vm) := by
  have e0 : (vm.registers_ Ip + 0) % 2 ^ 64 = vm.registers_ Ip := Nat.mod_eq_of_lt hip
  rcases readMem_cases vm (vm.registers_ Ip) with hu | ⟨op, hop⟩
  · exact absurd (step_unread vm hu) hdef
  have hop0 : operand vm 0 = op := operand_of_read vm 0 op (by rw [e0]; exact hop)
  by_cases h15 : 15 ≤ op
  · have ht : faultText vm = some "invalid opcode at " := by
      unfold faultText; rw [hop0, if_pos h15]
    rw [ht]
    exact step_bad_opcode vm op hop h15
  by_cases hjump : op = 9 ∨ op = 10 ∨ op = 11
  · have hrf : ∀ b1 b2, regFields op b1 b2 = [] := by
      intro b1 b2
      unfold regFields
      rw [if_neg (by omega), if_neg (by omega), if_neg (by omega)]
    have ht : faultText vm = none := by
      unfold faultText
      rw [hop0, if_neg h15, if_neg (by omega), hrf, if_neg (by simp)]
    rw [ht]
    rcases hjump with h | h | h
    · subst h; rw [step_jmp vm hop]; exact execJmp_noFault _
    · subst h; rw [step_call vm hop]; exact execCall_noFault _
    · subst h; rw [step_ret vm hop]; exact execRet_noFault _
  -- the other instructions read the byte after the opcode
  rcases readMem_cases vm ((vm.registers_ Ip + 1) % 2 ^ 64) with hu | ⟨b1, hb1⟩
  · exfalso
    apply hdef
    have hr := readMem_next vm _ hu
    have hcases : op ≤ 5 ∨ op = 6 ∨ op = 7 ∨ op = 8 ∨ op = 12 ∨ op = 13 ∨ op = 14 := by omega
    rcases hcases with h | h | h | h | h | h | h
    · rw [step_arith vm op hop h]; exact unread_arith _ _ hr
    · subst h; rw [step_mov vm hop]; exact unread_mov _ hr
    · subst h; rw [step_push vm hop]; exact unread_push _ hr
    · subst h; rw [step_pop vm hop]; exact unread_pop _ hr
    · subst h; rw [step_int vm hop]; exact unread_int _ hr
    · subst h; rw [step_cmp vm hop]; exact unread_cmp _ hr
    · subst h; rw [step_test vm hop]; exact unread_test _ hr
  have hop1 : operand vm 1 = b1 := operand_of_read vm 1 b1 hb1
  have hr := readMem_next vm _ hb1
  by_cases h12 : op = 12
  · subst h12
    by_cases h4 : 4 ≤ b1
    · have ht : faultText vm = some "invalid interrupt id at " := by
        unfold faultText; rw [hop0, hop1, if_neg h15, if_pos rfl, if_pos h4]
      rw [ht, step_int vm hop]
      exact faultsWith_addIp (execInt_bad _ b1 hr h4)
    · have ht : faultText vm = none := by
        unfold faultText; rw [hop0, hop1, if_neg h15, if_pos rfl, if_neg h4]
      rw [ht, step_int vm hop]
      exact execInt_good _ b1 hr (by omega)
  have htext : ∀ (P : Prop) [Decidable P],
      ((∃ f ∈ regFields op b1 (operand vm 2), 13 ≤ f) ↔ P) →
      faultText vm = if P then some "invalid register at " else none := by
    intro P _ hP
    unfold faultText
    rw [hop0, hop1, if_neg h15, if_neg h12]
    by_cases hp : P
    · rw [if_pos hp, if_pos (hP.mpr hp)]
    · rw [if_neg hp, if_neg (fun h => hp (hP.mp h))]
  by_cases h2 : op ≤ 5 ∨ op = 13
  · have ht := htext (13 ≤ (b1 >>> 4) &&& 0xF ∨ 13 ≤ b1 &&& 0xF) (by
      unfold regFields; rw [if_pos h2]; simp)
    rw [ht]
    by_cases hbad : 13 ≤ (b1 >>> 4) &&& 0xF ∨ 13 ≤ b1 &&& 0xF
    · rw [if_pos hbad]
      rcases h2 with h | h
      · rw [step_arith vm op hop h]; exact faultsWith_addIp (execArith_bad _ _ b1 hr hbad)
      · subst h; rw [step_cmp vm hop]; exact faultsWith_addIp (execCmp_bad _ b1 hr hbad)
    · rw [if_neg hbad]
      rcases h2 with h | h
      · rw [step_arith vm op hop h]; exact execArith_good _ _ b1 hr (by omega) (by omega)
      · subst h; rw [step_cmp vm hop]; exact execCmp_good _ b1 hr (by omega) (by omega)
  by_cases h1 : op = 7 ∨ op = 8 ∨ op = 14
  · have ht := htext (13 ≤ (b1 >>> 4) &&& 0xF) (by
      unfold regFields; rw [if_neg h2, if_neg (by omega), if_pos h1]; simp)
    rw [ht]
    by_cases hbad : 13 ≤ (b1 >>> 4) &&& 0xF
    · rw [if_pos hbad]
      rcases h1 with h | h | h
      · subst h; rw [step_push vm hop]; exact faultsWith_addIp (execPush_bad _ b1 hr hbad)
      · subst h; rw [step_pop vm hop]; exact faultsWith_addIp (execPop_bad _ b1 hr hbad)
      · subst h; rw [step_test vm hop]; exact faultsWith_addIp (execTest_bad _ b1 hr hbad)
    · rw [if_neg hbad]
      rcases h1 with h | h | h
      · subst h; rw [step_push vm hop]; exact execPush_good _ b1 hr (by omega)
      · subst h; rw [step_pop vm hop]; exact execPop_good _ b1 hr (by omega)
      · subst h; rw [step_test vm hop]; exact execTest_good _ b1 hr (by omega)
  have h6 : op = 6 := by omega
  subst h6
  rw [step_mov vm hop]
  by_cases hd : 13 ≤ b1 &&& 0xF
  · have ht := htext True (by
      unfold regFields
      rw [if_neg h2, if_pos rfl]
      split_ifs <;> simp [hd])
    rw [ht, if_pos trivial]
    exact faultsWith_addIp (execMov_bad_dst _ b1 hr hd)
  by_cases hm : (b1 >>> 6) &&& 0x3 = 0
  · have ht := htext False (by
      unfold regFields
      rw [if_neg h2, if_pos rfl, if_pos hm]
      simp; omega)
    rw [ht, if_neg not_false]
    exact execMov_imm _ b1 hr (by omega) hm
  rcases readMem_cases vm ((vm.registers_ Ip + 2) % 2 ^ 64) with hu | ⟨b2, hb2⟩
  · exfalso
    apply hdef
    rw [step_mov vm hop]
    exact execMov_unread _ b1 hr (by omega) hm (readMem_next2 vm _ hu)
  have hop2 : operand vm 2 = b2 := operand_of_read vm 2 b2 hb2
  have ht := htext (13 ≤ (b2 >>> 4) &&& 0xF) (by
    unfold regFields
    rw [if_neg h2, if_pos rfl, if_neg hm, hop2]
    simp; omega)
  rw [ht]
  by_cases hs : 13 ≤ (b2 >>> 4) &&& 0xF
  · rw [if_pos hs]
    exact faultsWith_addIp (execMov_bad_src _ b1 b2 hr (by omega) hm (readMem_next2 vm _ hb2) hs)
  · rw [if_neg hs]
    exact execMov_good _ b1 b2 hr (by omega) hm (readMem_next2 vm _ hb2) (by omega)

end RVM

namespace RVM

theorem faultText_some_iff (vm : Rvm) :
    (∃ text, faultText vm = some text) ↔
      (15 ≤ operand vm 0 ∨ (operand vm 0 = 12 ∧ 4 ≤ operand vm 1) ∨
        ∃ f ∈ regFields (operand vm 0) (operand vm 1) (operand vm 2), 13 ≤ f) := by
  unfold faultText
  by_cases h15 : 15 ≤ operand vm 0
  · rw [if_pos h15]; exact ⟨fun _ => Or.inl h15, fun _ => ⟨_, rfl⟩⟩
  rw [if_neg h15]
  by_cases h12 : operand vm 0 = 12
  · have hrf : regFields (operand vm 0) (operand vm 1) (operand vm 2) = [] := by
      rw [h12]; rfl
    rw [if_pos h12, hrf]
    by_cases h4 : 4 ≤ operand vm 1
    · rw [if_pos h4]; exact ⟨fun _ => Or.inr (Or.inl ⟨h12, h4⟩), fun _ => ⟨_, rfl⟩⟩
    · rw [if_neg h4]; simp [h15, h4]
  rw [if_neg h12]
  by_cases hb : ∃ f ∈ regFields (operand vm 0) (operand vm 1) (operand vm 2), 13 ≤ f
  · rw [if_pos hb]; exact ⟨fun _ => Or.inr (Or.inr hb), fun _ => ⟨_, rfl⟩⟩
  · rw [if_neg hb]; simp [h15, h12, hb]

theorem faultText_eq (vm : Rvm) (text : String) (h : faultText vm = some text) :
    text = (if 15 ≤ operand vm 0 then "invalid opcode at "
      else if operand vm 0 = 12 then "invalid interrupt id at " else "invalid register at ") := by
  unfold faultText at h
  split_ifs at h ⊢ <;> simp_all

end RVM

namespace RVM

theorem fault_text_none (vm : Rvm)
    (hmem : operand vm 0 = 7 ∨ operand vm 0 = 8 ∨
      (operand vm 0 = 6 ∧ 2 ≤ (operand vm 1 >>> 6) &&& 0x3))
    (hvalid : ∀ f ∈ regFields (operand vm 0) (operand vm 1) (operand vm 2), f < 13) :
    faultText vm = none := by
  cases ht : faultText vm with
  | none => rfl
  | some text =>
    exfalso
    rcases (faultText_some_iff vm).mp ⟨text, ht⟩ with h | ⟨h, _⟩ | ⟨f, hf, h13⟩
    · omega
    · omega
    · have := hvalid f hf
      omega

end RVM

namespace RVM

theorem runLoop_stop (fuel : Nat) (vm : Rvm) (h : running vm = false) :
    runLoop fuel vm = .returned { ok := true, message := "" } vm := by
  cases fuel <;> simp [runLoop, h]

/-- Once the loop of `run` has returned within some number of rounds, it returns the same
with any larger bound on the rounds. -/
theorem runLoop_view_mono (n : Nat) : ∀ (vm : Rvm) (s : status_t) (regs out : List Nat),
    (runLoop n vm).view = some (some s, regs, out) →
    ∀ k, (runLoop (n + k) vm).view = some (some s, regs, out) := by
  induction n with
  | zero =>
    intro vm s regs out h k
    by_cases hr : running vm = true
    · simp [runLoop, hr, RunResult.view] at h
    · have hr' : running vm = false := by simpa using hr
      rw [runLoop_stop _ vm hr'] at h ⊢
      exact h
  | succ n ih =>
    intro vm s regs out h k
    have e : n + 1 + k = (n + k) + 1 := by omega
    rw [e]
    by_cases hr : running vm = true
    · rw [runLoop, if_pos hr] at h ⊢
      cases hs : step vm with
      | ok vm1 =>
        rw [hs] at h
        exact ih vm1 s regs out h k
      | error e =>
        rw [hs] at h
        cases e with
        | fault vm1 m => exact h
        | undefined => exact h
    · have hr' : running vm = false := by simpa using hr
      rw [runLoop_stop _ vm hr'] at h ⊢
      exact h

theorem run_view_mono (n : Nat) (vm : Rvm) (program : List Nat) (s : status_t)
    (regs out : List Nat) (h : (run n vm program).view = some (some s, regs, out)) (k : Nat) :
    (run (n + k) vm program).view = some (some s, regs, out) := by
  unfold run at h ⊢
  cases hl : load vm program with
  | none => rw [hl] at h; exact h
  | some vm0 =>
    rw [hl] at h
    exact runLoop_view_mono n vm0 s regs out h k

end RVM

namespace RVM

theorem byte_eq (x k : Nat) : (x >>> k) &&& 0xFF = x / 2 ^ k % 256 := by
  rw [show (0xFF : Nat) = 2 ^ 8 - 1 from rfl, Nat.and_pow_two_sub_one_eq_mod,
    Nat.shiftRight_eq_div_pow]

theorem low_byte_eq (x : Nat) : x &&& 0xFF = x / 2 ^ 0 % 256 := by
  rw [show (0xFF : Nat) = 2 ^ 8 - 1 from rfl, Nat.and_pow_two_sub_one_eq_mod, Nat.pow_zero,
    Nat.div_one]

/-- The bytes that `load_num_` writes are those of the value, most significant first. -/
theorem sizeBytes_be (S x : Nat) (hS : S ≤ 3) :
    sizeBytes S x = (List.range (2 ^ S)).map (fun i => x / 2 ^ (8 * (2 ^ S - 1 - i)) % 256) := by
  interval_cases S
  · show [x &&& 0xFF] = _
    rw [low_byte_eq]
    rfl
  · show [(x >>> 8) &&& 0xFF, x &&& 0xFF] = _
    simp only [byte_eq]
    rw [low_byte_eq]
    rfl
  · show [(x >>> 24) &&& 0xFF, (x >>> 16) &&& 0xFF, (x >>> 8) &&& 0xFF, x &&& 0xFF] = _
    simp only [byte_eq]
    rw [low_byte_eq]
    rfl
  · show [(x >>> 56) &&& 0xFF, (x >>> 48) &&& 0xFF, (x >>> 40) &&& 0xFF, (x >>> 32) &&& 0xFF,
      (x >>> 24) &&& 0xFF, (x >>> 16) &&& 0xFF, (x >>> 8) &&& 0xFF, x &&& 0xFF] = _
    simp only [byte_eq]
    rw [low_byte_eq]
    rfl

end RVM

namespace RVM

/-- C13: for every `Jmp` header byte with negate bit `n` (bit 7), mode `mm` (bits 6:5) and
any low bits, and every value of `FG`, the step sets `IP` to the big-endian value of the
eight target bytes when the jump condition of the spec holds (mode `00` for either `n`;
else the flag of the mode set in `FG`, XOR `n`) and to the offset just past the target
bytes otherwise; no other register and no memory byte changes. -/
theorem jmp_step (vm : Rvm) (n : Bool) (mm low : Nat) (hmm : mm < 4) (hlow : low < 32)
    (hlen : vm.stack_.length < 2 ^ 64) (hbytes : ∀ x ∈ vm.stack_, x < 256)
    (hcode : vm.registers_ Ip + 10 ≤ vm.stack_.length)
    (hop : readMem vm (vm.registers_ Ip) = .ok 9)
    (hb : readMem vm (vm.registers_ Ip + 1) = .ok (n.toNat * 128 + mm * 32 + low)) :
    ∃ vm', step vm = .ok vm' ∧
      vm'.registers_ Ip =
        (if jumpTaken n mm (vm.registers_ Fg) = true
          then Rasm.beValue ((vm.stack_.drop (vm.registers_ Ip + 2)).take 8)
          else vm.registers_ Ip + 10) ∧
      SameButIp vm vm' := by
  have e1 : (vm.registers_ Ip + 1) % 2 ^ 64 = vm.registers_ Ip + 1 :=
    Nat.mod_eq_of_lt (by omega)
  have e2 : (vm.registers_ Ip + 1 + 1) % 2 ^ 64 = vm.registers_ Ip + 2 :=
    Nat.mod_eq_of_lt (by omega)
  have e3 : (vm.registers_ Ip + 2 + 8) % 2 ^ 64 = vm.registers_ Ip + 10 :=
    Nat.mod_eq_of_lt (by omega)
  have hdest := get_num_qword vm (vm.registers_ Ip + 2) (by omega) hbytes
  have hIp1 : (addIp vm 1).registers_ Ip = vm.registers_ Ip + 1 := by
    rw [addIp_regs, if_pos rfl, e1]
  have hIp2 : (addIp (addIp vm 1) 1).registers_ Ip = vm.registers_ Ip + 2 := by
    rw [addIp_regs, if_pos rfl, hIp1, e2]
  have hIp3 : (addIp (addIp (addIp vm 1) 1) 8).registers_ Ip = vm.registers_ Ip + 10 := by
    rw [addIp_regs, if_pos rfl, hIp2, e3]
  have hFg : (addIp (addIp (addIp vm 1) 1) 8).registers_ Fg = vm.registers_ Fg := by simp
  have hsame : ∀ v, SameButIp vm (setReg (addIp (addIp (addIp vm 1) 1) 8) Ip v) := fun v =>
    (((sameButIp_addIp vm 1).then (sameButIp_addIp _ 1)).then (sameButIp_addIp _ 8)).then
      (sameButIp_setIp _ v)
  rw [step_jmp vm hop]
  unfold execJmp
  rw [hIp1, readMem_addIp, hb, ok_bind]
  simp only [jmpNeg_header n mm low hmm hlow, jmpMode_header n mm low hmm hlow]
  rw [hIp2, get_num_stack vm (addIp (addIp vm 1) 1) 3 _ rfl, hdest, ok_bind]
  simp only [hIp3, hFg, logicXor_eq]
  interval_cases mm
  · exact ⟨_, rfl, by simp [jumpTaken], hsame _⟩
  · exact ⟨_, rfl, by simp [jumpTaken], hsame _⟩
  · exact ⟨_, rfl, by simp [jumpTaken], hsame _⟩
  · exact ⟨_, rfl, by simp [jumpTaken], hsame _⟩

/-- C12: a `call` whose opcode is at offset `a` stores `a + 9` as a big-endian `Qword` at
`memory[SP]`, adds 8 to `SP` and sets `IP` to the target; a `ret` executed in any later
state in which `SP` has its value of just after the call and those eight bytes are
unmodified sets `IP` to `a + 9` and restores `SP` to its value of before the call. -/
theorem call_ret_symmetry (vm : Rvm)
    (hlen : vm.stack_.length < 2 ^ 64) (hbytes : ∀ x ∈ vm.stack_, x < 256)
    (hcode : vm.registers_ Ip + 9 ≤ vm.stack_.length)
    (hin : vm.registers_ Sp + 8 ≤ vm.stack_.length)
    (hop : readMem vm (vm.registers_ Ip) = .ok 10) :
    ∃ vm1, step vm = .ok vm1 ∧
      (vm1.stack_.drop (vm.registers_ Sp)).take 8 = Rasm.be8 (vm.registers_ Ip + 9) ∧
      vm1.registers_ Sp = vm.registers_ Sp + 8 ∧
      vm1.registers_ Ip = Rasm.beValue ((vm.stack_.drop (vm.registers_ Ip + 1)).take 8) ∧
      ∀ vm2 : Rvm, vm2.registers_ Sp = vm1.registers_ Sp →
        (vm2.stack_.drop (vm.registers_ Sp)).take 8 =
          (vm1.stack_.drop (vm.registers_ Sp)).take 8 →
        readMem vm2 (vm2.registers_ Ip) = .ok 11 →
        ∃ vm3, step vm2 = .ok vm3 ∧ vm3.registers_ Ip = vm.registers_ Ip + 9 ∧
          vm3.registers_ Sp = vm.registers_ Sp := by
  have h8 : (1 : Nat) <<< 3 = 8 := rfl
  have e1 : (vm.registers_ Ip + 1) % 2 ^ 64 = vm.registers_ Ip + 1 :=
    Nat.mod_eq_of_lt (by omega)
  have e2 : (vm.registers_ Ip + 1 + 8) % 2 ^ 64 = vm.registers_ Ip + 9 :=
    Nat.mod_eq_of_lt (by omega)
  have e3 : (vm.registers_ Sp + 1 <<< 3) % 2 ^ 64 = vm.registers_ Sp + 8 := by
    rw [h8]; exact Nat.mod_eq_of_lt (by omega)
  have e4 : (vm.registers_ Sp + 8 + 2 ^ 64 - 1 <<< 3) % 2 ^ 64 = vm.registers_ Sp := by
    rw [h8]; omega
  have hw : vm.registers_ Sp + width 3 ≤ vm.stack_.length := hin
  have hdest := get_num_qword vm (vm.registers_ Ip + 1) (by omega) hbytes
  have hIp1 : (addIp vm 1).registers_ Ip = vm.registers_ Ip + 1 := by
    rw [addIp_regs, if_pos rfl, e1]
  have hIp2 : (addIp (addIp vm 1) 8).registers_ Ip = vm.registers_ Ip + 9 := by
    rw [addIp_regs, if_pos rfl, hIp1, e2]
  have hSp2 : (addIp (addIp vm 1) 8).registers_ Sp = vm.registers_ Sp := by simp
  have hstep : ∃ vm1, step vm = .ok vm1 ∧
      vm1.stack_ = storeBytes vm.stack_ (vm.registers_ Sp) (sizeBytes 3 (vm.registers_ Ip + 9)) ∧
      vm1.registers_ Sp = vm.registers_ Sp + 8 ∧
      vm1.registers_ Ip = Rasm.beValue ((vm.stack_.drop (vm.registers_ Ip + 1)).take 8) := by
    rw [step_call vm hop]
    unfold execCall
    rw [hIp1, get_num_stack vm (addIp vm 1) 3 _ rfl, hdest, ok_bind]
    simp only [push_, hIp2, hSp2]
    rw [load_num_eq (addIp (addIp vm 1) 8) 3 _ _ hw, ok_bind]
    refine ⟨_, rfl, rfl, ?_, ?_⟩
    · rw [setReg_regs, if_neg (by decide), setReg_regs, if_pos rfl]
      exact e3
    · rw [setReg_regs, if_pos rfl]
  obtain ⟨vm1, hs1, hmem1, hsp1, hip1⟩ := hstep
  refine ⟨vm1, hs1, ?_, hsp1, hip1, ?_⟩
  · rw [hmem1, ← sizeBytes_qword]
    exact storeBytes_take (sizeBytes 3 (vm.registers_ Ip + 9)) vm.stack_ _
      (by rw [sizeBytes_length]; exact hw)
  · intro vm2 hsp hkeep hop2
    have hsp2 : vm2.registers_ Sp = vm.registers_ Sp + 8 := hsp.trans hsp1
    rw [hmem1] at hkeep
    have hread : get_num_ (setReg (addIp vm2 1) Sp (vm.registers_ Sp)) 3 (vm.registers_ Sp) =
        .ok (vm.registers_ Ip + 9) := by
      rw [get_num_stack vm2 (setReg (addIp vm2 1) Sp (vm.registers_ Sp)) 3 _ rfl,
        get_num_kept vm2 vm.stack_ 3 _ (vm.registers_ Ip + 9) hw
          (fun k hk => getElem?_of_take _ _ _ 8 hkeep k hk)]
      have hw3 : 8 * width 3 = 64 := rfl
      rw [hw3, Nat.mod_eq_of_lt (by omega)]
    refine ⟨setReg (setReg (addIp vm2 1) Sp (vm.registers_ Sp)) Ip (vm.registers_ Ip + 9),
      ?_, by simp, by simp [Sp, Ip]⟩
    rw [step_ret vm2 hop2]
    unfold execRet pop_
    have hs : ((addIp vm2 1).registers_ Sp + 2 ^ 64 - 1 <<< 3) % 2 ^ 64 = vm.registers_ Sp := by
      rw [show (addIp vm2 1).registers_ Sp = vm2.registers_ Sp by simp, hsp2, e4]
    simp only [hs, setReg_regs, if_true]
    rw [hread]
    rfl

/-- C11 (amended): for every register `R` with id `0 .. 12` other than `FG` and `IP` and
every size `S`, `push S R` immediately followed by `pop S R`, with the pushed bytes inside
the memory, leaves `R` holding its value of before the push reduced to its low `2^S`
bytes (unchanged for `Qword`), and leaves `SP` equal to its value of before the push when
`R` is not `SP` (for `R = SP` it is `SP` that is reduced). -/
theorem push_pop_roundtrip (vm : Rvm) (b R S : Nat)
    (hregs : ∀ q, vm.registers_ q < 2 ^ 64)
    (hop : readMem vm (vm.registers_ Ip) = .ok 7)
    (hb : readMem vm ((vm.registers_ Ip + 1) % 2 ^ 64) = .ok b)
    (hR : (b >>> 4) &&& 0xF = R) (hS : (b >>> 2) &&& 0x3 = S)
    (hr : R < 13) (hfg : R ≠ Fg) (hip : R ≠ Ip)
    (hin : vm.registers_ Sp + 2 ^ S ≤ vm.stack_.length) :
    ∃ vm1, step vm = .ok vm1 ∧
      ∀ (_ : readMem vm1 (vm1.registers_ Ip) = .ok 8)
        (_ : readMem vm1 ((vm1.registers_ Ip + 1) % 2 ^ 64) = .ok b),
        ∃ vm2, step vm1 = .ok vm2 ∧
          vm2.registers_ R = vm.registers_ R % 2 ^ (8 * 2 ^ S) ∧
          (R ≠ Sp → vm2.registers_ Sp = vm.registers_ Sp) ∧
          (S = 3 → vm2.registers_ R = vm.registers_ R) := by
  have hS3 : S ≤ 3 := by rw [← hS]; exact size_le b
  have hw := width_eq S hS3
  rw [← hw] at hin
  obtain ⟨vm1, hs1, hmem, hsp1, _⟩ := push_effect vm b R S hop hb hR hS hr hip hin
  refine ⟨vm1, hs1, fun hop2 hb2 => ?_⟩
  obtain ⟨vm2, hs2, hval, hsp2⟩ := pop_effect vm1 vm.stack_ b R S (vm.registers_ Sp)
    (vm.registers_ R) hop2 hb2 hR hS hr hfg (hregs Sp) hin hmem hsp1
  rw [hw] at hval
  refine ⟨vm2, hs2, hval, hsp2, fun h3 => ?_⟩
  rw [hval, h3]
  exact Nat.mod_eq_of_lt (hregs R)

/-- C11 (counterexample): `push qword fg` / `pop qword fg` on a fresh machine.  `FG` is a
register with id 9 and holds 0 before the push, the pushed bytes are inside the memory;
after the two steps `FG` holds 2 (`pop` updates the flags from the value it has just
stored in `FG`). -/
theorem push_pop_fg_counterexample :
    (Rasm.translateSource "push qword fg\npop qword fg").map (fun t => t.fout) =
      some [7, 0x9C, 8, 0x9C] ∧
    (loaded 16 [7, 0x9C, 8, 0x9C]).registers_ Fg = 0 ∧
    (loaded 16 [7, 0x9C, 8, 0x9C]).registers_ Sp + 2 ^ 3 ≤
      (loaded 16 [7, 0x9C, 8, 0x9C]).stack_.length ∧
    (dump (step (loaded 16 [7, 0x9C, 8, 0x9C]) >>= step)).map Prod.fst =
      some [0, 0, 0, 0, 0, 0, 0, 0, 0, 2, 4, 4, 4] :=
  ⟨by decide, rfl, by decide, by decide⟩

theorem push_pop_roundtrip_witness :
    (∀ q, (loaded 16 [7, 0x0C, 8, 0x0C]).registers_ q < 2 ^ 64) ∧
    readMem (loaded 16 [7, 0x0C, 8, 0x0C]) ((loaded 16 [7, 0x0C, 8, 0x0C]).registers_ Ip)
      = .ok 7 ∧
    (loaded 16 [7, 0x0C, 8, 0x0C]).registers_ Sp + 2 ^ 3 ≤
      (loaded 16 [7, 0x0C, 8, 0x0C]).stack_.length ∧
    ∃ vm1, step (loaded 16 [7, 0x0C, 8, 0x0C]) = .ok vm1 ∧
      ∀ (_ : readMem vm1 (vm1.registers_ Ip) = .ok 8)
        (_ : readMem vm1 ((vm1.registers_ Ip + 1) % 2 ^ 64) = .ok 0x0C),
        ∃ vm2, step vm1 = .ok vm2 ∧
          vm2.registers_ 0 = (loaded 16 [7, 0x0C, 8, 0x0C]).registers_ 0 % 2 ^ (8 * 2 ^ 3) ∧
          (0 ≠ Sp → vm2.registers_ Sp = (loaded 16 [7, 0x0C, 8, 0x0C]).registers_ Sp) ∧
          (3 = 3 → vm2.registers_ 0 = (loaded 16 [7, 0x0C, 8, 0x0C]).registers_ 0) :=
  ⟨by intro q; simp only [loaded, setReg_regs, Rvm.new]; split_ifs <;> norm_num, rfl,
    by decide,
    push_pop_roundtrip (loaded 16 [7, 0x0C, 8, 0x0C]) 0x0C 0 3
      (by intro q; simp only [loaded, setReg_regs, Rvm.new]; split_ifs <;> norm_num)
      rfl rfl (by decide) (by decide) (by decide) (by decide) (by decide) (by decide)⟩

/-- C14 (amended): `Cmp` with operand byte `ffff ssss`, both ids below 13 and `fst` neither
`FG` nor `IP`, replaces `reg[fst]` by `(reg[fst] + ~v) mod 2^64`, that is
`reg[fst] - v - 1`, where `v` is `reg[snd]`, except that for `snd = IP` it is the `IP` of
before the step plus 2 (the operand is read after `IP` has moved past the instruction);
`FG` is set from the new value, and no other register except `IP` and no memory byte
changes. -/
theorem cmp_step (vm : Rvm) (fst snd : Nat)
    (hregs : ∀ q, vm.registers_ q < 2 ^ 64)
    (hop : readMem vm (vm.registers_ Ip) = .ok 13)
    (hb : readMem vm ((vm.registers_ Ip + 1) % 2 ^ 64) = .ok (fst * 16 + snd))
    (hf : fst < 13) (hs : snd < 13) (hfg : fst ≠ Fg) (hip : fst ≠ Ip) :
    ∃ vm', step vm = .ok vm' ∧
      vm'.registers_ fst =
        (vm.registers_ fst + (2 ^ 64 - 1 -
          (if snd = Ip then (vm.registers_ Ip + 2) % 2 ^ 64 else vm.registers_ snd))) % 2 ^ 64 ∧
      ((vm'.registers_ fst : Int) =
        ((vm.registers_ fst : Int) -
          ((if snd = Ip then (vm.registers_ Ip + 2) % 2 ^ 64 else vm.registers_ snd : Nat) : Int)
          - 1) % 2 ^ 64) ∧
      vm'.registers_ Fg = flagOf (vm'.registers_ fst) ∧
      (∀ q, q ≠ fst → q ≠ Fg → q ≠ Ip → vm'.registers_ q = vm.registers_ q) ∧
      vm'.stack_ = vm.stack_ := by
  have hv : (if snd = Ip then (vm.registers_ Ip + 2) % 2 ^ 64 else vm.registers_ snd) < 2 ^ 64 := by
    split_ifs
    · exact Nat.mod_lt _ (by norm_num)
    · exact hregs snd
  have hsnd : (addIp (addIp vm 1) 1).registers_ snd =
      (if snd = Ip then (vm.registers_ Ip + 2) % 2 ^ 64 else vm.registers_ snd) := by
    by_cases h : snd = Ip
    · subst h
      rw [if_pos rfl, addIp_regs, if_pos rfl, addIp_regs, if_pos rfl]
      omega
    · rw [if_neg h, addIp_regs, if_neg h, addIp_regs, if_neg h]
  have hfst : (addIp (addIp vm 1) 1).registers_ fst = vm.registers_ fst := by
    rw [addIp_regs, if_neg hip, addIp_regs, if_neg hip]
  generalize (if snd = Ip then (vm.registers_ Ip + 2) % 2 ^ 64 else vm.registers_ snd) = v
    at hv hsnd ⊢
  have hnot : not64 v = 2 ^ 64 - 1 - v := by
    unfold not64; rw [Nat.mod_eq_of_lt hv]
  have hstep : step vm = .ok (update_flags_ (setReg (addIp (addIp vm 1) 1) fst
      ((vm.registers_ fst + (2 ^ 64 - 1 - v)) % 2 ^ 64))
      ((vm.registers_ fst + (2 ^ 64 - 1 - v)) % 2 ^ 64)) := by
    rw [step_cmp vm hop]
    unfold execCmp
    rw [readMem_addIp, addIp_regs, if_pos rfl, hb, ok_bind]
    simp only [nibbles_hi fst snd (by omega) (by omega), nibbles_lo fst snd (by omega)]
    rw [expect_ok _ fst hf, ok_bind, expect_ok _ snd hs, ok_bind, hsnd, hfst, hnot]
    simp only [setReg_regs, if_true, pure, Except.pure]
  have hlt : (vm.registers_ fst + (2 ^ 64 - 1 - v)) % 2 ^ 64 < 2 ^ 64 :=
    Nat.mod_lt _ (by norm_num)
  have ha := hregs fst
  refine ⟨_, hstep, ?_, ?_, ?_, ?_, ?_⟩
  · rw [update_flags_regs _ _ _ hlt, if_neg hfg, setReg_regs, if_pos rfl]
  · rw [update_flags_regs _ _ _ hlt, if_neg hfg, setReg_regs, if_pos rfl]
    omega
  · rw [update_flags_regs _ _ _ hlt, if_pos rfl, update_flags_regs _ _ _ hlt, if_neg hfg,
      setReg_regs, if_pos rfl]
  · intro q h1 h2 h3
    rw [update_flags_regs _ _ _ hlt, if_neg h2, setReg_regs, if_neg h1, addIp_regs, if_neg h3,
      addIp_regs, if_neg h3]
  · simp

/-- C14 (counterexample): `cmp r0, ip` (bytes `0D 0A`) on a fresh machine.  Both ids are
below 13 and `r0` is neither `FG` nor `IP`; `reg[r0]` and `reg[IP]` are 0 before the
step, so the claim gives `reg[r0] = (0 + ~0) mod 2^64 = 2^64 - 1`; the step leaves
`reg[r0] = 2^64 - 3`. -/
theorem cmp_snd_ip_counterexample :
    (Rasm.translateSource "cmp r0, ip").map (fun t => t.fout) = some [13, 0x0A] ∧
    readMem (loaded 16 [13, 0x0A]) 1 = .ok (0 * 16 + 10) ∧
    (loaded 16 [13, 0x0A]).registers_ 0 = 0 ∧ (loaded 16 [13, 0x0A]).registers_ Ip = 0 ∧
    (0 + (2 ^ 64 - 1 - 0)) % 2 ^ 64 = 2 ^ 64 - 1 ∧
    (dump (step (loaded 16 [13, 0x0A]))).map Prod.fst =
      some [2 ^ 64 - 3, 0, 0, 0, 0, 0, 0, 0, 0, 1, 2, 2, 2] :=
  ⟨by decide, rfl, rfl, rfl, by decide, by decide⟩

theorem cmp_step_witness :
    (∀ q, (loaded 16 [13, 0x12]).registers_ q < 2 ^ 64) ∧
    readMem (loaded 16 [13, 0x12]) ((loaded 16 [13, 0x12]).registers_ Ip) = .ok 13 ∧
    ∃ vm', step (loaded 16 [13, 0x12]) = .ok vm' ∧
      vm'.registers_ 1 =
        ((loaded 16 [13, 0x12]).registers_ 1 + (2 ^ 64 - 1 -
          (if 2 = Ip then ((loaded 16 [13, 0x12]).registers_ Ip + 2) % 2 ^ 64
            else (loaded 16 [13, 0x12]).registers_ 2))) % 2 ^ 64 ∧
      ((vm'.registers_ 1 : Int) =
        (((loaded 16 [13, 0x12]).registers_ 1 : Int) -
          ((if 2 = Ip then ((loaded 16 [13, 0x12]).registers_ Ip + 2) % 2 ^ 64
            else (loaded 16 [13, 0x12]).registers_ 2 : Nat) : Int) - 1) % 2 ^ 64) ∧
      vm'.registers_ Fg = flagOf (vm'.registers_ 1) ∧
      (∀ q, q ≠ 1 → q ≠ Fg → q ≠ Ip →
        vm'.registers_ q = (loaded 16 [13, 0x12]).registers_ q) ∧
      vm'.stack_ = (loaded 16 [13, 0x12]).stack_ :=
  ⟨by intro q; simp only [loaded, setReg_regs, Rvm.new]; split_ifs <;> norm_num, rfl,
    cmp_step (loaded 16 [13, 0x12]) 1 2
      (by intro q; simp only [loaded, setReg_regs, Rvm.new]; split_ifs <;> norm_num)
      rfl rfl (by decide) (by decide) (by decide) (by decide)⟩

/-- C15 (the code at failing inputs): `cmp r0, r1` with `r0 = r1 = 5`, then `je`; and with
`r0 = 5`, `r1 = 4`, then `jg`.  The doc comment of the case `Cmp` promises that the first
register keeps its value, that 5 against 5 sets `ZERO` so that `je` is taken and that 5
against 4 sets `POS` so that `jg` is taken.  After the `cmp` (three rounds of the loop)
the first program has `r0 = 2^64 - 1` and `FG = NEG = 1`, the second has `r0 = 0` and
`FG = ZERO = 2`; in both runs the jump is not taken: the `mov r2, 1` that it should skip
is executed and leaves `r2 = 1`. -/
theorem cmp_doc_failing_input :
    (Rasm.translateSource
        "mov r0, 5\nmov r1, 5\ncmp r0, r1\nje equal\nmov r2, 1\nequal:\nint 3").map
        (fun t => t.fout) =
      some [6, 0, 0, 0, 0, 0, 0, 0, 0, 5, 6, 1, 0, 0, 0, 0, 0, 0, 0, 5, 13, 1,
        9, 64, 0, 0, 0, 0, 0, 0, 0, 42, 6, 2, 0, 0, 0, 0, 0, 0, 0, 1, 12, 3] ∧
    (run 3 (Rvm.new 64 []) [6, 0, 0, 0, 0, 0, 0, 0, 0, 5, 6, 1, 0, 0, 0, 0, 0, 0, 0, 5, 13, 1,
        9, 64, 0, 0, 0, 0, 0, 0, 0, 42, 6, 2, 0, 0, 0, 0, 0, 0, 0, 1, 12, 3]).view =
      some (none, [2 ^ 64 - 1, 5, 0, 0, 0, 0, 0, 0, 0, 1, 22, 44, 44], []) ∧
    (run 10 (Rvm.new 64 []) [6, 0, 0, 0, 0, 0, 0, 0, 0, 5, 6, 1, 0, 0, 0, 0, 0, 0, 0, 5, 13, 1,
        9, 64, 0, 0, 0, 0, 0, 0, 0, 42, 6, 2, 0, 0, 0, 0, 0, 0, 0, 1, 12, 3]).view =
      some (some { ok := true, message := "" },
        [2 ^ 64 - 1, 5, 1, 0, 0, 0, 0, 0, 0, 4, 44, 44, 44], []) ∧
    (Rasm.translateSource
        "mov r0, 5\nmov r1, 4\ncmp r0, r1\njg greater\nmov r2, 1\ngreater:\nint 3").map
        (fun t => t.fout) =
      some [6, 0, 0, 0, 0, 0, 0, 0, 0, 5, 6, 1, 0, 0, 0, 0, 0, 0, 0, 4, 13, 1,
        9, 96, 0, 0, 0, 0, 0, 0, 0, 42, 6, 2, 0, 0, 0, 0, 0, 0, 0, 1, 12, 3] ∧
    (run 3 (Rvm.new 64 []) [6, 0, 0, 0, 0, 0, 0, 0, 0, 5, 6, 1, 0, 0, 0, 0, 0, 0, 0, 4, 13, 1,
        9, 96, 0, 0, 0, 0, 0, 0, 0, 42, 6, 2, 0, 0, 0, 0, 0, 0, 0, 1, 12, 3]).view =
      some (none, [0, 4, 0, 0, 0, 0, 0, 0, 0, 2, 22, 44, 44], []) ∧
    (run 10 (Rvm.new 64 []) [6, 0, 0, 0, 0, 0, 0, 0, 0, 5, 6, 1, 0, 0, 0, 0, 0, 0, 0, 4, 13, 1,
        9, 96, 0, 0, 0, 0, 0, 0, 0, 42, 6, 2, 0, 0, 0, 0, 0, 0, 0, 1, 12, 3]).view =
      some (some { ok := true, message := "" }, [0, 4, 1, 0, 0, 0, 0, 0, 0, 4, 44, 44, 44], []) :=
  ⟨by decide, by decide, by decide, by decide, by decide, by decide⟩

/-- C16: an instruction that decodes a register id field of 13, 14 or 15 (destination or
source of an arithmetic/logic instruction, `mov`, `push`, `pop`, `cmp`, `test`) makes the
step return the fault `invalid register at` followed by the value of `IP`, and the machine
of the fault differs from the machine of before the fetch in `IP` only: every other
register and every memory byte is unchanged. -/
theorem invalid_register_faults (vm : Rvm) (opCode b1 b2 : Nat)
    (hop : readMem vm (vm.registers_ Ip) = .ok opCode)
    (hb1 : readMem vm ((vm.registers_ Ip + 1) % 2 ^ 64) = .ok b1)
    (hb2 : opCode = 6 → readMem vm ((vm.registers_ Ip + 2) % 2 ^ 64) = .ok b2)
    (hbad : ∃ f ∈ regFields opCode b1 b2, 13 ≤ f) :
    ∃ vm', step vm =
        .error (.fault vm' ("invalid register at " ++ toString (vm'.registers_ Ip))) ∧
      (∀ q, q ≠ Ip → vm'.registers_ q = vm.registers_ q) ∧ vm'.stack_ = vm.stack_ ∧
      SameButIp vm vm' := by
  have hr := readMem_next vm _ hb1
  have key : FaultsWith vm "invalid register at " (step vm) := by
    obtain ⟨f, hf, h13⟩ := hbad
    unfold regFields at hf
    split_ifs at hf with h1 h2 h3 h4
    · have hbad2 : 13 ≤ (b1 >>> 4) &&& 0xF ∨ 13 ≤ b1 &&& 0xF := by
        rcases mem_pair hf with e | e
        · exact Or.inl (e ▸ h13)
        · exact Or.inr (e ▸ h13)
      rcases h1 with h5 | h13'
      · rw [step_arith vm opCode hop h5]
        exact faultsWith_addIp (execArith_bad _ _ b1 hr hbad2)
      · subst h13'
        rw [step_cmp vm hop]
        exact faultsWith_addIp (execCmp_bad _ b1 hr hbad2)
    · subst h2
      rw [step_mov vm hop]
      have e := mem_single hf
      exact faultsWith_addIp (execMov_bad_dst _ b1 hr (e ▸ h13))
    · subst h2
      rw [step_mov vm hop]
      by_cases hd : 13 ≤ b1 &&& 0xF
      · exact faultsWith_addIp (execMov_bad_dst _ b1 hr hd)
      · rcases mem_pair hf with e | e
        · exact absurd (e ▸ h13) hd
        · exact faultsWith_addIp (execMov_bad_src _ b1 b2 hr (by omega) h3
            (readMem_next2 vm _ (hb2 rfl)) (e ▸ h13))
    · have e := mem_single hf
      rcases h4 with h7 | h8 | h14
      · subst h7
        rw [step_push vm hop]
        exact faultsWith_addIp (execPush_bad _ b1 hr (e ▸ h13))
      · subst h8
        rw [step_pop vm hop]
        exact faultsWith_addIp (execPop_bad _ b1 hr (e ▸ h13))
      · subst h14
        rw [step_test vm hop]
        exact faultsWith_addIp (execTest_bad _ b1 hr (e ▸ h13))
    · cases hf
  obtain ⟨vm', e, hs⟩ := key
  exact ⟨vm', e, hs.registers, hs.stack, hs⟩

theorem invalid_register_faults_witness :
    readMem (loaded 16 [0, 0xD1]) ((loaded 16 [0, 0xD1]).registers_ Ip) = .ok 0 ∧
    readMem (loaded 16 [0, 0xD1]) (((loaded 16 [0, 0xD1]).registers_ Ip + 1) % 2 ^ 64)
      = .ok 0xD1 ∧
    (∃ f ∈ regFields 0 0xD1 0, 13 ≤ f) ∧
    ∃ vm', step (loaded 16 [0, 0xD1]) =
        .error (.fault vm' ("invalid register at " ++ toString (vm'.registers_ Ip))) ∧
      (∀ q, q ≠ Ip → vm'.registers_ q = (loaded 16 [0, 0xD1]).registers_ q) ∧
      vm'.stack_ = (loaded 16 [0, 0xD1]).stack_ ∧ SameButIp (loaded 16 [0, 0xD1]) vm' :=
  ⟨rfl, rfl, by decide,
    invalid_register_faults (loaded 16 [0, 0xD1]) 0 0xD1 0 rfl rfl
      (fun h => absurd h (by decide)) (by decide)⟩

/-- C17: a round of the loop whose memory accesses are all in bounds returns a fault status if
and only if the opcode byte is 15 or more, or the opcode is `Int` and its id byte is 4 or
more, or a register id field that the instruction decodes is 13 or more; the message is
`invalid opcode at`, `invalid interrupt id at` or `invalid register at` respectively,
followed by the decimal value that `IP` has when the fault is detected. -/
theorem fault_iff (vm : Rvm) (hip : vm.registers_ Ip < 2 ^ 64)
    (hdef : step vm ≠ .error .undefined) :
    ((∃ vm' msg, step vm = .error (.fault vm' msg)) ↔
      (15 ≤ operand vm 0 ∨ (operand vm 0 = 12 ∧ 4 ≤ operand vm 1) ∨
        ∃ f ∈ regFields (operand vm 0) (operand vm 1) (operand vm 2), 13 ≤ f)) ∧
    ∀ vm' msg, step vm = .error (.fault vm' msg) →
      msg = (if 15 ≤ operand vm 0 then "invalid opcode at "
             else if operand vm 0 = 12 then "invalid interrupt id at "
             else "invalid register at ") ++ toString (vm'.registers_ Ip) := by
  have hc := step_class vm hip hdef
  rw [← faultText_some_iff]
  cases ht : faultText vm with
  | none =>
    rw [ht] at hc
    refine ⟨⟨fun ⟨vm', msg, e⟩ => absurd e (noFault_not_fault hc vm' msg),
      fun ⟨_, e⟩ => by cases e⟩, fun vm' msg e => absurd e (noFault_not_fault hc vm' msg)⟩
  | some text =>
    rw [ht] at hc
    obtain ⟨vm1, e1, _⟩ := hc
    refine ⟨⟨fun _ => ⟨text, rfl⟩, fun _ => ⟨_, _, e1⟩⟩, fun vm' msg e => ?_⟩
    rw [e1] at e
    injection e with e
    injection e with ev em
    rw [← em, ← ev, faultText_eq vm text ht]

theorem fault_iff_witness :
    (loaded 16 [15]).registers_ Ip < 2 ^ 64 ∧
    step (loaded 16 [15]) ≠ .error .undefined ∧
    ((∃ vm' msg, step (loaded 16 [15]) = .error (.fault vm' msg)) ↔
      (15 ≤ operand (loaded 16 [15]) 0 ∨
        (operand (loaded 16 [15]) 0 = 12 ∧ 4 ≤ operand (loaded 16 [15]) 1) ∨
        ∃ f ∈ regFields (operand (loaded 16 [15]) 0) (operand (loaded 16 [15]) 1)
          (operand (loaded 16 [15]) 2), 13 ≤ f)) ∧
    ∀ vm' msg, step (loaded 16 [15]) = .error (.fault vm' msg) →
      msg = (if 15 ≤ operand (loaded 16 [15]) 0 then "invalid opcode at "
             else if operand (loaded 16 [15]) 0 = 12 then "invalid interrupt id at "
             else "invalid register at ") ++ toString (vm'.registers_ Ip) :=
  have hdef : step (loaded 16 [15]) ≠ .error .undefined := by
    rw [show step (loaded 16 [15]) =
      .error (.fault (addIp (loaded 16 [15]) 1) "invalid opcode at 1") from rfl]
    intro h
    cases h
  ⟨by decide, hdef, fault_iff (loaded 16 [15]) (by decide) hdef⟩

/-- C18 (counterexample): `pop qword r0` on a fresh machine of 16 bytes.  `SP` is 2, so the
range of the access starts at `(2 - 8) mod 2^64` and is not inside the memory; the run does
not return a fault status: `pop_` hands the address to `get_num_`, which indexes `stack_`
without a check. -/
theorem pop_out_of_range_counterexample :
    (Rasm.translateSource "pop qword r0").map (fun t => t.fout) = some [8, 0x0C] ∧
    (loaded 16 [8, 0x0C]).registers_ Sp = 2 ∧
    ¬ ((2 + 2 ^ 64 - 8) % 2 ^ 64 + 8 ≤ (loaded 16 [8, 0x0C]).stack_.length) ∧
    (run 1 (Rvm.new 16 []) [8, 0x0C]).view = none ∧
    (∀ fuel, run (fuel + 1) (Rvm.new 16 []) [8, 0x0C] = .undefined) :=
  ⟨by decide, rfl, by decide, by decide, fun _ => rfl⟩

/-- C18 (amended): the memory accesses are not checked.  `get_num_` and `load_num_` called
with a byte range that is not entirely inside the memory index `stack_` outside it
(undefined behaviour), and a step that is a `mov` load or store, a `push` or a `pop` with
valid register ids never returns a fault status. -/
theorem memory_access_unchecked (vm : Rvm) (size adr num : Nat)
    (hip : vm.registers_ Ip < 2 ^ 64)
    (hout : ¬ adr + width size ≤ vm.stack_.length)
    (hmem : operand vm 0 = 7 ∨ operand vm 0 = 8 ∨
      (operand vm 0 = 6 ∧ 2 ≤ (operand vm 1 >>> 6) &&& 0x3))
    (hvalid : ∀ f ∈ regFields (operand vm 0) (operand vm 1) (operand vm 2), f < 13) :
    get_num_ vm size adr = .error .undefined ∧
    load_num_ vm size adr num = .error .undefined ∧
    ∀ vm' msg, step vm ≠ .error (.fault vm' msg) := by
  refine ⟨get_num_out vm size adr hout, load_num_out vm size adr num hout, ?_⟩
  intro vm' msg e
  have hdef : step vm ≠ .error .undefined := by rw [e]; intro h; cases h
  have h := (fault_text_none vm hmem hvalid)
  have hc := step_class vm hip hdef
  rw [h] at hc
  exact noFault_not_fault hc vm' msg e

theorem memory_access_unchecked_witness :
    (loaded 16 [8, 0x0C]).registers_ Ip < 2 ^ 64 ∧
    ¬ (2 ^ 64 - 6 + width 3 ≤ (loaded 16 [8, 0x0C]).stack_.length) ∧
    operand (loaded 16 [8, 0x0C]) 0 = 8 ∧
    (∀ f ∈ regFields (operand (loaded 16 [8, 0x0C]) 0) (operand (loaded 16 [8, 0x0C]) 1)
      (operand (loaded 16 [8, 0x0C]) 2), f < 13) ∧
    get_num_ (loaded 16 [8, 0x0C]) 3 (2 ^ 64 - 6) = .error .undefined ∧
    load_num_ (loaded 16 [8, 0x0C]) 3 (2 ^ 64 - 6) 0 = .error .undefined ∧
    ∀ vm' msg, step (loaded 16 [8, 0x0C]) ≠ .error (.fault vm' msg) :=
  ⟨by decide, by decide, by decide, by decide,
    memory_access_unchecked (loaded 16 [8, 0x0C]) 3 (2 ^ 64 - 6) 0 (by decide) (by decide)
      (Or.inr (Or.inl (by decide))) (by decide)⟩

/-- C19 (counterexample): a program of two bytes given to a machine whose memory has one
byte.  The run does not return a fault status: `std::copy` writes the second byte past the
end of `stack_`. -/
theorem long_program_counterexample :
    [12, 3].length > (Rvm.new 1 []).stack_.length ∧
    (run 1 (Rvm.new 1 []) [12, 3]).view = none ∧
    (∀ fuel, run fuel (Rvm.new 1 []) [12, 3] = .undefined) :=
  ⟨by decide, by decide, fun _ => rfl⟩

/-- C19 (amended): `run` does not compare the length of the program with the size of the
memory: for every program that is longer than the memory `std::copy` writes past the end
of `stack_` (undefined behaviour), and no fault status is returned. -/
theorem long_program_unchecked (vm : Rvm) (program : List Nat)
    (h : vm.stack_.length < program.length) :
    load vm program = none ∧ ∀ fuel, run fuel vm program = .undefined := by
  have hl : load vm program = none := by
    unfold load
    rw [if_neg (by omega)]
  refine ⟨hl, fun fuel => ?_⟩
  unfold run
  rw [hl]

theorem long_program_unchecked_witness :
    (Rvm.new 1 []).stack_.length < [12, 3].length ∧
    load (Rvm.new 1 []) [12, 3] = none ∧ ∀ fuel, run fuel (Rvm.new 1 []) [12, 3] = .undefined :=
  ⟨by decide, long_program_unchecked (Rvm.new 1 []) [12, 3] (by decide)⟩

/-- C20 (counterexample): a machine that has run `mov r0, 7` / `test r0` / `int 3` is given
the program `mov ir, 65` / `int 0` / `int 3`.  The second run starts with `halted_` still
set, `r0 = 7` and `FG = 4`: its loop is not entered, nothing is printed, and `run` returns
ok; on a fresh machine the same program prints `A`. -/
theorem rerun_counterexample :
    (Rasm.translateSource "mov r0, 7\ntest r0\nint 3").map (fun t => t.fout) =
      some [6, 0, 0, 0, 0, 0, 0, 0, 0, 7, 14, 0, 12, 3] ∧
    (run 5 (Rvm.new 32 []) [6, 0, 0, 0, 0, 0, 0, 0, 0, 7, 14, 0, 12, 3]).view =
      some (some { ok := true, message := "" }, [7, 0, 0, 0, 0, 0, 0, 0, 0, 4, 14, 14, 14], []) ∧
    (load (run 5 (Rvm.new 32 []) [6, 0, 0, 0, 0, 0, 0, 0, 0, 7, 14, 0, 12, 3]).machine
        [6, 8, 0, 0, 0, 0, 0, 0, 0, 65, 12, 0, 12, 3]).map
        (fun vm => (vm.halted_, (List.range RegSize).map vm.registers_)) =
      some (true, [7, 0, 0, 0, 0, 0, 0, 0, 0, 4, 0, 14, 14]) ∧
    (run 5 (run 5 (Rvm.new 32 []) [6, 0, 0, 0, 0, 0, 0, 0, 0, 7, 14, 0, 12, 3]).machine
        [6, 8, 0, 0, 0, 0, 0, 0, 0, 65, 12, 0, 12, 3]).view =
      some (some { ok := true, message := "" }, [7, 0, 0, 0, 0, 0, 0, 0, 0, 4, 0, 14, 14], []) ∧
    (run 5 (Rvm.new 32 []) [6, 8, 0, 0, 0, 0, 0, 0, 0, 65, 12, 0, 12, 3]).view =
      some (some { ok := true, message := "" },
        [0, 0, 0, 0, 0, 0, 0, 0, 65, 4, 14, 14, 14], [65]) :=
  ⟨by decide, by decide, by decide, by decide, by decide⟩

/-- C20 (amended): `run` on a program that fits in the memory copies the program to the start
of the memory and sets `IP = 0` and `SP = BP = len(program)`; `FG`, `halted` and the other
registers keep the values that the machine has.  On a freshly constructed machine these
are `FG = 0`, `halted = false` and every other register 0. -/
theorem load_state (vm : Rvm) (program : List Nat)
    (hfit : program.length ≤ vm.stack_.length) :
    ∃ vm', load vm program = some vm' ∧
      vm'.registers_ Ip = 0 ∧ vm'.registers_ Sp = program.length ∧
      vm'.registers_ Bp = program.length ∧ vm'.stack_.take program.length = program ∧
      vm'.stack_.length = vm.stack_.length ∧
      (∀ q, q ≠ Ip → q ≠ Sp → q ≠ Bp → vm'.registers_ q = vm.registers_ q) ∧
      vm'.halted_ = vm.halted_ ∧
      (∀ stackSize cin, vm = Rvm.new stackSize cin →
        vm'.registers_ Fg = 0 ∧ vm'.halted_ = false ∧
        ∀ q, q ≠ Sp → q ≠ Bp → vm'.registers_ q = 0) := by
  unfold load
  rw [if_pos hfit]
  refine ⟨_, rfl, by simp, by simp [Sp, Ip], by simp [Bp, Ip, Sp], ?_, ?_, ?_, rfl, ?_⟩
  · simp
  · simp only [setReg_stack, List.length_append, List.length_drop]
    omega
  · intro q h1 h2 h3
    simp [h1, h2, h3]
  · intro stackSize cin e
    subst e
    refine ⟨by simp [Rvm.new, Fg, Ip, Sp, Bp], rfl, fun q h2 h3 => ?_⟩
    simp only [setReg_regs, Rvm.new]
    split_ifs <;> rfl

theorem load_state_witness :
    [12, 3].length ≤ (Rvm.new 16 []).stack_.length ∧
    ∃ vm', load (Rvm.new 16 []) [12, 3] = some vm' ∧
      vm'.registers_ Ip = 0 ∧ vm'.registers_ Sp = [12, 3].length ∧
      vm'.registers_ Bp = [12, 3].length ∧ vm'.stack_.take [12, 3].length = [12, 3] ∧
      vm'.stack_.length = (Rvm.new 16 []).stack_.length ∧
      (∀ q, q ≠ Ip → q ≠ Sp → q ≠ Bp → vm'.registers_ q = (Rvm.new 16 []).registers_ q) ∧
      vm'.halted_ = (Rvm.new 16 []).halted_ ∧
      (∀ stackSize cin, Rvm.new 16 [] = Rvm.new stackSize cin →
        vm'.registers_ Fg = 0 ∧ vm'.halted_ = false ∧
        ∀ q, q ≠ Sp → q ≠ Bp → vm'.registers_ q = 0) :=
  ⟨by decide, load_state (Rvm.new 16 []) [12, 3] (by decide)⟩

/-- C21 (amended): `int 2` (`GetC`) sets `IR` to the byte read when the host input has one,
and to `2^64 - 1` (the `EOF` value `-1` of `getchar`, converted to `uint64_t`) when the
input is at its end; no other register except `IP` changes, and no memory byte. -/
theorem getc_step (vm : Rvm)
    (hop : readMem vm (vm.registers_ Ip) = .ok 12)
    (hb : readMem vm ((vm.registers_ Ip + 1) % 2 ^ 64) = .ok 2) :
    ∃ vm', step vm = .ok vm' ∧
      vm'.registers_ Ir = (match vm.cin with
        | [] => 2 ^ 64 - 1
        | c :: _ => c) ∧
      vm'.cin = vm.cin.tail ∧
      (∀ q, q ≠ Ir → q ≠ Ip → vm'.registers_ q = vm.registers_ q) ∧
      vm'.stack_ = vm.stack_ := by
  rw [step_int vm hop]
  unfold execInt
  rw [readMem_next vm _ hb, ok_bind]
  simp only [IntSize, ge_iff_le, show ¬ 4 ≤ 2 by decide, if_false]
  unfold run_interrupt_
  rw [if_neg (by decide), if_neg (by decide), if_pos rfl]
  cases hc : vm.cin with
  | nil =>
    rw [show (addIp (addIp vm 1) 1).cin = vm.cin from rfl, hc]
    exact ⟨_, rfl, by simp, hc, fun q h1 h2 => by simp [h1, h2], rfl⟩
  | cons c rest =>
    rw [show (addIp (addIp vm 1) 1).cin = vm.cin from rfl, hc]
    exact ⟨_, rfl, by simp, rfl, fun q h1 h2 => by simp [h1, h2], rfl⟩

/-- C21 (counterexample): `int 2` on a fresh machine whose host input is at its end: the claim
gives `IR = 0`, the step leaves `IR = 2^64 - 1`. -/
theorem getc_eof_counterexample :
    (Rasm.translateSource "int 2").map (fun t => t.fout) = some [12, 2] ∧
    (Rvm.new 16 []).cin = [] ∧
    (run 1 (Rvm.new 16 []) [12, 2]).view =
      some (some { ok := true, message := "" },
        [0, 0, 0, 0, 0, 0, 0, 0, 2 ^ 64 - 1, 0, 2, 2, 2], []) :=
  ⟨by decide, rfl, by decide⟩

theorem getc_step_witness :
    readMem getcMachine (getcMachine.registers_ Ip) = .ok 12 ∧
    readMem getcMachine ((getcMachine.registers_ Ip + 1) % 2 ^ 64) = .ok 2 ∧
    ∃ vm', step getcMachine = .ok vm' ∧
      vm'.registers_ Ir = (match getcMachine.cin with
        | [] => 2 ^ 64 - 1
        | c :: _ => c) ∧
      vm'.cin = getcMachine.cin.tail ∧
      (∀ q, q ≠ Ir → q ≠ Ip → vm'.registers_ q = getcMachine.registers_ q) ∧
      vm'.stack_ = getcMachine.stack_ :=
  ⟨rfl, rfl, getc_step getcMachine rfl rfl⟩

/-- C23 (counterexample): the output of the source `mov IR, 65` / `int 0` / `int 3` does not
begin with the eleven bytes `06 08 00 00 00 00 00 00 00 00 41`: the immediate has eight
bytes, so the byte `41` is the tenth byte and the eleventh is the opcode `0C`. -/
theorem print_byte_counterexample :
    (Rasm.translateSource "mov IR, 65\nint 0\nint 3").map (fun t => t.fout.take 11) =
      some [0x06, 0x08, 0, 0, 0, 0, 0, 0, 0, 0x41, 0x0C] ∧
    (Rasm.translateSource "mov IR, 65\nint 0\nint 3").map (fun t => t.fout.take 11) ≠
      some [0x06, 0x08, 0, 0, 0, 0, 0, 0, 0, 0, 0x41] :=
  ⟨by decide, by decide⟩

/-- C23 (amended): the output of the source `mov IR, 65` / `int 0` / `int 3` begins with the
ten bytes `06 08 00 00 00 00 00 00 00 41` (opcode 6, mode-00 byte with destination 8, the
eight bytes of the immediate 65); it is these followed by `0C 00 0C 03`, and running it on
a fresh machine (here of 64 bytes) writes the single byte `A` (65) to the host and returns ok. -/
theorem print_byte_scenario :
    (Rasm.translateSource "mov IR, 65\nint 0\nint 3").map (fun t => t.fout) =
      some ([0x06, 0x08, 0, 0, 0, 0, 0, 0, 0, 0x41] ++ [0x0C, 0, 0x0C, 3]) ∧
    (Rasm.translateSource "mov IR, 65\nint 0\nint 3").map Rasm.status =
      some { ok_ := true, errors_ := [] } ∧
    (∀ fuel, (run (3 + fuel) (Rvm.new 64 [])
        [0x06, 0x08, 0, 0, 0, 0, 0, 0, 0, 0x41, 0x0C, 0, 0x0C, 3]).view =
      some (some { ok := true, message := "" },
        [0, 0, 0, 0, 0, 0, 0, 0, 65, 4, 14, 14, 14], [65])) :=
  ⟨by decide, by decide, fun fuel => run_view_mono 3 _ _ _ _ _ (by decide) fuel⟩

/-- C26 (the code at a failing input): `int 1` (`PutS`) on a memory of two bytes that holds the
program `0C 01`, with `IR = 0` below the size 2.  No zero byte follows `memory[0]`; after
the bytes `0C`, `01` the loop evaluates `stack_[2]` before it tests `2 < stack_.size()`:
it reads one byte past the end of the memory. -/
theorem puts_failing_input :
    (Rasm.translateSource "int 1").map (fun t => t.fout) = some [12, 1] ∧
    (loaded 2 [12, 1]).registers_ Ir = 0 ∧ (loaded 2 [12, 1]).stack_ = [12, 1] ∧
    putsLoop ((loaded 2 [12, 1]).stack_.drop 0) = none ∧
    (∀ fuel, run (fuel + 1) (Rvm.new 2 []) [12, 1] = .undefined) :=
  ⟨by decide, rfl, rfl, rfl, fun _ => rfl⟩

/-- C29: for every size `S` (`Byte` 0 .. `Qword` 3), address `a` with `a + 2^S` inside the
memory and value `x`: `load_num_(S, a, x)` completes; `get_num_(S, a)` then returns
`x mod 2^(8 * 2^S)`; the bytes written are those of `x` from the most significant at
address `a` to the least significant at `a + 2^S - 1`; and no memory byte outside
`[a, a + 2^S)`, no register and not the size of the memory is changed. -/
theorem load_get_roundtrip (vm : Rvm) (S a x : Nat) (hS : S ≤ 3)
    (hin : a + 2 ^ S ≤ vm.stack_.length) :
    ∃ vm1, load_num_ vm S a x = .ok vm1 ∧
      get_num_ vm1 S a = .ok (x % 2 ^ (8 * 2 ^ S)) ∧
      (vm1.stack_.drop a).take (2 ^ S) =
        (List.range (2 ^ S)).map (fun i => x / 2 ^ (8 * (2 ^ S - 1 - i)) % 256) ∧
      (∀ j, j < a ∨ a + 2 ^ S ≤ j → vm1.stack_[j]? = vm.stack_[j]?) ∧
      vm1.stack_.length = vm.stack_.length ∧ vm1.registers_ = vm.registers_ := by
  have hw := width_eq S hS
  rw [← hw] at hin
  have hlen := sizeBytes_length S x
  refine ⟨_, load_num_eq vm S a x hin, ?_, ?_, ?_, ?_, rfl⟩
  · rw [← hw]
    exact get_num_stored _ vm.stack_ S a x rfl hin
  · rw [← hw, ← hlen]
    show ((storeBytes vm.stack_ a (sizeBytes S x)).drop a).take (sizeBytes S x).length = _
    rw [storeBytes_take _ _ _ (by rw [hlen]; exact hin), hlen, hw]
    exact sizeBytes_be S x hS
  · intro j hj
    show (storeBytes vm.stack_ a (sizeBytes S x))[j]? = _
    exact storeBytes_outside _ _ _ _ (by rw [hlen, hw]; exact hj)
  · show (storeBytes vm.stack_ a (sizeBytes S x)).length = _
    exact storeBytes_length _ _ _

theorem load_get_roundtrip_witness :
    2 ≤ 3 ∧ 4 + 2 ^ 2 ≤ (loaded 16 [12, 3]).stack_.length ∧
    ∃ vm1, load_num_ (loaded 16 [12, 3]) 2 4 0x0102030405 = .ok vm1 ∧
      get_num_ vm1 2 4 = .ok (0x0102030405 % 2 ^ (8 * 2 ^ 2)) ∧
      (vm1.stack_.drop 4).take (2 ^ 2) =
        (List.range (2 ^ 2)).map (fun i => 0x0102030405 / 2 ^ (8 * (2 ^ 2 - 1 - i)) % 256) ∧
      (∀ j, j < 4 ∨ 4 + 2 ^ 2 ≤ j → vm1.stack_[j]? = (loaded 16 [12, 3]).stack_[j]?) ∧
      vm1.stack_.length = (loaded 16 [12, 3]).stack_.length ∧
      vm1.registers_ = (loaded 16 [12, 3]).registers_ :=
  ⟨by decide, by decide, load_get_roundtrip (loaded 16 [12, 3]) 2 4 0x0102030405 (by decide)
    (by decide)⟩

theorem jmp_step_witness :
    2 < 4 ∧ 0 < 32 ∧
    (loaded 16 [9, 0x40, 0, 0, 0, 0, 0, 0, 0, 5]).stack_.length < 2 ^ 64 ∧
    (∀ x ∈ (loaded 16 [9, 0x40, 0, 0, 0, 0, 0, 0, 0, 5]).stack_, x < 256) ∧
    (loaded 16 [9, 0x40, 0, 0, 0, 0, 0, 0, 0, 5]).registers_ Ip + 10 ≤
      (loaded 16 [9, 0x40, 0, 0, 0, 0, 0, 0, 0, 5]).stack_.length ∧
    readMem (loaded 16 [9, 0x40, 0, 0, 0, 0, 0, 0, 0, 5])
      ((loaded 16 [9, 0x40, 0, 0, 0, 0, 0, 0, 0, 5]).registers_ Ip) = .ok 9 ∧
    readMem (loaded 16 [9, 0x40, 0, 0, 0, 0, 0, 0, 0, 5])
      ((loaded 16 [9, 0x40, 0, 0, 0, 0, 0, 0, 0, 5]).registers_ Ip + 1) =
      .ok (false.toNat * 128 + 2 * 32 + 0) ∧
    ∃ vm', step (loaded 16 [9, 0x40, 0, 0, 0, 0, 0, 0, 0, 5]) = .ok vm' ∧
      vm'.registers_ Ip =
        (if jumpTaken false 2 ((loaded 16 [9, 0x40, 0, 0, 0, 0, 0, 0, 0, 5]).registers_ Fg) = true
          then Rasm.beValue (((loaded 16 [9, 0x40, 0, 0, 0, 0, 0, 0, 0, 5]).stack_.drop
            ((loaded 16 [9, 0x40, 0, 0, 0, 0, 0, 0, 0, 5]).registers_ Ip + 2)).take 8)
          else (loaded 16 [9, 0x40, 0, 0, 0, 0, 0, 0, 0, 5]).registers_ Ip + 10) ∧
      SameButIp (loaded 16 [9, 0x40, 0, 0, 0, 0, 0, 0, 0, 5]) vm' :=
  ⟨by decide, by decide, by decide, by decide, by decide, rfl, rfl,
    jmp_step (loaded 16 [9, 0x40, 0, 0, 0, 0, 0, 0, 0, 5]) false 2 0 (by decide) (by decide)
      (by decide) (by decide) (by decide) rfl rfl⟩

theorem call_ret_symmetry_witness :
    (loaded 32 [10, 0, 0, 0, 0, 0, 0, 0, 9, 11]).stack_.length < 2 ^ 64 ∧
    (∀ x ∈ (loaded 32 [10, 0, 0, 0, 0, 0, 0, 0, 9, 11]).stack_, x < 256) ∧
    (loaded 32 [10, 0, 0, 0, 0, 0, 0, 0, 9, 11]).registers_ Ip + 9 ≤
      (loaded 32 [10, 0, 0, 0, 0, 0, 0, 0, 9, 11]).stack_.length ∧
    (loaded 32 [10, 0, 0, 0, 0, 0, 0, 0, 9, 11]).registers_ Sp + 8 ≤
      (loaded 32 [10, 0, 0, 0, 0, 0, 0, 0, 9, 11]).stack_.length ∧
    readMem (loaded 32 [10, 0, 0, 0, 0, 0, 0, 0, 9, 11])
      ((loaded 32 [10, 0, 0, 0, 0, 0, 0, 0, 9, 11]).registers_ Ip) = .ok 10 ∧
    ∃ vm1, step (loaded 32 [10, 0, 0, 0, 0, 0, 0, 0, 9, 11]) = .ok vm1 ∧
      (vm1.stack_.drop ((loaded 32 [10, 0, 0, 0, 0, 0, 0, 0, 9, 11]).registers_ Sp)).take 8 =
        Rasm.be8 ((loaded 32 [10, 0, 0, 0, 0, 0, 0, 0, 9, 11]).registers_ Ip + 9) ∧
      vm1.registers_ Sp = (loaded 32 [10, 0, 0, 0, 0, 0, 0, 0, 9, 11]).registers_ Sp + 8 ∧
      vm1.registers_ Ip = Rasm.beValue (((loaded 32 [10, 0, 0, 0, 0, 0, 0, 0, 9, 11]).stack_.drop
        ((loaded 32 [10, 0, 0, 0, 0, 0, 0, 0, 9, 11]).registers_ Ip + 1)).take 8) ∧
      ∀ vm2 : Rvm, vm2.registers_ Sp = vm1.registers_ Sp →
        (vm2.stack_.drop ((loaded 32 [10, 0, 0, 0, 0, 0, 0, 0, 9, 11]).registers_ Sp)).take 8 =
          (vm1.stack_.drop ((loaded 32 [10, 0, 0, 0, 0, 0, 0, 0, 9, 11]).registers_ Sp)).take 8 →
        readMem vm2 (vm2.registers_ Ip) = .ok 11 →
        ∃ vm3, step vm2 = .ok vm3 ∧
          vm3.registers_ Ip = (loaded 32 [10, 0, 0, 0, 0, 0, 0, 0, 9, 11]).registers_ Ip + 9 ∧
          vm3.registers_ Sp = (loaded 32 [10, 0, 0, 0, 0, 0, 0, 0, 9, 11]).registers_ Sp :=
  ⟨by decide, by decide, by decide, by decide, rfl,
    call_ret_symmetry (loaded 32 [10, 0, 0, 0, 0, 0, 0, 0, 9, 11]) (by decide) (by decide)
      (by decide) (by decide) rfl⟩

end RVM
